import Mathlib

/-!
# Ring buffer of `lmax.go`: a shallow embedding and its properties

The Go program keeps a fixed array of slots, one write cursor shared by the
producers, one read cursor per consumer and a read barrier.  The embedding
below follows `lmax.go` statement by statement.

Modelling conventions.

* `interface{}` values are `Option α`; `none` is Go's `nil`.
* `int` and `int64` are `Int`.  Sequence numbers are taken without
  wrap-around at `2^63` (the data model of the specification says they
  effectively never wrap).
* Go's `%` truncates toward zero, so it is `Int.tmod`; a zero divisor and an
  index outside the slice are runtime panics, and so is a `make` whose length
  is negative or beyond the allocation limit of the runtime (`makePanics`).
  Running out of physical memory below that limit is not modelled.
* A call either returns (`Outcome.done`), panics (`Outcome.panic`) or is still
  inside the `time.Sleep` polling loop when the fuel is spent
  (`Outcome.timeout`).  The calls are executed one after the other, so nothing
  changes the buffer while `Get` sleeps.
* Two concurrent `Put` calls are a step relation (`producerStep`, `duoRun`):
  the fetch-and-add, each payload store and each availability store are the
  atomic steps, interleaved by a schedule.
-/

namespace Lmax

/-- Result of running a call: it returned `r` leaving the state `s`, it
panicked in state `s`, or the fuel ran out in state `s`. -/
inductive Outcome (σ ρ : Type) where
  | done (r : ρ) (s : σ)
  | panic (s : σ)
  | timeout (s : σ)
  deriving DecidableEq, Repr

/-- The `RingBuffer` struct of `lmax.go`. -/
structure RingBuffer (α : Type) where
  size : Int
  buffer : List (Option α)
  writeCursor : Int
  readCursors : List Int
  available : List Int
  writeBarrier : Int
  readBarrier : Int
  deriving DecidableEq, Repr

variable {α : Type}

/-- The allocation limit of the Go runtime, `maxAlloc`: `2^48` bytes on 64-bit
Linux.  It is a constant of the runtime, not of the repository; the general
theorems below use no property of its value. -/
def maxAlloc : Nat := 281474976710656

/-- `make([]T, len)` panics (`makeslice: len out of range`) when `len` is
negative or `elemSize * len` bytes exceed the allocation limit; `elemSize` is
the size of `T`: 16 for `interface{}`, 8 for `int64`, 4 for `int32`. -/
def makePanics (elemSize len : Int) : Prop :=
  len < 0 ∨ (maxAlloc : Int) < elemSize * len

instance (elemSize len : Int) : Decidable (makePanics elemSize len) :=
  inferInstanceAs (Decidable (len < 0 ∨ (maxAlloc : Int) < elemSize * len))

/-- `NewRingBuffer(size, numConsumers)`: the three `make` calls, in the order
of the source, each of which may panic; otherwise every slot is `nil`, every
flag `0`, every read cursor `-1` and the remaining fields keep Go's zero
value. -/
def NewRingBuffer (size numConsumers : Int) : Option (RingBuffer α) :=
  if makePanics 16 size then none
  else if makePanics 8 numConsumers then none
  else if makePanics 4 size then none
  else some
    { size := size
      buffer := List.replicate size.toNat none
      writeCursor := 0
      readCursors := List.replicate numConsumers.toNat (-1)
      available := List.replicate size.toNat 0
      writeBarrier := 0
      readBarrier := 0 }

/-- The slot expression `seq % int64(rb.size)` used as a slice index: `none`
when the division panics (zero divisor) or the index is negative. -/
def slotIndex (size seq : Int) : Option Nat :=
  if size = 0 then none
  else if Int.tmod seq size < 0 then none
  else some (Int.tmod seq size).toNat

/-- The `for _, d := range data` loop of `Put`. -/
def putLoop (rb : RingBuffer α) (nextWrite : Int) :
    List (Option α) → Outcome (RingBuffer α) Unit
  | [] => .done () rb
  | d :: ds =>
    match slotIndex rb.size nextWrite with
    | none => .panic rb
    | some p =>
      if p < rb.buffer.length then
        if p < rb.available.length then
          putLoop { rb with buffer := rb.buffer.set p d, available := rb.available.set p 1 }
            (nextWrite + 1) ds
        else .panic { rb with buffer := rb.buffer.set p d }
      else .panic rb

/-- `Put(data...)`: fetch-and-add on the write cursor, then the store loop. -/
def Put (rb : RingBuffer α) (data : List (Option α)) : Outcome (RingBuffer α) Unit :=
  putLoop { rb with writeCursor := rb.writeCursor + data.length } rb.writeCursor data

/-- The `for i := 0; i < batchSize; { ... }` loop of `Get`; one unit of fuel
per evaluation of the loop condition. -/
def getLoop : Nat → RingBuffer α → Nat → Nat → Int → Nat → Nat → List (Option α) →
    Outcome (RingBuffer α) (Nat × List (Option α))
  | 0, rb, _, _, _, _, _, _ => .timeout rb
  | fuel + 1, rb, id, batchSize, nextRead, i, index, results =>
    if i < batchSize then
      if nextRead ≤ rb.writeCursor ∧ nextRead - rb.readBarrier < rb.size then
        match slotIndex rb.size nextRead with
        | none => .panic rb
        | some p =>
          match rb.available[p]? with
          | none => .panic rb
          | some a =>
            if a = 1 then
              match rb.buffer[p]? with
              | none => .panic rb
              | some v =>
                if index < results.length then
                  getLoop fuel { rb with readCursors := rb.readCursors.set id nextRead }
                    id batchSize (nextRead + 1) (i + 1) (index + 1) (results.set index v)
                else .panic rb
            else getLoop fuel rb id batchSize nextRead i index results
      else .done (index, results) rb
    else .done (index, results) rb

/-- The minimum scan `for _, cursor := range rb.readCursors` of `Get`. -/
def minCursor (start : Int) (cursors : List Int) : Int :=
  cursors.foldl (fun m cursor => if cursor < m then cursor else m) start

/-- `Get(batchSize, consumerId)`: the index expression
`rb.readCursors[consumerId]` panics on an id out of range, then
`make([]interface{}, batchSize)` may panic, then the loop runs and the barrier
is recomputed. -/
def Get (fuel : Nat) (rb : RingBuffer α) (batchSize consumerId : Int) :
    Outcome (RingBuffer α) (List (Option α)) :=
  if consumerId < 0 ∨ (rb.readCursors.length : Int) ≤ consumerId then .panic rb
  else if makePanics 16 batchSize then .panic rb
  else
    match getLoop fuel rb consumerId.toNat batchSize.toNat
        (rb.readCursors.getD consumerId.toNat 0 + 1) 0 0
        (List.replicate batchSize.toNat none) with
    | .done (index, results) rb1 =>
      .done (results.take index)
        { rb1 with
          readBarrier := minCursor (rb1.readCursors.getD consumerId.toNat 0) rb1.readCursors }
    | .panic s => .panic s
    | .timeout s => .timeout s


/-- What one evaluation of the loop body of `Get` finds at sequence `s`. -/
inductive Probe (α : Type) where
  | read (v : Option α)
  | wait
  | stop
  | fault
  deriving DecidableEq, Repr

/-- The tests the loop body of `Get` performs at sequence `s`; they read the
write cursor, the barrier, the flags and the slots, never the read cursors. -/
def probe (rb : RingBuffer α) (s : Int) : Probe α :=
  if s ≤ rb.writeCursor ∧ s - rb.readBarrier < rb.size then
    match slotIndex rb.size s with
    | none => .fault
    | some p =>
      match rb.available[p]? with
      | none => .fault
      | some a =>
        if a = 1 then
          match rb.buffer[p]? with
          | none => .fault
          | some v => .read v
        else .wait
  else .stop

/-- The state after the store `atomic.StoreInt64(readCursor, nextRead)`. -/
def advance (rb : RingBuffer α) (id : Nat) (s : Int) : RingBuffer α :=
  { rb with readCursors := rb.readCursors.set id s }

/-- The `results` slice after the stores `results[index] = v` for the values of
`vs`, starting at `index`. -/
def fill (res : List (Option α)) (idx : Nat) : List (Option α) → List (Option α)
  | [] => res
  | v :: vs => fill (res.set idx v) (idx + 1) vs

/-- The tail of `Get`: recompute the barrier from the read cursors. -/
def finish (rb : RingBuffer α) (id : Nat) : RingBuffer α :=
  { rb with readBarrier := minCursor (rb.readCursors.getD id 0) rb.readCursors }


/-- The two stores of one iteration of the `Put` loop, at slot `p`. -/
def store (rb : RingBuffer α) (p : Nat) (d : Option α) : RingBuffer α :=
  { rb with buffer := rb.buffer.set p d, available := rb.available.set p 1 }

/-- One completed call in a history of the buffer. -/
inductive Event (α : Type) where
  | put (data : List (Option α))
  | get (batchSize consumerId : Int) (results : List (Option α))
  deriving DecidableEq, Repr

/-- Every value passed to `Put` in the history, in call order. -/
def putValues : List (Event α) → List (Option α)
  | [] => []
  | .put data :: tr => data ++ putValues tr
  | .get _ _ _ :: tr => putValues tr

/-- Every value returned to consumer `id` in the history, in call order. -/
def received (id : Int) : List (Event α) → List (Option α)
  | [] => []
  | .put _ :: tr => received id tr
  | .get _ c res :: tr => if c = id then res ++ received id tr else received id tr

/-- `RunFrom rb0 tr rb`: the calls of `tr`, executed one after the other from
the state `rb0`, have all returned, with the results recorded in `tr`, and left
the state `rb`. -/
inductive RunFrom : RingBuffer α → List (Event α) → RingBuffer α → Prop where
  | nil (rb0 : RingBuffer α) : RunFrom rb0 [] rb0
  | put {rb0 : RingBuffer α} (tr : List (Event α)) (rb rb1 : RingBuffer α)
      (data : List (Option α)) :
      RunFrom rb0 tr rb → Put rb data = .done () rb1 → RunFrom rb0 (tr ++ [.put data]) rb1
  | get {rb0 : RingBuffer α} (tr : List (Event α)) (rb rb1 : RingBuffer α) (fuel : Nat)
      (b id : Int) (res : List (Option α)) :
      RunFrom rb0 tr rb → Get fuel rb b id = .done res rb1 →
      RunFrom rb0 (tr ++ [.get b id res]) rb1

/-- A history of completed calls on the buffer made by `NewRingBuffer(C, n)`. -/
def Run (C n : Int) (tr : List (Event α)) (rb : RingBuffer α) : Prop :=
  ∃ rb0, NewRingBuffer C n = some rb0 ∧ RunFrom rb0 tr rb

/-- The slices of the buffer have the capacity `C`, which is positive. -/
structure Shape (C : Nat) (rb : RingBuffer α) : Prop where
  size_eq : rb.size = C
  pos : 0 < C
  buf_len : rb.buffer.length = C
  av_len : rb.available.length = C

/-- The slots hold the last `C` values of the published sequence `P`, each
flagged available; the slots never written are flagged `0`. -/
def Published (C : Nat) (P : List (Option α)) (rb : RingBuffer α) : Prop :=
  (∀ s : Nat, s < P.length → P.length ≤ s + C →
      rb.buffer[s % C]? = P[s]? ∧ rb.available[s % C]? = some 1) ∧
  (∀ p : Nat, P.length ≤ p → p < C → rb.available[p]? = some 0)

/-- The invariant of the histories: shape, slot contents, cursor bounds. -/
structure Inv (C n : Nat) (P : List (Option α)) (rb : RingBuffer α) : Prop where
  shape : Shape C rb
  pub : Published C P rb
  wc : rb.writeCursor = P.length
  ncur : rb.readCursors.length = n
  cur_ge : ∀ c ∈ rb.readCursors, -1 ≤ c
  cur_le : ∀ c ∈ rb.readCursors, c ≤ rb.writeCursor
  bar_ge : -1 ≤ rb.readBarrier

/-- The state `rb` with the read barrier replaced by `x`. -/
def withBarrier (rb : RingBuffer α) (x : Int) : RingBuffer α :=
  { rb with readBarrier := x }

/-- The cursor of the slowest consumer, `min_i readCursors[i]`. -/
def lowestCursor (rb : RingBuffer α) : Int :=
  minCursor (rb.readCursors.headD 0) rb.readCursors

/-- The number of values put but not yet consumed by the slowest consumer,
`writeCursor - (min_i readCursors[i] + 1)`. -/
def unconsumed (rb : RingBuffer α) : Int :=
  rb.writeCursor - (lowestCursor rb + 1)

/-- The caller of `Put` passes no more values than the free capacity. -/
def PutFits (rb : RingBuffer α) (data : List (Option α)) : Prop :=
  unconsumed rb + data.length ≤ rb.size

instance (rb : RingBuffer α) (data : List (Option α)) : Decidable (PutFits rb data) :=
  inferInstanceAs (Decidable (unconsumed rb + data.length ≤ rb.size))

/-- The caller of `Get` asks for no more values than consumer `id` has still
to read. -/
def GetWithin (rb : RingBuffer α) (b id : Int) : Prop :=
  rb.readCursors.getD id.toNat 0 + b < rb.writeCursor

instance (rb : RingBuffer α) (b id : Int) : Decidable (GetWithin rb b id) :=
  inferInstanceAs (Decidable (rb.readCursors.getD id.toNat 0 + b < rb.writeCursor))

/-- A history from `rb0` in which every `Put` fits the free capacity and
every `Get` satisfies `getOk`. -/
inductive FitRunFrom (getOk : RingBuffer α → Int → Int → Prop) :
    RingBuffer α → List (Event α) → RingBuffer α → Prop where
  | nil (rb0 : RingBuffer α) : FitRunFrom getOk rb0 [] rb0
  | put {rb0 : RingBuffer α} (tr : List (Event α)) (rb rb1 : RingBuffer α)
      (data : List (Option α)) :
      FitRunFrom getOk rb0 tr rb → PutFits rb data → Put rb data = .done () rb1 →
      FitRunFrom getOk rb0 (tr ++ [.put data]) rb1
  | get {rb0 : RingBuffer α} (tr : List (Event α)) (rb rb1 : RingBuffer α) (fuel : Nat)
      (b id : Int) (res : List (Option α)) :
      FitRunFrom getOk rb0 tr rb → getOk rb b id → Get fuel rb b id = .done res rb1 →
      FitRunFrom getOk rb0 (tr ++ [.get b id res]) rb1

/-- What the consumers of a history have been handed: consumer `i` at cursor
`r` has received the first `r + 1` values put, and `r` is below the write
cursor; an id outside `[0, n)` has received nothing. -/
structure Delivered (n : Nat) (tr : List (Event α)) (rb : RingBuffer α) : Prop where
  valid : ∀ i : Nat, i < n → ∃ r : Int, rb.readCursors[i]? = some r ∧ r < rb.writeCursor ∧
    received (i : Int) tr = (putValues tr).take (r + 1).toNat
  invalid : ∀ id : Int, (id < 0 ∨ (n : Int) ≤ id) → received id tr = []

/-- A call to be made on the buffer. -/
inductive Call (α : Type) where
  | put (data : List (Option α))
  | get (batchSize consumerId : Int)
  deriving DecidableEq, Repr

/-- Execute the calls one after the other, each `Get` with the given fuel,
appending the completed calls to the history; `none` as soon as a call does
not return. -/
def runCalls (fuel : Nat) :
    List (Event α) → RingBuffer α → List (Call α) → Option (List (Event α) × RingBuffer α)
  | tr, rb, [] => some (tr, rb)
  | tr, rb, .put data :: cs =>
    match Put rb data with
    | .done _ rb1 => runCalls fuel (tr ++ [.put data]) rb1 cs
    | _ => none
  | tr, rb, .get b id :: cs =>
    match Get fuel rb b id with
    | .done res rb1 => runCalls fuel (tr ++ [.get b id res]) rb1 cs
    | _ => none

/-- The sum of the batch sizes consumer `id` has asked for in the history. -/
def requested (id : Int) : List (Event α) → Int
  | [] => 0
  | .put _ :: tr => requested id tr
  | .get b c _ :: tr => if c = id then b + requested id tr else requested id tr

/-- The history consists of `Put` calls only. -/
def onlyPuts (tr : List (Event α)) : Bool :=
  tr.all fun e => match e with
    | .put _ => true
    | .get _ _ _ => false

/-- The history consists of `Get` calls with batch sizes of at least 1. -/
def onlyGets (tr : List (Event α)) : Bool :=
  tr.all fun e => match e with
    | .put _ => false
    | .get b _ _ => decide (1 ≤ b)

/-- How many values a consumer may ask for in the fan-out scenario: all of
them when it is alone, otherwise no more than `C - 1`. -/
def fanOutBound (C n len : Nat) : Int :=
  if n = 1 then (len : Int) else min (len : Int) ((C : Int) - 1)

/-- The invariant of the fan-out scenario: the values `vs` are published, the
history `gets` holds `Get` calls only, each of which returned as many values
as it asked for, and consumer `i` has received the first `requested i` values
of `vs`. -/
structure FanOut (C n : Nat) (vs : List (Option α)) (gets : List (Event α))
    (rb : RingBuffer α) : Prop where
  inv : Inv C n vs rb
  cur : ∀ i : Nat, i < n → 0 ≤ requested (i : Int) gets ∧
    rb.readCursors[i]? = some (requested (i : Int) gets - 1) ∧
    received (i : Int) gets = vs.take (requested (i : Int) gets).toNat
  full : ∀ (b id : Int) (res : List (Option α)), Event.get b id res ∈ gets →
    (res.length : Int) = b
  bar : n = 1 → 0 ≤ rb.readBarrier

/-- The ten single-value `Put` calls of `TestBasicFunctionality`. -/
def basicPutCalls : List (Call Nat) := (List.range 10).map fun i => .put [some i]

/-- The history of the ten `Put` calls of `TestBasicFunctionality`. -/
def basicPuts : List (Event Nat) := (List.range 10).map fun i => .put [some i]

/-- The buffer of `TestBasicFunctionality` after its ten `Put` calls. -/
def basicAfterPuts : RingBuffer Nat :=
  ⟨10, (List.range 10).map some, 10, [-1, -1], List.replicate 10 1, 0, 0⟩

/-- The two `Get` calls of `TestBasicFunctionality` with their results. -/
def basicGets : List (Event Nat) :=
  [.get 5 0 ((List.range 5).map some), .get 5 1 ((List.range 5).map some)]

/-- The buffer of `TestBasicFunctionality` after both `Get` calls. -/
def basicAfterGets : RingBuffer Nat :=
  ⟨10, (List.range 10).map some, 10, [4, 4], List.replicate 10 1, 0, 4⟩

/-- The history holds at least one completed `Get`. -/
def hasGet (tr : List (Event α)) : Bool :=
  tr.any fun e => match e with
    | .put _ => false
    | .get _ _ _ => true

/-- The state `rb` with the write cursor replaced by `x`: the state after the
fetch-and-add of `Put`. -/
def withCursor (rb : RingBuffer α) (x : Int) : RingBuffer α :=
  { rb with writeCursor := x }

/-- Where a producer stands inside `Put`: before the fetch-and-add, before the
payload store of `d` (with `ds` still to come), before the availability store
of the item whose payload it has just stored, or returned.  `nextWrite` is the
local variable of `Put`. -/
inductive Producer (α : Type) where
  | claim (data : List (Option α))
  | payload (nextWrite : Int) (d : Option α) (ds : List (Option α))
  | flag (nextWrite : Int) (ds : List (Option α))
  | returned (nextWrite : Int)
  deriving DecidableEq, Repr

/-- The head of the `for _, d := range data` loop: the next payload store, or
the return when nothing is left. -/
def Producer.enter (nextWrite : Int) : List (Option α) → Producer α
  | [] => .returned nextWrite
  | d :: ds => .payload nextWrite d ds

/-- One atomic step of a producer on the shared buffer: the fetch-and-add on
the write cursor, the payload store, or the availability store.  `none` when
the step panics or the producer has returned. -/
def producerStep (rb : RingBuffer α) : Producer α → Option (RingBuffer α × Producer α)
  | .claim data =>
    some (withCursor rb (rb.writeCursor + data.length), Producer.enter rb.writeCursor data)
  | .payload nextWrite d ds =>
    match slotIndex rb.size nextWrite with
    | none => none
    | some p =>
      if p < rb.buffer.length then
        some ({ rb with buffer := rb.buffer.set p d }, .flag nextWrite ds)
      else none
  | .flag nextWrite ds =>
    match slotIndex rb.size nextWrite with
    | none => none
    | some p =>
      if p < rb.available.length then
        some ({ rb with available := rb.available.set p 1 }, Producer.enter (nextWrite + 1) ds)
      else none
  | .returned _ => none

/-- A producer running alone for `k` steps. -/
def soloRun : Nat → RingBuffer α → Producer α → Option (RingBuffer α × Producer α)
  | 0, rb, t => some (rb, t)
  | k + 1, rb, t =>
    match producerStep rb t with
    | none => none
    | some (rb1, t1) => soloRun k rb1 t1

/-- Two producers inside `Put` on the same buffer. -/
structure Duo (α : Type) where
  rb : RingBuffer α
  a : Producer α
  b : Producer α
  deriving DecidableEq, Repr

/-- One step of the pair: the first producer moves when `first` is true, the
second otherwise. -/
def duoStep (s : Duo α) (first : Bool) : Option (Duo α) :=
  if first then
    match producerStep s.rb s.a with
    | none => none
    | some (rb1, t1) => some ⟨rb1, t1, s.b⟩
  else
    match producerStep s.rb s.b with
    | none => none
    | some (rb1, t1) => some ⟨rb1, s.a, t1⟩

/-- The pair under a schedule, the list of who moves next. -/
def duoRun (s : Duo α) : List Bool → Option (Duo α)
  | [] => some s
  | x :: xs =>
    match duoStep s x with
    | none => none
    | some s1 => duoRun s1 xs

/-- The first sequence of the range a producer has obtained with its
fetch-and-add, recovered from `nextWrite` and the items still to store; `none`
before the fetch-and-add. -/
def Producer.start (data : List (Option α)) : Producer α → Option Int
  | .claim _ => none
  | .payload nextWrite _ ds => some (nextWrite - (data.length - (ds.length + 1)))
  | .flag nextWrite ds => some (nextWrite - (data.length - (ds.length + 1)))
  | .returned nextWrite => some (nextWrite - data.length)

/-- The first `ks` payloads and the first `kf` flags of the range of `d` that
starts at sequence `w + o` are in their slots; this is tracked only when the
ranges fit the capacity (`fit`). -/
def Filled (fit : Prop) (C w : Nat) (rb : RingBuffer α) (d : List (Option α))
    (o ks kf : Nat) : Prop :=
  fit →
    (∀ j : Nat, j < ks → rb.buffer[(w + o + j) % C]? = d[j]?) ∧
    (∀ j : Nat, j < kf → rb.available[(w + o + j) % C]? = some 1)

/-- The producer has obtained the range of `d` at `w + o` and what it has
stored so far is in place. -/
def Owns (fit : Prop) (C w : Nat) (rb : RingBuffer α) (d : List (Option α)) (o : Nat) :
    Producer α → Prop
  | .claim _ => False
  | .payload nextWrite x xs =>
    ∃ k : Nat, k < d.length ∧ d.drop k = x :: xs ∧ nextWrite = ((w + o + k : Nat) : Int) ∧
      Filled fit C w rb d o k k
  | .flag nextWrite xs =>
    ∃ k : Nat, k < d.length ∧ d.drop (k + 1) = xs ∧ nextWrite = ((w + o + k : Nat) : Int) ∧
      Filled fit C w rb d o (k + 1) k
  | .returned nextWrite =>
    nextWrite = ((w + o + d.length : Nat) : Int) ∧ Filled fit C w rb d o d.length d.length

/-- The invariant of two producers with the values `a` and `b` started at
write cursor `w`: neither, one or both have obtained their range, in either
order. -/
structure DuoInv (fit : Prop) (C w : Nat) (a b : List (Option α)) (s : Duo α) : Prop where
  shape : Shape C s.rb
  layout :
    (s.a = .claim a ∧ s.b = .claim b ∧ s.rb.writeCursor = (w : Int)) ∨
    (Owns fit C w s.rb a 0 s.a ∧ s.b = .claim b ∧ s.rb.writeCursor = ((w + a.length : Nat) : Int)) ∨
    (s.a = .claim a ∧ Owns fit C w s.rb b 0 s.b ∧ s.rb.writeCursor = ((w + b.length : Nat) : Int)) ∨
    (Owns fit C w s.rb a 0 s.a ∧ Owns fit C w s.rb b a.length s.b ∧
      s.rb.writeCursor = ((w + a.length + b.length : Nat) : Int)) ∨
    (Owns fit C w s.rb a b.length s.a ∧ Owns fit C w s.rb b 0 s.b ∧
      s.rb.writeCursor = ((w + a.length + b.length : Nat) : Int))

/-- The slices of `rb1` agree with those of `rb` on every slot but `q`. -/
def AgreeOff (rb rb1 : RingBuffer α) (q : Nat) : Prop :=
  ∀ p : Nat, p ≠ q → rb1.buffer[p]? = rb.buffer[p]? ∧ rb1.available[p]? = rb.available[p]?

theorem getLoop_succ (fuel : Nat) (rb : RingBuffer α) (id b : Nat) (s : Int) (i idx : Nat)
    (res : List (Option α)) :
    getLoop (fuel + 1) rb id b s i idx res =
      if i < b then
        match probe rb s with
        | .read v =>
          if idx < res.length then
            getLoop fuel (advance rb id s) id b (s + 1) (i + 1) (idx + 1) (res.set idx v)
          else .panic rb
        | .wait => getLoop fuel rb id b s i idx res
        | .stop => .done (idx, res) rb
        | .fault => .panic rb
      else .done (idx, res) rb := by
  simp only [getLoop, probe, advance]
  by_cases hi : i < b
  · by_cases hc : s ≤ rb.writeCursor ∧ s - rb.readBarrier < rb.size
    · simp only [hi, hc, if_true, and_self]
      cases h1 : slotIndex rb.size s with
      | none => simp
      | some p =>
        cases h2 : rb.available[p]? with
        | none => simp [h2]
        | some a =>
          by_cases ha : a = 1
          · cases h3 : rb.buffer[p]? with
            | none => simp [h2, h3, ha]
            | some v => simp [h2, h3, ha]
          · simp [h2, ha]
    · simp only [hi, hc, if_true, if_false]
  · simp only [hi, if_false]

@[simp] theorem probe_advance (rb : RingBuffer α) (id : Nat) (s t : Int) :
    probe (advance rb id s) t = probe rb t := rfl


theorem advance_advance (rb : RingBuffer α) (id : Nat) (s t : Int) :
    advance (advance rb id s) id t = advance rb id t := by
  simp [advance, List.set_set]

theorem advance_self (rb : RingBuffer α) (id : Nat) (r : Int)
    (hr : rb.readCursors[id]? = some r) : advance rb id r = rb := by
  have h : rb.readCursors.set id r = rb.readCursors := by
    apply List.ext_getElem?
    intro j
    rw [List.getElem?_set]
    by_cases hj : id = j
    · subst hj
      have hlt : id < rb.readCursors.length := by
        by_contra hc
        rw [List.getElem?_eq_none (by omega)] at hr
        cases hr
      simp [hlt, hr]
    · simp [hj]
  cases rb
  simp only [advance] at *
  simp [h]

theorem advance_cursor (rb : RingBuffer α) (id : Nat) (r s : Int)
    (hr : rb.readCursors[id]? = some r) : (advance rb id s).readCursors[id]? = some s := by
  have hlt : id < rb.readCursors.length := by
    by_contra hc
    rw [List.getElem?_eq_none (by omega)] at hr
    cases hr
  simp [advance, List.getElem?_set, hlt]

theorem take_set_self (res : List (Option α)) (idx : Nat) (v : Option α) :
    List.take idx (res.set idx v) = List.take idx res := by
  apply List.ext_getElem?
  intro j
  simp only [List.getElem?_take, List.getElem?_set]
  by_cases h : j < idx
  · simp [h]; omega
  · simp [h]

theorem fill_length (vs : List (Option α)) : ∀ (res : List (Option α)) (idx : Nat),
    (fill res idx vs).length = res.length := by
  induction vs with
  | nil => intro res idx; rfl
  | cons v vs ih => intro res idx; simp [fill, ih]

theorem take_fill (vs : List (Option α)) : ∀ (res : List (Option α)) (idx : Nat),
    idx + vs.length ≤ res.length →
    (fill res idx vs).take (idx + vs.length) = res.take idx ++ vs := by
  induction vs with
  | nil => intro res idx _; simp [fill]
  | cons v vs ih =>
    intro res idx h
    simp only [List.length_cons] at h
    have h1 := ih (res.set idx v) (idx + 1) (by simp; omega)
    simp only [fill, List.length_cons]
    rw [show idx + (vs.length + 1) = idx + 1 + vs.length by omega, h1, List.take_succ]
    have hlt : idx < res.length := by omega
    simp [List.getElem?_set, hlt, take_set_self]

/-- Consecutive successful reads: `vs.length` iterations of the loop. -/
theorem getLoop_reads (id b : Nat) (vs : List (Option α)) :
    ∀ (fuel : Nat) (rb : RingBuffer α) (s : Int) (i idx : Nat) (res : List (Option α)),
    (∀ (j : Nat) (h : j < vs.length), probe rb (s + j) = .read (vs.get ⟨j, h⟩)) →
    i + vs.length ≤ b → idx + vs.length ≤ res.length →
    rb.readCursors[id]? = some (s - 1) →
    getLoop (fuel + vs.length) rb id b s i idx res =
      getLoop fuel (advance rb id (s + vs.length - 1)) id b (s + vs.length)
        (i + vs.length) (idx + vs.length) (fill res idx vs) := by
  induction vs with
  | nil =>
    intro fuel rb s i idx res _ _ _ hr
    simp [fill, advance_self rb id (s - 1) hr]
  | cons v vs ih =>
    intro fuel rb s i idx res hp hi hidx hr
    simp only [List.length_cons] at hi hidx
    have h0 := hp 0 (by simp)
    simp only [List.get_eq_getElem, List.getElem_cons_zero, Nat.cast_zero, add_zero] at h0
    rw [show fuel + (v :: vs).length = (fuel + vs.length) + 1 by simp; omega, getLoop_succ]
    rw [if_pos (by omega), h0]
    simp only
    rw [if_pos (by omega)]
    rw [ih fuel (advance rb id s) (s + 1) (i + 1) (idx + 1) (res.set idx v)]
    · rw [advance_advance]
      simp only [List.length_cons, fill, Nat.cast_add, Nat.cast_one]
      have e1 : s + 1 + (vs.length : Int) - 1 = s + ((vs.length : Int) + 1) - 1 := by ring
      have e2 : s + 1 + (vs.length : Int) = s + ((vs.length : Int) + 1) := by ring
      rw [e1, e2, show i + 1 + vs.length = i + (vs.length + 1) by omega,
        show idx + 1 + vs.length = idx + (vs.length + 1) by omega]
    · intro j hj
      have := hp (j + 1) (by simp; omega)
      simp only [List.get_eq_getElem, List.getElem_cons_succ, Nat.cast_add, Nat.cast_one] at this
      rw [probe_advance, show s + 1 + (j : Int) = s + ((j : Int) + 1) by ring]
      simpa using this
    · omega
    · simp; omega
    · rw [show s + 1 - 1 = s by ring]
      exact advance_cursor rb id (s - 1) s hr


theorem getLoop_wait (id b : Nat) (rb : RingBuffer α) (s : Int) (i idx : Nat)
    (res : List (Option α)) (hw : probe rb s = .wait) (hi : i < b) :
    ∀ fuel : Nat, getLoop fuel rb id b s i idx res = .timeout rb := by
  intro fuel
  induction fuel with
  | zero => rfl
  | succ n ih => rw [getLoop_succ, if_pos hi, hw]; exact ih

/-- After some successful reads the loop meets a slot that is not available:
it polls for ever. -/
theorem getLoop_reads_wait (id b : Nat) (vs : List (Option α)) (rb : RingBuffer α) (s : Int)
    (i idx : Nat) (res : List (Option α))
    (hp : ∀ (j : Nat) (h : j < vs.length), probe rb (s + j) = .read (vs.get ⟨j, h⟩))
    (hi : i + vs.length < b) (hidx : idx + vs.length ≤ res.length)
    (hr : rb.readCursors[id]? = some (s - 1))
    (hw : probe rb (s + vs.length) = .wait) :
    ∀ fuel : Nat, ∃ st, getLoop fuel rb id b s i idx res = .timeout st := by
  intro fuel
  by_cases hf : vs.length ≤ fuel
  · obtain ⟨f, rfl⟩ := Nat.exists_eq_add_of_le' hf
    rw [getLoop_reads id b vs f rb s i idx res hp (by omega) hidx hr]
    exact ⟨_, getLoop_wait id b _ _ _ _ _ (by rw [probe_advance]; exact hw) hi f⟩
  · have hlen : (vs.take fuel).length = fuel := by simp; omega
    have := getLoop_reads id b (vs.take fuel) 0 rb s i idx res
      (by
        intro j hj
        have hj2 : j < vs.length := by rw [hlen] at hj; omega
        rw [hp j hj2]
        simp)
      (by rw [hlen]; omega) (by rw [hlen]; omega) hr
    rw [hlen, Nat.zero_add] at this
    rw [this]
    exact ⟨_, rfl⟩

/-- After the reads of `vs` the loop leaves: the batch is full or the guard
fails. -/
theorem getLoop_reads_done (id b : Nat) (vs : List (Option α)) (rb : RingBuffer α) (s : Int)
    (i idx : Nat) (res : List (Option α))
    (hp : ∀ (j : Nat) (h : j < vs.length), probe rb (s + j) = .read (vs.get ⟨j, h⟩))
    (hi : i + vs.length ≤ b) (hidx : idx + vs.length ≤ res.length)
    (hr : rb.readCursors[id]? = some (s - 1))
    (hend : i + vs.length = b ∨ probe rb (s + vs.length) = .stop)
    (fuel : Nat) (hf : vs.length < fuel) :
    getLoop fuel rb id b s i idx res =
      .done (idx + vs.length, fill res idx vs) (advance rb id (s + vs.length - 1)) := by
  obtain ⟨f, rfl⟩ := Nat.exists_eq_add_of_le' (Nat.succ_le_of_lt hf)
  rw [show f + (vs.length + 1) = (f + 1) + vs.length by omega,
    getLoop_reads id b vs (f + 1) rb s i idx res hp hi hidx hr, getLoop_succ]
  by_cases hib : i + vs.length < b
  · rw [if_pos hib, probe_advance]
    rcases hend with h | h
    · omega
    · rw [h]
  · rw [if_neg hib]

/-- Everything a returning loop has done. -/
theorem getLoop_done_inv (id b : Nat) :
    ∀ (fuel : Nat) (rb : RingBuffer α) (s : Int) (i idx : Nat) (res : List (Option α))
      (idx1 : Nat) (res1 : List (Option α)) (rb1 : RingBuffer α),
    getLoop fuel rb id b s i idx res = .done (idx1, res1) rb1 →
    rb.readCursors[id]? = some (s - 1) → i ≤ b → idx ≤ res.length →
    ∃ vs : List (Option α),
      (∀ (j : Nat) (h : j < vs.length), probe rb (s + j) = .read (vs.get ⟨j, h⟩)) ∧
      i + vs.length ≤ b ∧ idx + vs.length ≤ res.length ∧
      (i + vs.length = b ∨ probe rb (s + vs.length) = .stop) ∧
      vs.length < fuel ∧
      idx1 = idx + vs.length ∧ res1 = fill res idx vs ∧
      rb1 = advance rb id (s + vs.length - 1) := by
  intro fuel
  induction fuel with
  | zero => intro rb s i idx res idx1 res1 rb1 h; simp [getLoop] at h
  | succ n ih =>
    intro rb s i idx res idx1 res1 rb1 h hr hib hxl
    rw [getLoop_succ] at h
    by_cases hi : i < b
    · rw [if_pos hi] at h
      cases hp : probe rb s with
      | read v =>
        rw [hp] at h
        simp only at h
        by_cases hx : idx < res.length
        · rw [if_pos hx] at h
          obtain ⟨vs, h1, h2, h3, h4, h5, h6, h7, h8⟩ :=
            ih (advance rb id s) (s + 1) (i + 1) (idx + 1) (res.set idx v) idx1 res1 rb1 h
              (by rw [show s + 1 - 1 = s by ring]; exact advance_cursor rb id (s - 1) s hr)
              (by omega) (by simp; omega)
          refine ⟨v :: vs, ?_, ?_, ?_, ?_, ?_, ?_, ?_, ?_⟩
          · intro j hj
            cases j with
            | zero => simpa using hp
            | succ j =>
              have := h1 j (by simpa using hj)
              rw [probe_advance, show s + 1 + (j : Int) = s + ((j + 1 : Nat) : Int) by
                push_cast; ring] at this
              simpa using this
          · simp; omega
          · simp at h3 ⊢; omega
          · rcases h4 with h4 | h4
            · left; simp; omega
            · right
              rw [probe_advance] at h4
              rw [← h4]; congr 1; simp; ring
          · simp; omega
          · simp; omega
          · simpa [fill] using h7
          · rw [h8, advance_advance]; congr 1; simp; ring
        · rw [if_neg hx] at h; cases h
      | wait =>
        rw [hp] at h
        simp only at h
        obtain ⟨vs, h1, h2, h3, h4, h5, h6⟩ := ih rb s i idx res idx1 res1 rb1 h hr hib hxl
        exact ⟨vs, h1, h2, h3, h4, by omega, h6⟩
      | stop =>
        rw [hp] at h
        simp only [Outcome.done.injEq, Prod.mk.injEq] at h
        obtain ⟨⟨h1, h2⟩, h3⟩ := h
        refine ⟨[], ?_, ?_, ?_, ?_, ?_, ?_, ?_, ?_⟩
        · intro j hj; simp at hj
        · simpa using hib
        · simpa using hxl
        · right; simpa using hp
        · simp
        · simp [h1]
        · simp [fill, h2]
        · simp [← h3, advance_self rb id (s - 1) hr]
      | fault => rw [hp] at h; cases h
    · rw [if_neg hi] at h
      simp only [Outcome.done.injEq, Prod.mk.injEq] at h
      obtain ⟨⟨h1, h2⟩, h3⟩ := h
      refine ⟨[], ?_, ?_, ?_, ?_, ?_, ?_, ?_, ?_⟩
      · intro j hj; simp at hj
      · simpa using hib
      · simpa using hxl
      · left; simp; omega
      · simp
      · simp [h1]
      · simp [fill, h2]
      · simp [← h3, advance_self rb id (s - 1) hr]


/-- A panic inside the loop comes from a failed slot access. -/
theorem getLoop_panic_inv (id b : Nat) :
    ∀ (fuel : Nat) (rb : RingBuffer α) (s : Int) (i idx : Nat) (res : List (Option α))
      (st : RingBuffer α),
    getLoop fuel rb id b s i idx res = .panic st →
    idx + (b - i) ≤ res.length →
    ∃ k : Nat, probe rb (s + k) = .fault := by
  intro fuel
  induction fuel with
  | zero => intro rb s i idx res st h; simp [getLoop] at h
  | succ n ih =>
    intro rb s i idx res st h hx
    rw [getLoop_succ] at h
    by_cases hi : i < b
    · rw [if_pos hi] at h
      cases hp : probe rb s with
      | read v =>
        rw [hp] at h
        simp only at h
        rw [if_pos (by omega)] at h
        obtain ⟨k, hk⟩ := ih (advance rb id s) (s + 1) (i + 1) (idx + 1) (res.set idx v) st h
          (by simp; omega)
        refine ⟨k + 1, ?_⟩
        rw [probe_advance] at hk
        rw [← hk]; congr 1; push_cast; ring
      | wait =>
        rw [hp] at h
        exact ih rb s i idx res st h hx
      | stop => rw [hp] at h; cases h
      | fault => exact ⟨0, by simpa using hp⟩
    · rw [if_neg hi] at h; cases h

theorem cursor_lt_length {rb : RingBuffer α} {id : Nat} {r : Int}
    (hr : rb.readCursors[id]? = some r) : id < rb.readCursors.length := by
  by_contra hc
  rw [List.getElem?_eq_none (by omega)] at hr
  cases hr

/-- `Get` returns the values `vs` when the loop reads them and then leaves. -/
theorem Get_done (rb : RingBuffer α) (b id : Nat) (r : Int) (vs : List (Option α))
    (hr : rb.readCursors[id]? = some r)
    (hp : ∀ (j : Nat) (h : j < vs.length), probe rb (r + 1 + j) = .read (vs.get ⟨j, h⟩))
    (hlen : vs.length ≤ b)
    (hend : vs.length = b ∨ probe rb (r + 1 + vs.length) = .stop)
    (fuel : Nat) (hf : vs.length < fuel) (h2 : ¬ makePanics 16 (b : Int)) :
    Get fuel rb b id = .done vs (finish (advance rb id (r + vs.length)) id) := by
  have hlt := cursor_lt_length hr
  have hg : rb.readCursors.getD id 0 = r := by
    simp [List.getD_eq_getElem?_getD, hr]
  have h1 : ¬ ((id : Int) < 0 ∨ (rb.readCursors.length : Int) ≤ (id : Int)) := by omega
  unfold Get
  rw [if_neg h1, if_neg h2]
  simp only [Int.toNat_ofNat, hg]
  rw [getLoop_reads_done id b vs rb (r + 1) 0 0 (List.replicate b none) hp (by omega)
    (by simp; omega) (by simpa using hr) (by simpa using hend) fuel hf]
  simp only
  rw [take_fill vs _ 0 (by simp; omega)]
  simp only [List.take_zero, List.nil_append, finish]
  rw [show r + 1 + (vs.length : Int) - 1 = r + vs.length by ring]

/-- `Get` polls for ever when, after the reads of `vs`, the next slot is not
available. -/
theorem Get_waits (rb : RingBuffer α) (b id : Nat) (r : Int) (vs : List (Option α))
    (hr : rb.readCursors[id]? = some r)
    (hp : ∀ (j : Nat) (h : j < vs.length), probe rb (r + 1 + j) = .read (vs.get ⟨j, h⟩))
    (hlen : vs.length < b)
    (hw : probe rb (r + 1 + vs.length) = .wait) (h2 : ¬ makePanics 16 (b : Int)) :
    ∀ fuel : Nat, ∃ st, Get fuel rb b id = .timeout st := by
  intro fuel
  have hlt := cursor_lt_length hr
  have hg : rb.readCursors.getD id 0 = r := by
    simp [List.getD_eq_getElem?_getD, hr]
  have h1 : ¬ ((id : Int) < 0 ∨ (rb.readCursors.length : Int) ≤ (id : Int)) := by omega
  unfold Get
  rw [if_neg h1, if_neg h2]
  simp only [Int.toNat_ofNat, hg]
  obtain ⟨st, hst⟩ := getLoop_reads_wait id b vs rb (r + 1) 0 0 (List.replicate b none) hp
    (by omega) (by simp; omega) (by simpa using hr) hw fuel
  rw [hst]
  exact ⟨st, rfl⟩

/-- Everything a returning `Get` has done. -/
theorem Get_done_inv (fuel : Nat) (rb : RingBuffer α) (b id : Int) (res : List (Option α))
    (rb1 : RingBuffer α) (h : Get fuel rb b id = .done res rb1) :
    0 ≤ id ∧ id < rb.readCursors.length ∧ 0 ≤ b ∧
    ∃ r : Int, rb.readCursors[id.toNat]? = some r ∧
      (∀ (j : Nat) (h : j < res.length), probe rb (r + 1 + j) = .read (res.get ⟨j, h⟩)) ∧
      res.length ≤ b.toNat ∧
      (res.length = b.toNat ∨ probe rb (r + 1 + res.length) = .stop) ∧
      res.length < fuel ∧
      rb1 = finish (advance rb id.toNat (r + res.length)) id.toNat := by
  unfold Get at h
  by_cases h1 : id < 0 ∨ (rb.readCursors.length : Int) ≤ id
  · rw [if_pos h1] at h; cases h
  rw [if_neg h1] at h
  by_cases h2 : makePanics 16 b
  · rw [if_pos h2] at h; cases h
  rw [if_neg h2] at h
  have hb0 : 0 ≤ b := by
    unfold makePanics at h2
    omega
  have hlt : id.toNat < rb.readCursors.length := by omega
  have hr : rb.readCursors[id.toNat]? = some (rb.readCursors.getD id.toNat 0) := by
    simp [List.getD_eq_getElem?_getD, List.getElem?_eq_getElem hlt]
  refine ⟨by omega, by omega, by omega, rb.readCursors.getD id.toNat 0, hr, ?_⟩
  generalize rb.readCursors.getD id.toNat 0 = r at h hr
  cases hl : getLoop fuel rb id.toNat b.toNat (r + 1) 0 0 (List.replicate b.toNat none) with
  | done p st =>
    obtain ⟨idx1, res1⟩ := p
    rw [hl] at h
    simp only [Outcome.done.injEq] at h
    obtain ⟨hres, hst⟩ := h
    obtain ⟨vs, g1, g2, g3, g4, g5, g6, g7, g8⟩ :=
      getLoop_done_inv id.toNat b.toNat fuel rb (r + 1) 0 0 _ idx1 res1 st hl
        (by simpa using hr) (by omega) (by simp)
    have hvs : res = vs := by
      rw [← hres, g6, g7, take_fill vs _ 0 (by simpa using g3)]
      simp
    subst hvs
    refine ⟨g1, by omega, by simpa using g4, g5, ?_⟩
    rw [← hst, g8, show r + 1 + (res.length : Int) - 1 = r + res.length by ring]
    rfl
  | panic st => rw [hl] at h; cases h
  | timeout st => rw [hl] at h; cases h

/-- A panicking `Get` has a bad consumer id or a negative batch size, and then
the buffer is untouched, or a slot access of the loop failed. -/
theorem Get_panic_inv (fuel : Nat) (rb : RingBuffer α) (b id : Int) (st : RingBuffer α)
    (h : Get fuel rb b id = .panic st) :
    ((id < 0 ∨ (rb.readCursors.length : Int) ≤ id ∨ makePanics 16 b) ∧ st = rb) ∨
    (0 ≤ id ∧ id < rb.readCursors.length ∧
      ∃ k : Nat, probe rb (rb.readCursors.getD id.toNat 0 + 1 + k) = .fault) := by
  unfold Get at h
  by_cases h1 : id < 0 ∨ (rb.readCursors.length : Int) ≤ id
  · rw [if_pos h1] at h
    left
    simp only [Outcome.panic.injEq] at h
    exact ⟨by omega, h.symm⟩
  rw [if_neg h1] at h
  by_cases h2 : makePanics 16 b
  · rw [if_pos h2] at h
    left
    simp only [Outcome.panic.injEq] at h
    exact ⟨Or.inr (Or.inr h2), h.symm⟩
  rw [if_neg h2] at h
  have hb0 : 0 ≤ b := by
    unfold makePanics at h2
    omega
  right
  refine ⟨by omega, by omega, ?_⟩
  cases hl : getLoop fuel rb id.toNat b.toNat (rb.readCursors.getD id.toNat 0 + 1) 0 0
      (List.replicate b.toNat none) with
  | done p st1 => rw [hl] at h; cases h
  | panic st1 =>
    exact getLoop_panic_inv id.toNat b.toNat fuel rb _ 0 0 _ st1 hl (by simp)
  | timeout st1 => rw [hl] at h; cases h


/-- A returning `Get` was given a batch size that `make` accepts. -/
theorem Get_done_alloc {fuel : Nat} {rb rb1 : RingBuffer α} {b id : Int}
    {res : List (Option α)} (h : Get fuel rb b id = .done res rb1) : ¬ makePanics 16 b := by
  intro h2
  unfold Get at h
  by_cases h1 : id < 0 ∨ (rb.readCursors.length : Int) ≤ id
  · rw [if_pos h1] at h; cases h
  · rw [if_neg h1, if_pos h2] at h; cases h

/-- `Get` with a valid id and a batch size that `make` rejects panics before
the loop, whatever the fuel, and leaves the buffer as it is. -/
theorem Get_make_panics (fuel : Nat) (rb : RingBuffer α) (b id : Int)
    (hid : 0 ≤ id ∧ id < rb.readCursors.length) (h2 : makePanics 16 b) :
    Get fuel rb b id = .panic rb := by
  unfold Get
  rw [if_neg (by omega), if_pos h2]

theorem makePanics_mono {b c : Int} (hb : 0 ≤ b) (hbc : b ≤ c) (h : ¬ makePanics 16 c) :
    ¬ makePanics 16 b := by
  unfold makePanics at h ⊢
  omega


theorem putValues_append (t1 t2 : List (Event α)) :
    putValues (t1 ++ t2) = putValues t1 ++ putValues t2 := by
  induction t1 with
  | nil => rfl
  | cons e t ih => cases e <;> simp [putValues, ih]

theorem received_append (id : Int) (t1 t2 : List (Event α)) :
    received id (t1 ++ t2) = received id t1 ++ received id t2 := by
  induction t1 with
  | nil => rfl
  | cons e t ih =>
    cases e with
    | put d => simp [received, ih]
    | get b c res =>
      by_cases h : c = id <;> simp [received, ih, h]

theorem tmod_natCast (s C : Nat) : Int.tmod (s : Int) (C : Int) = ((s % C : Nat) : Int) := by
  rw [Int.tmod_eq_emod (by omega) (by omega)]
  norm_cast

theorem slotIndex_natCast (s C : Nat) (hC : 0 < C) :
    slotIndex (C : Int) (s : Int) = some (s % C) := by
  unfold slotIndex
  rw [tmod_natCast]
  have h1 : ¬ ((C : Int) = 0) := by omega
  have h2 : ¬ (((s % C : Nat) : Int) < 0) := by omega
  rw [if_neg h1, if_neg h2, Int.toNat_ofNat]

theorem mod_ne_of_lt {s t C : Nat} (h1 : s < t) (h2 : t < s + C) : s % C ≠ t % C := by
  intro h
  have h0 : (t - s) % C = 0 := Nat.sub_mod_eq_zero_of_mod_eq h.symm
  have h3 := Nat.le_of_dvd (by omega) (Nat.dvd_of_mod_eq_zero h0)
  omega

/-- One store of the `Put` loop keeps the slots in step with the published
sequence. -/
theorem published_store (C : Nat) (P : List (Option α)) (rb : RingBuffer α) (d : Option α)
    (hs : Shape C rb) (hp : Published C P rb) :
    Published C (P ++ [d]) (store rb (P.length % C) d) := by
  unfold store
  have hC := hs.pos
  have hm : P.length % C < C := Nat.mod_lt _ hC
  refine ⟨?_, ?_⟩
  · intro s hs1 hs2
    simp only [List.length_append, List.length_singleton] at hs1 hs2
    by_cases he : s = P.length
    · subst he
      simp [List.getElem?_set, hs.buf_len, hs.av_len, hm]
    · have hlt : s < P.length := by omega
      have hne : P.length % C ≠ s % C := (mod_ne_of_lt hlt (by omega)).symm
      have := hp.1 s hlt (by omega)
      simp only [List.getElem?_set, hne, if_false]
      rw [List.getElem?_append_left hlt]
      exact this
  · intro p hp1 hp2
    simp only [List.length_append, List.length_singleton] at hp1
    have hne : P.length % C ≠ p := by
      rw [Nat.mod_eq_of_lt (by omega)]; omega
    simp only [List.getElem?_set, hne, if_false]
    exact hp.2 p (by omega) hp2

/-- The store loop of `Put` always completes on a well-shaped buffer. -/
theorem putLoop_done (C : Nat) (data : List (Option α)) :
    ∀ (P : List (Option α)) (rb : RingBuffer α), Shape C rb → Published C P rb →
    ∃ rb1, putLoop rb (P.length : Int) data = .done () rb1 ∧
      Shape C rb1 ∧ Published C (P ++ data) rb1 ∧
      rb1.writeCursor = rb.writeCursor ∧ rb1.readCursors = rb.readCursors ∧
      rb1.readBarrier = rb.readBarrier ∧ rb1.writeBarrier = rb.writeBarrier := by
  induction data with
  | nil =>
    intro P rb hs hp
    exact ⟨rb, rfl, hs, by simpa using hp, rfl, rfl, rfl, rfl⟩
  | cons d ds ih =>
    intro P rb hs hp
    have hC := hs.pos
    have hm : P.length % C < C := Nat.mod_lt _ hC
    have hs1 : Shape C (store rb (P.length % C) d) :=
      ⟨hs.size_eq, hs.pos, by simp [store, hs.buf_len], by simp [store, hs.av_len]⟩
    obtain ⟨rb1, h1, h2, h3, h4, h5, h6, h7⟩ :=
      ih (P ++ [d]) _ hs1 (published_store C P rb d hs hp)
    refine ⟨rb1, ?_, h2, by simpa using h3, h4, h5, h6, h7⟩
    have hsl : slotIndex rb.size (P.length : Int) = some (P.length % C) := by
      rw [hs.size_eq]; exact slotIndex_natCast _ _ hC
    unfold putLoop
    rw [hsl]
    simp only
    rw [if_pos (by rw [hs.buf_len]; exact hm), if_pos (by rw [hs.av_len]; exact hm)]
    rw [← h1]
    simp [store]

/-- `Put` never waits and never fails; it extends the published sequence. -/
theorem Put_inv (C n : Nat) (P data : List (Option α)) (rb : RingBuffer α)
    (h : Inv C n P rb) :
    ∃ rb1, Put rb data = .done () rb1 ∧ Inv C n (P ++ data) rb1 ∧
      rb1.readCursors = rb.readCursors ∧ rb1.readBarrier = rb.readBarrier ∧
      rb1.writeCursor = rb.writeCursor + data.length := by
  obtain ⟨rb1, h1, h2, h3, h4, h5, h6, _⟩ :=
    putLoop_done C data P { rb with writeCursor := rb.writeCursor + data.length }
      ⟨h.shape.size_eq, h.shape.pos, h.shape.buf_len, h.shape.av_len⟩ ⟨h.pub.1, h.pub.2⟩
  refine ⟨rb1, ?_, ?_, h5, h6, h4⟩
  · unfold Put
    rw [← h.wc] at h1
    exact h1
  · refine ⟨h2, h3, ?_, ?_, ?_, ?_, ?_⟩
    · rw [h4]; simp [h.wc]
    · rw [h5]; exact h.ncur
    · rw [h5]; exact h.cur_ge
    · intro c hc
      rw [h5] at hc
      have := h.cur_le c hc
      rw [h4]
      simp only
      omega
    · rw [h6]; exact h.bar_ge

theorem probe_read_le {rb : RingBuffer α} {s : Int} {v : Option α}
    (h : probe rb s = .read v) : s ≤ rb.writeCursor ∧ s - rb.readBarrier < rb.size := by
  unfold probe at h
  by_cases hc : s ≤ rb.writeCursor ∧ s - rb.readBarrier < rb.size
  · exact hc
  · rw [if_neg hc] at h; cases h

theorem probe_stop_of {rb : RingBuffer α} {s : Int}
    (h : ¬ (s ≤ rb.writeCursor ∧ s - rb.readBarrier < rb.size)) : probe rb s = .stop := by
  unfold probe
  rw [if_neg h]

theorem probe_read_of {C : Nat} {rb : RingBuffer α} (hs : Shape C rb) (s : Nat)
    (v : Option α) (h1 : (s : Int) ≤ rb.writeCursor) (h2 : (s : Int) - rb.readBarrier < C)
    (ha : rb.available[s % C]? = some 1) (hb : rb.buffer[s % C]? = some v) :
    probe rb (s : Int) = .read v := by
  unfold probe
  rw [if_pos ⟨h1, by rw [hs.size_eq]; exact h2⟩, hs.size_eq, slotIndex_natCast _ _ hs.pos]
  simp [ha, hb]

theorem probe_wait_of {C : Nat} {rb : RingBuffer α} (hs : Shape C rb) (s : Nat)
    (h1 : (s : Int) ≤ rb.writeCursor) (h2 : (s : Int) - rb.readBarrier < C)
    (ha : rb.available[s % C]? = some 0) :
    probe rb (s : Int) = .wait := by
  unfold probe
  rw [if_pos ⟨h1, by rw [hs.size_eq]; exact h2⟩, hs.size_eq, slotIndex_natCast _ _ hs.pos]
  simp [ha]

theorem probe_read_inv {C : Nat} {rb : RingBuffer α} (hs : Shape C rb) (s : Nat)
    (v : Option α) (h : probe rb (s : Int) = .read v) :
    rb.available[s % C]? = some 1 ∧ rb.buffer[s % C]? = some v := by
  have hle := probe_read_le h
  unfold probe at h
  rw [if_pos hle, hs.size_eq, slotIndex_natCast _ _ hs.pos] at h
  simp only at h
  cases h2 : rb.available[s % C]? with
  | none => rw [h2] at h; cases h
  | some a =>
    rw [h2] at h
    simp only at h
    by_cases ha : a = 1
    · rw [if_pos ha] at h
      cases h3 : rb.buffer[s % C]? with
      | none => rw [h3] at h; cases h
      | some w =>
        rw [h3] at h
        simp only [Probe.read.injEq] at h
        exact ⟨by rw [ha], by rw [h]⟩
    · rw [if_neg ha] at h; cases h

theorem probe_ne_fault {C : Nat} {rb : RingBuffer α} (hs : Shape C rb) (s : Nat) :
    probe rb (s : Int) ≠ .fault := by
  have hm : s % C < C := Nat.mod_lt _ hs.pos
  unfold probe
  by_cases hc : (s : Int) ≤ rb.writeCursor ∧ (s : Int) - rb.readBarrier < rb.size
  · rw [if_pos hc, hs.size_eq, slotIndex_natCast _ _ hs.pos]
    simp only
    rw [List.getElem?_eq_getElem (by rw [hs.av_len]; exact hm),
      List.getElem?_eq_getElem (by rw [hs.buf_len]; exact hm)]
    simp only
    split <;> simp
  · rw [if_neg hc]; simp

theorem minCursor_ge (lo : Int) (cs : List Int) : ∀ start : Int, lo ≤ start →
    (∀ c ∈ cs, lo ≤ c) → lo ≤ minCursor start cs := by
  unfold minCursor
  induction cs with
  | nil => intro start h _; simpa using h
  | cons c cs ih =>
    intro start h hc
    simp only [List.foldl_cons]
    apply ih
    · split
      · exact hc c (by simp)
      · exact h
    · intro x hx; exact hc x (by simp [hx])

theorem minCursor_le_start (cs : List Int) : ∀ start : Int, minCursor start cs ≤ start := by
  unfold minCursor
  induction cs with
  | nil => intro start; simp
  | cons c cs ih =>
    intro start
    simp only [List.foldl_cons]
    refine le_trans (ih _) ?_
    split <;> omega

theorem minCursor_le_mem (cs : List Int) : ∀ start : Int, ∀ c ∈ cs, minCursor start cs ≤ c := by
  induction cs with
  | nil => intro start c hc; simp at hc
  | cons d cs ih =>
    intro start c hc
    have hstep : minCursor start (d :: cs) = minCursor (if d < start then d else start) cs := by
      simp [minCursor]
    rw [hstep]
    rcases List.mem_cons.mp hc with h | h
    · subst h
      refine le_trans (minCursor_le_start cs _) ?_
      split <;> omega
    · exact ih _ c h

theorem minCursor_singleton (c : Int) : minCursor c [c] = c := by
  simp [minCursor]

/-- What a successful `NewRingBuffer` returns, and that its lengths were
accepted by `make`. -/
theorem New_eq (C n : Nat) (rb0 : RingBuffer α)
    (h0 : NewRingBuffer (C : Int) (n : Int) = some rb0) :
    rb0 = ⟨C, List.replicate C none, 0, List.replicate n (-1), List.replicate C 0, 0, 0⟩ ∧
      ¬ makePanics 16 (C : Int) ∧ ¬ makePanics 8 (n : Int) := by
  unfold NewRingBuffer at h0
  by_cases h1 : makePanics 16 (C : Int)
  · rw [if_pos h1] at h0; cases h0
  rw [if_neg h1] at h0
  by_cases h2 : makePanics 8 (n : Int)
  · rw [if_pos h2] at h0; cases h0
  rw [if_neg h2] at h0
  by_cases h3 : makePanics 4 (C : Int)
  · rw [if_pos h3] at h0; cases h0
  rw [if_neg h3] at h0
  simp only [Int.toNat_ofNat, Option.some.injEq] at h0
  exact ⟨h0.symm, h1, h2⟩

/-- `NewRingBuffer` returns a buffer when `make` accepts both lengths. -/
theorem New_some (C n : Nat) (h1 : ¬ makePanics 16 (C : Int)) (h2 : ¬ makePanics 8 (n : Int)) :
    (NewRingBuffer (C : Int) (n : Int) : Option (RingBuffer α)) =
      some ⟨C, List.replicate C none, 0, List.replicate n (-1), List.replicate C 0, 0, 0⟩ := by
  have h3 : ¬ makePanics 4 (C : Int) := by
    unfold makePanics at h1 ⊢
    omega
  unfold NewRingBuffer
  rw [if_neg h1, if_neg h2, if_neg h3]
  simp only [Int.toNat_ofNat]

theorem New_inv (C n : Nat) (hC : 0 < C) (rb0 : RingBuffer α)
    (h0 : NewRingBuffer (C : Int) (n : Int) = some rb0) :
    Inv C n [] rb0 ∧ rb0.readBarrier = 0 ∧ rb0.readCursors = List.replicate n (-1) := by
  obtain ⟨e, _, _⟩ := New_eq C n rb0 h0
  subst e
  refine ⟨?_, rfl, rfl⟩
  · refine ⟨⟨rfl, hC, by simp, by simp⟩, ⟨?_, ?_⟩, rfl, by simp, ?_, ?_, by simp⟩
    · intro s hs; simp at hs
    · intro p _ hp; simp [hp]
    · intro c hc; simp at hc; omega
    · intro c hc; simp at hc; simp only; omega

/-- A returning `Get` keeps the invariant and touches only the caller's
cursor and the barrier. -/
theorem Get_inv {C n : Nat} {P : List (Option α)} {rb rb1 : RingBuffer α} {fuel : Nat}
    {b id : Int} {res : List (Option α)} (hI : Inv C n P rb)
    (h : Get fuel rb b id = .done res rb1) : Inv C n P rb1 := by
  obtain ⟨h0, h1, h2, r, hr, hp, hl, hend, hf, hrb⟩ := Get_done_inv fuel rb b id res rb1 h
  have hmem : r ∈ rb.readCursors := List.getElem?_mem hr
  have hle : r + (res.length : Int) ≤ rb.writeCursor := by
    by_cases h0 : res.length = 0
    · have := hI.cur_le r hmem
      omega
    · have := (probe_read_le (hp (res.length - 1) (by omega))).1
      have e : ((res.length - 1 : Nat) : Int) = (res.length : Int) - 1 := by omega
      rw [e] at this
      omega
  have hge : -1 ≤ r + (res.length : Int) := by
    have := hI.cur_ge r hmem
    omega
  have hcur : ∀ c ∈ rb.readCursors.set id.toNat (r + res.length),
      -1 ≤ c ∧ c ≤ rb.writeCursor := by
    intro c hc
    rcases List.mem_or_eq_of_mem_set hc with h | h
    · exact ⟨hI.cur_ge c h, hI.cur_le c h⟩
    · rw [h]; exact ⟨hge, hle⟩
  subst hrb
  refine ⟨⟨hI.shape.size_eq, hI.shape.pos, hI.shape.buf_len, hI.shape.av_len⟩,
    ⟨hI.pub.1, hI.pub.2⟩, hI.wc, ?_, ?_, ?_, ?_⟩
  · simp [finish, advance, hI.ncur]
  · intro c hc; exact (hcur c hc).1
  · intro c hc; exact (hcur c hc).2
  · simp only [finish, advance]
    apply minCursor_ge
    · have hlt := cursor_lt_length hr
      simp [List.getD_eq_getElem?_getD, List.getElem?_set, hlt]
      omega
    · intro c hc; exact (hcur c hc).1

theorem RunFrom_inv {C n : Nat} {rb0 rb : RingBuffer α} {tr : List (Event α)}
    (hr : RunFrom rb0 tr rb) :
    ∀ P0 : List (Option α), Inv C n P0 rb0 → Inv C n (P0 ++ putValues tr) rb := by
  induction hr with
  | nil => intro P0 h; simpa [putValues] using h
  | put tr rb rb1 data _ hput ih =>
    intro P0 h0
    obtain ⟨rb2, h1, h2, _⟩ := Put_inv C n _ data _ (ih P0 h0)
    rw [h1] at hput
    simp only [Outcome.done.injEq, true_and] at hput
    subst hput
    simpa [putValues_append, putValues] using h2
  | get tr rb rb1 fuel b id res _ hget ih =>
    intro P0 h0
    have := Get_inv (ih P0 h0) hget
    simpa [putValues_append, putValues] using this

/-- Every history of a buffer with positive capacity satisfies the
invariant. -/
theorem Run_inv {C n : Nat} (hC : 0 < C) {tr : List (Event α)} {rb : RingBuffer α}
    (h : Run (C : Int) (n : Int) tr rb) : Inv C n (putValues tr) rb := by
  obtain ⟨rb0, h0, hr⟩ := h
  simpa using RunFrom_inv hr [] (New_inv C n hC rb0 h0).1

/-- The capacity of a buffer that has a history was accepted by `make`. -/
theorem Run_alloc {C n : Nat} {tr : List (Event α)} {rb : RingBuffer α}
    (h : Run (C : Int) (n : Int) tr rb) : ¬ makePanics 16 (C : Int) := by
  obtain ⟨rb0, h0, _⟩ := h
  exact (New_eq C n rb0 h0).2.1


theorem emod_natCast_toNat (s C : Nat) : (((s : Int) % (C : Int))).toNat = s % C := by
  have : (s : Int) % (C : Int) = ((s % C : Nat) : Int) := by norm_cast
  rw [this, Int.toNat_ofNat]

/-- In a state of a history, a returning `Get` for a consumer at cursor `r`
hands out the slots of the sequences `r + 1, r + 2, ...`, moves that cursor by
the number of values handed out and leaves slots and other cursors alone. -/
theorem Get_slots {C n : Nat} {P : List (Option α)} {rb rb1 : RingBuffer α} {fuel : Nat}
    {b id : Int} {res : List (Option α)} (hI : Inv C n P rb)
    (h : Get fuel rb b id = .done res rb1) :
    ∃ r : Int, rb.readCursors[id.toNat]? = some r ∧ (res.length : Int) ≤ b ∧
      rb1.readCursors[id.toNat]? = some (r + res.length) ∧
      (∀ (j : Nat) (hj : j < res.length),
        rb.buffer[((r + 1 + j) % (C : Int)).toNat]? = some (res.get ⟨j, hj⟩)) ∧
      (∀ k : Nat, k ≠ id.toNat → rb1.readCursors[k]? = rb.readCursors[k]?) ∧
      rb1.buffer = rb.buffer ∧ rb1.available = rb.available ∧
      rb1.writeCursor = rb.writeCursor := by
  obtain ⟨h0, h1, h2, r, hr, hp, hl, hend, hf, hrb⟩ := Get_done_inv fuel rb b id res rb1 h
  have hge := hI.cur_ge r (List.getElem?_mem hr)
  have hlt := cursor_lt_length hr
  subst hrb
  refine ⟨r, hr, by omega, ?_, ?_, ?_, rfl, rfl, rfl⟩
  · simp [finish, advance, List.getElem?_set, hlt]
  · intro j hj
    have hcast : r + 1 + (j : Int) = (((r + 1).toNat + j : Nat) : Int) := by
      push_cast; omega
    have := hp j hj
    rw [hcast] at this ⊢
    rw [emod_natCast_toNat]
    exact (probe_read_inv hI.shape _ _ this).2
  · intro k hk
    simp only [finish, advance, List.getElem?_set]
    rw [if_neg (by omega)]

/-- The consumer at cursor `m - 1` asks for `b` values that are published, not
yet overwritten and inside the gate: `Get` returns exactly those. -/
theorem Get_values {C n : Nat} {P : List (Option α)} {rb : RingBuffer α} (hI : Inv C n P rb)
    (id m b : Nat) (hr : rb.readCursors[id]? = some ((m : Int) - 1))
    (h1 : m + b ≤ P.length) (h2 : P.length ≤ m + C)
    (h3 : ((m + b : Nat) : Int) - rb.readBarrier ≤ C) (fuel : Nat) (hf : b < fuel)
    (hmk : ¬ makePanics 16 (b : Int)) :
    Get fuel rb b id =
      .done ((P.drop m).take b) (finish (advance rb id ((m : Int) - 1 + b)) id) := by
  have hlen : ((P.drop m).take b).length = b := by simp; omega
  have := Get_done rb b id ((m : Int) - 1) ((P.drop m).take b) hr
    (by
      intro j hj
      rw [hlen] at hj
      have hcast : (m : Int) - 1 + 1 + (j : Int) = ((m + j : Nat) : Int) := by
        push_cast; omega
      rw [hcast]
      have hpub := hI.pub.1 (m + j) (by omega) (by omega)
      apply probe_read_of hI.shape
      · rw [hI.wc]; omega
      · push_cast at h3 ⊢; omega
      · exact hpub.2
      · rw [hpub.1]
        simp [List.getElem?_take, List.getElem?_drop, hj])
    (by omega) (Or.inl hlen) fuel (by omega) hmk
  rw [hlen] at this
  exact this

theorem probe_withBarrier (rb : RingBuffer α) (x s : Int)
    (h1 : s - rb.readBarrier < rb.size) (h2 : s - x < rb.size) :
    probe (withBarrier rb x) s = probe rb s := by
  unfold probe withBarrier
  simp only [h1, h2, and_true]

theorem Get_withBarrier (rb : RingBuffer α) (x : Int) (b id : Int)
    (h1 : rb.readCursors.getD id.toNat 0 + b - rb.readBarrier < rb.size)
    (h2 : rb.readCursors.getD id.toNat 0 + b - x < rb.size)
    (fuel : Nat) (res : List (Option α)) (st : RingBuffer α)
    (h : Get fuel rb b id = .done res st) :
    Get fuel (withBarrier rb x) b id = .done res st := by
  obtain ⟨g0, g1, g2, r, hr, hp, hl, hend, hf, hst⟩ := Get_done_inv fuel rb b id res st h
  have hg : rb.readCursors.getD id.toNat 0 = r := by
    simp [List.getD_eq_getElem?_getD, hr]
  rw [hg] at h1 h2
  have hopen : ∀ j : Nat, j < b.toNat →
      probe (withBarrier rb x) (r + 1 + j) = probe rb (r + 1 + j) := by
    intro j hj
    apply probe_withBarrier <;> omega
  have := Get_done (withBarrier rb x) b.toNat id.toNat r res hr
    (by intro j hj; rw [hopen j (by omega)]; exact hp j hj) hl
    (by
      rcases hend with e | e
      · exact Or.inl e
      · by_cases hlt : res.length < b.toNat
        · right; rw [hopen _ hlt]; exact e
        · left; omega)
    fuel hf (by rw [Int.toNat_of_nonneg g2]; exact Get_done_alloc h)
  rw [Int.toNat_of_nonneg g2, Int.toNat_of_nonneg g0] at this
  rw [this, hst]
  rfl

/-- `Get` polls for ever, in the state it was called on, when the first slot
it wants is not available. -/
theorem Get_wait_now (rb : RingBuffer α) (b id : Nat) (r : Int)
    (hr : rb.readCursors[id]? = some r) (hb : 0 < b) (hw : probe rb (r + 1) = .wait)
    (h2 : ¬ makePanics 16 (b : Int)) :
    ∀ fuel : Nat, Get fuel rb b id = .timeout rb := by
  intro fuel
  have hlt := cursor_lt_length hr
  have hg : rb.readCursors.getD id 0 = r := by
    simp [List.getD_eq_getElem?_getD, hr]
  have h1 : ¬ ((id : Int) < 0 ∨ (rb.readCursors.length : Int) ≤ (id : Int)) := by omega
  unfold Get
  rw [if_neg h1, if_neg h2]
  simp only [Int.toNat_ofNat, hg]
  rw [getLoop_wait id b rb (r + 1) 0 0 _ hw hb fuel]


theorem FitRunFrom.toRunFrom {getOk : RingBuffer α → Int → Int → Prop}
    {rb0 rb : RingBuffer α} {tr : List (Event α)} (h : FitRunFrom getOk rb0 tr rb) :
    RunFrom rb0 tr rb := by
  induction h with
  | nil => exact RunFrom.nil _
  | put tr rb rb1 data _ _ hput ih => exact RunFrom.put tr rb rb1 data ih hput
  | get tr rb rb1 fuel b id res _ _ hget ih => exact RunFrom.get tr rb rb1 fuel b id res ih hget

theorem headD_mem (cs : List Int) (h : cs ≠ []) : cs.headD 0 ∈ cs := by
  cases cs with
  | nil => exact absurd rfl h
  | cons c cs => simp

theorem lowestCursor_le (rb : RingBuffer α) : ∀ c ∈ rb.readCursors, lowestCursor rb ≤ c :=
  fun c hc => minCursor_le_mem rb.readCursors _ c hc

theorem le_lowestCursor (rb : RingBuffer α) (lo : Int) (hne : rb.readCursors ≠ [])
    (h : ∀ c ∈ rb.readCursors, lo ≤ c) : lo ≤ lowestCursor rb :=
  minCursor_ge lo rb.readCursors _ (h _ (headD_mem _ hne)) h

/-- A returning `Get` does not lower the slowest cursor. -/
theorem lowestCursor_Get {C n : Nat} {P : List (Option α)} {rb rb1 : RingBuffer α}
    {fuel : Nat} {b id : Int} {res : List (Option α)} (hI : Inv C n P rb) (hn : 0 < n)
    (h : Get fuel rb b id = .done res rb1) : lowestCursor rb ≤ lowestCursor rb1 := by
  obtain ⟨h0, h1, h2, r, hr, hp, hl, hend, hf, hrb⟩ := Get_done_inv fuel rb b id res rb1 h
  have hI1 := Get_inv hI h
  apply le_lowestCursor
  · intro he
    have := hI1.ncur
    rw [he] at this
    simp at this
    omega
  · intro c hc
    rw [hrb] at hc
    simp only [finish, advance] at hc
    rcases List.mem_or_eq_of_mem_set hc with h | h
    · exact lowestCursor_le rb c h
    · have := lowestCursor_le rb r (List.getElem?_mem hr)
      omega

theorem unconsumed_Get {C n : Nat} {P : List (Option α)} {rb rb1 : RingBuffer α}
    {fuel : Nat} {b id : Int} {res : List (Option α)} (hI : Inv C n P rb) (hn : 0 < n)
    (h : Get fuel rb b id = .done res rb1) : unconsumed rb1 ≤ unconsumed rb := by
  have h1 := lowestCursor_Get hI hn h
  have h2 : rb1.writeCursor = rb.writeCursor := by
    rw [(Get_inv hI h).wc, hI.wc]
  unfold unconsumed
  omega

theorem unconsumed_Put {C n : Nat} {P data : List (Option α)} {rb rb1 : RingBuffer α}
    (hI : Inv C n P rb) (h : Put rb data = .done () rb1) :
    unconsumed rb1 = unconsumed rb + data.length := by
  obtain ⟨rb2, h1, _, h3, _, h5⟩ := Put_inv C n P data rb hI
  rw [h1] at h
  simp only [Outcome.done.injEq, true_and] at h
  subst h
  unfold unconsumed lowestCursor
  rw [h3, h5]
  omega

theorem unconsumed_New (C n : Nat) (hn : 0 < n) (rb0 : RingBuffer α)
    (h : NewRingBuffer (C : Int) (n : Int) = some rb0) : unconsumed rb0 = 0 := by
  obtain ⟨e, _, _⟩ := New_eq C n rb0 h
  subst e
  have hl : lowestCursor (α := α) ⟨C, List.replicate C none, 0,
      List.replicate n (-1), List.replicate C 0, 0, 0⟩ = -1 := by
    apply le_antisymm
    · apply lowestCursor_le
      simp
      omega
    · apply le_lowestCursor
      · simp; omega
      · intro c hc; simp at hc; omega
  unfold unconsumed
  rw [hl]
  simp

/-- In a history whose `Put` calls fit the free capacity, the unconsumed
values never exceed the capacity. -/
theorem FitRunFrom_unconsumed {C n : Nat} (hC : 0 < C) (hn : 0 < n)
    {getOk : RingBuffer α → Int → Int → Prop} {rb0 rb : RingBuffer α}
    {tr : List (Event α)} (h0 : NewRingBuffer (C : Int) (n : Int) = some rb0)
    (h : FitRunFrom getOk rb0 tr rb) : unconsumed rb ≤ C := by
  induction h with
  | nil => rw [unconsumed_New C n hn _ h0]; omega
  | put tr rb rb1 data hrun hfit hput ih =>
    have hI := Run_inv hC ⟨_, h0, hrun.toRunFrom⟩
    rw [unconsumed_Put hI hput]
    unfold PutFits at hfit
    rw [hI.shape.size_eq] at hfit
    exact hfit
  | get tr rb rb1 fuel b id res hrun _ hget ih =>
    have hI := Run_inv hC ⟨_, h0, hrun.toRunFrom⟩
    have := unconsumed_Get hI hn hget
    omega

/-- A `Get` that asks for no more than what is outstanding, in a state whose
unconsumed values fit the capacity, returns the next values of the published
sequence. -/
theorem Get_within_values {C n : Nat} {P : List (Option α)} {rb rb1 : RingBuffer α}
    {fuel : Nat} {b id : Int} {res : List (Option α)} (hI : Inv C n P rb)
    (hu : unconsumed rb ≤ C) (hw : GetWithin rb b id)
    (h : Get fuel rb b id = .done res rb1) :
    ∃ r : Int, rb.readCursors[id.toNat]? = some r ∧ 0 ≤ id ∧ id < n ∧
      rb1.readCursors = rb.readCursors.set id.toNat (r + res.length) ∧
      rb1.writeCursor = rb.writeCursor ∧
      r + res.length < rb.writeCursor ∧
      res = (P.drop (r + 1).toNat).take res.length := by
  obtain ⟨h0, h1, h2, r, hr, hp, hl, hend, hf, hrb⟩ := Get_done_inv fuel rb b id res rb1 h
  have hge := hI.cur_ge r (List.getElem?_mem hr)
  have hlow := lowestCursor_le rb r (List.getElem?_mem hr)
  have hg : rb.readCursors.getD id.toNat 0 = r := by
    simp [List.getD_eq_getElem?_getD, hr]
  unfold GetWithin at hw
  unfold unconsumed at hu
  rw [hg] at hw
  have hwc := hI.wc
  refine ⟨r, hr, h0, by rw [← hI.ncur]; exact h1, by rw [hrb]; rfl, by rw [hrb]; rfl,
    by omega, ?_⟩
  apply List.ext_getElem?
  intro j
  by_cases hj : j < res.length
  · have hcast : r + 1 + (j : Int) = (((r + 1).toNat + j : Nat) : Int) := by
      push_cast; omega
    have hread := hp j hj
    rw [hcast] at hread
    have hslot := (probe_read_inv hI.shape _ _ hread).2
    have hpub := (hI.pub.1 ((r + 1).toNat + j) (by omega) (by omega)).1
    rw [hslot] at hpub
    rw [List.getElem?_take, if_pos hj, List.getElem?_drop, ← hpub,
      List.getElem?_eq_getElem hj]
    simp
  · rw [List.getElem?_eq_none (by omega), List.getElem?_take, if_neg hj]

theorem received_snoc_put (id : Int) (tr : List (Event α)) (data : List (Option α)) :
    received id (tr ++ [.put data]) = received id tr := by
  simp [received_append, received]

theorem received_snoc_get (id : Int) (tr : List (Event α)) (b c : Int)
    (res : List (Option α)) :
    received id (tr ++ [.get b c res]) =
      received id tr ++ (if c = id then res else []) := by
  by_cases h : c = id <;> simp [received_append, received, h]

/-- In a history whose `Put` calls fit the free capacity and whose `Get`
calls ask for no more than what is outstanding, every consumer has received
an initial segment of the values put. -/
theorem FitRunFrom_delivered {C n : Nat} (hC : 0 < C) (hn : 0 < n)
    {rb0 rb : RingBuffer α} {tr : List (Event α)}
    (h0 : NewRingBuffer (C : Int) (n : Int) = some rb0)
    (h : FitRunFrom GetWithin rb0 tr rb) : Delivered n tr rb := by
  induction h with
  | nil =>
    obtain ⟨h2, h3, h4⟩ := New_inv C n hC _ h0
    refine ⟨?_, fun id _ => rfl⟩
    intro i hi
    refine ⟨-1, by rw [h4]; simp [hi], by rw [h2.wc]; simp, by simp [received, putValues]⟩
  | put tr rb rb1 data hrun hfit hput ih =>
    have hI := Run_inv hC ⟨_, h0, hrun.toRunFrom⟩
    obtain ⟨rb2, h1, _, h3, _, h5⟩ := Put_inv C n _ data rb hI
    rw [h1] at hput
    simp only [Outcome.done.injEq, true_and] at hput
    subst hput
    refine ⟨?_, ?_⟩
    · intro i hi
      obtain ⟨r, g1, g2, g3⟩ := ih.valid i hi
      refine ⟨r, by rw [h3]; exact g1, by rw [h5]; omega, ?_⟩
      rw [received_snoc_put, g3, putValues_append]
      have hwc := hI.wc
      rw [List.take_append_of_le_length (by omega)]
    · intro id hid
      rw [received_snoc_put]
      exact ih.invalid id hid
  | get tr rb rb1 fuel b id res hrun hok hget ih =>
    have hI := Run_inv hC ⟨_, h0, hrun.toRunFrom⟩
    have hu := FitRunFrom_unconsumed hC hn h0 hrun
    obtain ⟨r, g1, g2, g3, g4, g5, g6, g7⟩ := Get_within_values hI hu hok hget
    have hge := hI.cur_ge r (List.getElem?_mem g1)
    have hpv : putValues (tr ++ [Event.get b id res]) = putValues tr := by
      simp [putValues_append, putValues]
    refine ⟨?_, ?_⟩
    · intro i hi
      by_cases he : i = id.toNat
      · subst he
        obtain ⟨r0, e1, e2, e3⟩ := ih.valid id.toNat hi
        rw [g1] at e1
        simp only [Option.some.injEq] at e1
        subst e1
        have hlt := cursor_lt_length g1
        refine ⟨r + res.length, by rw [g4]; simp [List.getElem?_set, hlt], by rw [g5]; exact g6,
          ?_⟩
        rw [received_snoc_get, if_pos (by omega), e3, hpv]
        have e : (r + (res.length : Int) + 1).toNat = (r + 1).toNat + res.length := by omega
        rw [e, List.take_add, ← g7]
      · obtain ⟨r0, e1, e2, e3⟩ := ih.valid i hi
        refine ⟨r0, ?_, by rw [g5]; exact e2, ?_⟩
        · rw [g4, List.getElem?_set, if_neg (by omega)]
          exact e1
        · rw [received_snoc_get, if_neg (by omega), hpv, e3]
          simp
    · intro id' hid'
      rw [received_snoc_get, if_neg (by omega)]
      simpa using ih.invalid id' hid'


theorem runCalls_sound (fuel : Nat) (rb0 : RingBuffer α) (cs : List (Call α)) :
    ∀ (tr : List (Event α)) (rb : RingBuffer α) (tr1 : List (Event α)) (rb1 : RingBuffer α),
    RunFrom rb0 tr rb → runCalls fuel tr rb cs = some (tr1, rb1) → RunFrom rb0 tr1 rb1 := by
  induction cs with
  | nil =>
    intro tr rb tr1 rb1 h hr
    simp only [runCalls, Option.some.injEq, Prod.mk.injEq] at hr
    rw [← hr.1, ← hr.2]
    exact h
  | cons c cs ih =>
    intro tr rb tr1 rb1 h hr
    cases c with
    | put data =>
      simp only [runCalls] at hr
      cases hp : Put rb data with
      | done u rb2 =>
        rw [hp] at hr
        exact ih _ _ _ _ (RunFrom.put tr rb rb2 data h hp) hr
      | panic s => rw [hp] at hr; cases hr
      | timeout s => rw [hp] at hr; cases hr
    | get b id =>
      simp only [runCalls] at hr
      cases hg : Get fuel rb b id with
      | done res rb2 =>
        rw [hg] at hr
        exact ih _ _ _ _ (RunFrom.get tr rb rb2 fuel b id res h hg) hr
      | panic s => rw [hg] at hr; cases hr
      | timeout s => rw [hg] at hr; cases hr

/-- The result of a returning `Get` does not depend on the fuel. -/
theorem Get_deterministic {rb : RingBuffer α} {b id : Int} {f1 f2 : Nat}
    {res1 res2 : List (Option α)} {s1 s2 : RingBuffer α}
    (h1 : Get f1 rb b id = .done res1 s1) (h2 : Get f2 rb b id = .done res2 s2) :
    res1 = res2 ∧ s1 = s2 := by
  obtain ⟨a0, a1, a2, r, hr, hp, hl, hend, hf, hst⟩ := Get_done_inv f1 rb b id res1 s1 h1
  have hmk : ¬ makePanics 16 ((b.toNat : Nat) : Int) := by
    rw [Int.toNat_of_nonneg a2]; exact Get_done_alloc h1
  have e1 := Get_done rb b.toNat id.toNat r res1 hr hp hl hend (f1 + f2) (by omega) hmk
  obtain ⟨c0, c1, c2, r', hr', hp', hl', hend', hf', hst'⟩ :=
    Get_done_inv f2 rb b id res2 s2 h2
  have := Get_done rb b.toNat id.toNat r' res2 hr' hp' hl' hend' (f1 + f2) (by omega) hmk
  rw [e1] at this
  simp only [Outcome.done.injEq] at this
  obtain ⟨e2, e3⟩ := this
  subst e2
  refine ⟨rfl, ?_⟩
  rw [hst, hst']
  rw [hr] at hr'
  simp only [Option.some.injEq] at hr'
  rw [hr']

theorem requested_append (id : Int) (t1 t2 : List (Event α)) :
    requested id (t1 ++ t2) = requested id t1 + requested id t2 := by
  induction t1 with
  | nil => simp [requested]
  | cons e t ih =>
    cases e with
    | put d => simp [requested, ih]
    | get b c res =>
      by_cases h : c = id <;> simp [requested, ih, h]
      omega

/-- A history of `Put` calls leaves the cursors and the barrier alone. -/
theorem RunFrom_onlyPuts {C n : Nat} {rb0 rb : RingBuffer α} {tr : List (Event α)}
    (h : RunFrom rb0 tr rb) :
    ∀ P0 : List (Option α), Inv C n P0 rb0 → onlyPuts tr = true →
      rb.readCursors = rb0.readCursors ∧ rb.readBarrier = rb0.readBarrier := by
  induction h with
  | nil => intro _ _ _; exact ⟨rfl, rfl⟩
  | put tr rb rb1 data hrun hput ih =>
    intro P0 hI ho
    have ho1 : onlyPuts tr = true := by
      simp only [onlyPuts, List.all_append, Bool.and_eq_true] at ho ⊢
      exact ho.1
    obtain ⟨e1, e2⟩ := ih P0 hI ho1
    obtain ⟨rb2, h1, _, h3, h4, _⟩ := Put_inv C n _ data rb (RunFrom_inv hrun P0 hI)
    rw [h1] at hput
    simp only [Outcome.done.injEq, true_and] at hput
    subst hput
    exact ⟨by rw [h3, e1], by rw [h4, e2]⟩
  | get tr rb rb1 fuel b id res hrun hget ih =>
    intro P0 hI ho
    simp [onlyPuts] at ho

theorem requested_snoc_get (i : Int) (tr : List (Event α)) (b c : Int)
    (res : List (Option α)) :
    requested i (tr ++ [.get b c res]) = requested i tr + (if c = i then b else 0) := by
  rw [requested_append]
  by_cases h : c = i <;> simp [requested, h]

/-- One more `Get` inside the bound of the fan-out scenario returns exactly
the values asked for and keeps the invariant. -/
theorem FanOut_step {C n : Nat} {vs : List (Option α)} {gets : List (Event α)}
    {rb : RingBuffer α} (hF : FanOut C n vs gets rb) (hvs : vs.length ≤ C)
    (hcap : ¬ makePanics 16 (C : Int))
    (b id : Int) (hb : 1 ≤ b) (hid : 0 ≤ id ∧ id < n)
    (hreq : requested id gets + b ≤ fanOutBound C n vs.length)
    (fuel : Nat) (hf : b.toNat < fuel) :
    ∃ rb1, Get fuel rb b id =
        .done ((vs.drop (requested id gets).toNat).take b.toNat) rb1 ∧
      FanOut C n vs
        (gets ++ [.get b id ((vs.drop (requested id gets).toNat).take b.toNat)]) rb1 := by
  obtain ⟨hq0, hcur, hrec⟩ := hF.cur id.toNat (by omega)
  rw [Int.toNat_of_nonneg hid.1] at hq0 hcur hrec
  have hbar := hF.inv.bar_ge
  have hbnd : ((requested id gets).toNat + b.toNat : Nat) ≤ vs.length ∧
      (((requested id gets).toNat + b.toNat : Nat) : Int) - rb.readBarrier ≤ C := by
    unfold fanOutBound at hreq
    by_cases h1 : n = 1
    · rw [if_pos h1] at hreq
      have := hF.bar h1
      omega
    · rw [if_neg h1] at hreq
      have := min_le_left (vs.length : Int) ((C : Int) - 1)
      have := min_le_right (vs.length : Int) ((C : Int) - 1)
      omega
  have hcur' : rb.readCursors[id.toNat]? = some ((((requested id gets).toNat : Nat) : Int) - 1) := by
    rw [hcur]; congr 1; omega
  have hget := Get_values hF.inv id.toNat (requested id gets).toNat b.toNat hcur'
    hbnd.1 (by omega) hbnd.2 fuel hf (makePanics_mono (by omega) (by omega) hcap)
  rw [Int.toNat_of_nonneg (by omega : 0 ≤ b), Int.toNat_of_nonneg hid.1] at hget
  refine ⟨_, hget, ?_⟩
  have hlt := cursor_lt_length hcur
  have hlen : ((vs.drop (requested id gets).toNat).take b.toNat).length = b.toNat := by
    simp; omega
  refine ⟨Get_inv hF.inv hget, ?_, ?_, ?_⟩
  · intro i hi
    rw [requested_snoc_get, received_snoc_get]
    obtain ⟨q0, qc, qr⟩ := hF.cur i hi
    by_cases he : i = id.toNat
    · subst he
      rw [Int.toNat_of_nonneg hid.1] at q0 qc qr ⊢
      rw [if_pos rfl, if_pos rfl]
      refine ⟨by omega, ?_, ?_⟩
      · simp only [finish, advance, List.getElem?_set, hlt, if_true]
        congr 1; omega
      · rw [qr, ← List.take_add]
        congr 1; omega
    · have hne : ¬ (id = (i : Int)) := by omega
      rw [if_neg hne, if_neg hne]
      refine ⟨by omega, ?_, by simpa using qr⟩
      simp only [finish, advance, List.getElem?_set]
      rw [if_neg (by omega)]
      simpa using qc
  · intro b' id' res' hmem
    rcases List.mem_append.mp hmem with h | h
    · exact hF.full b' id' res' h
    · simp only [List.mem_singleton, Event.get.injEq] at h
      obtain ⟨h1, _, h3⟩ := h
      rw [h3, hlen, h1]
      omega
  · intro h1
    have hl1 : rb.readCursors.length = 1 := by rw [hF.inv.ncur, h1]
    obtain ⟨a, ha⟩ := List.length_eq_one.mp hl1
    have hid0 : id.toNat = 0 := by omega
    simp only [finish, advance, ha, hid0, List.set_cons_zero, List.getD_cons_zero,
      minCursor_singleton]
    omega

/-- The fan-out invariant holds after every history of `Get` calls that keeps
every consumer inside the bound. -/
theorem RunFrom_fanOut {C n : Nat} {vs : List (Option α)} (hvs : vs.length ≤ C)
    (hcap : ¬ makePanics 16 (C : Int)) {rbP rb : RingBuffer α} {gets : List (Event α)} (h : RunFrom rbP gets rb) :
    FanOut C n vs [] rbP → onlyGets gets = true →
    (∀ i : Nat, i < n → requested (i : Int) gets ≤ fanOutBound C n vs.length) →
    FanOut C n vs gets rb := by
  induction h with
  | nil => intro hF _ _; exact hF
  | put tr rb rb1 data hrun hput ih =>
    intro _ ho _
    simp [onlyGets] at ho
  | get tr rb rb1 fuel b id res hrun hget ih =>
    intro hF ho hsum
    simp only [onlyGets, List.all_append, Bool.and_eq_true, List.all_cons, List.all_nil,
      Bool.and_true, decide_eq_true_eq] at ho
    obtain ⟨ho1, hb⟩ := ho
    obtain ⟨g0, g1, _⟩ := Get_done_inv fuel rb b id res rb1 hget
    have hsum1 : ∀ i : Nat, i < n → requested (i : Int) tr ≤ fanOutBound C n vs.length := by
      intro i hi
      have := hsum i hi
      rw [requested_snoc_get] at this
      split at this <;> omega
    have hFt := ih hF (by simpa [onlyGets] using ho1) hsum1
    have hidn : id < n := by rw [← hFt.inv.ncur]; exact g1
    have hreq := hsum id.toNat (by omega)
    rw [Int.toNat_of_nonneg g0, requested_snoc_get, if_pos rfl] at hreq
    obtain ⟨rb2, e1, e2⟩ := FanOut_step hFt hvs hcap b id hb ⟨g0, hidn⟩ hreq (b.toNat + 1)
      (by omega)
    obtain ⟨r1, r2⟩ := Get_deterministic hget e1
    rw [r1, r2]
    exact e2

/-- More fuel does not change the result of a returning `Get`. -/
theorem Get_mono (f1 f2 : Nat) (hf : f1 ≤ f2) {rb : RingBuffer α} {b id : Int}
    {res : List (Option α)} {s : RingBuffer α} (h : Get f1 rb b id = .done res s) :
    Get f2 rb b id = .done res s := by
  obtain ⟨a0, a1, a2, r, hr, hp, hl, hend, hlt, hst⟩ := Get_done_inv f1 rb b id res s h
  have := Get_done rb b.toNat id.toNat r res hr hp hl hend f2 (by omega)
    (by rw [Int.toNat_of_nonneg a2]; exact Get_done_alloc h)
  rw [Int.toNat_of_nonneg a2, Int.toNat_of_nonneg a0] at this
  rw [this, hst]


/-- C10, counterexample.  On the fresh buffer of `NewRingBuffer(1, 1)` the
call `Get(1 << 62, 0)` has the valid id 0 and a non-negative batch size, yet it
panics, whatever the fuel: `make([]interface{}, batchSize)` rejects the
length. -/
theorem get_panics_with_valid_id :
    Run (α := Nat) 1 1 [] ⟨1, [none], 0, [-1], [0], 0, 0⟩ ∧
    (0 : Int) ≤ 4611686018427387904 ∧ ¬ ((0 : Int) < 0 ∨ (1 : Int) ≤ 0) ∧
    ∀ fuel : Nat, Get (α := Nat) fuel ⟨1, [none], 0, [-1], [0], 0, 0⟩ 4611686018427387904 0 =
      .panic ⟨1, [none], 0, [-1], [0], 0, 0⟩ := by
  refine ⟨⟨_, rfl, RunFrom.nil _⟩, by decide, by decide, ?_⟩
  intro fuel
  exact Get_make_panics fuel _ _ _ ⟨by decide, by decide⟩ (by decide)

/-- C10, amended.  In every state of a history of `NewRingBuffer(C, n)` with
`C ≥ 1` and `n ≥ 1`, and for every `batchSize ≥ 0`, `Get(batchSize, id)` panics
if and only if `id < 0` or `id ≥ n` or the batch size is beyond what `make`
accepts (`16 * batchSize > maxAlloc`); and when it panics the buffer is the
one it was called on: no field has changed. -/
theorem get_panics_iff_bad_id_or_batch (C n : Nat) (hC : 1 ≤ C) (hn : 1 ≤ n)
    (tr : List (Event α)) (rb : RingBuffer α) (hrun : Run (C : Int) (n : Int) tr rb)
    (b id : Int) (hb : 0 ≤ b) :
    ((∃ fuel st, Get fuel rb b id = .panic st) ↔
      (id < 0 ∨ (n : Int) ≤ id ∨ (maxAlloc : Int) < 16 * b)) ∧
    (∀ fuel st, Get fuel rb b id = .panic st → st = rb) := by
  have hI := Run_inv (by omega) hrun
  have key : ∀ fuel st, Get fuel rb b id = .panic st →
      (id < 0 ∨ (n : Int) ≤ id ∨ (maxAlloc : Int) < 16 * b) ∧ st = rb := by
    intro fuel st h
    rcases Get_panic_inv fuel rb b id st h with ⟨h1, h2⟩ | ⟨h1, h2, k, hk⟩
    · rw [hI.ncur] at h1
      unfold makePanics at h1
      exact ⟨by omega, h2⟩
    · exfalso
      have hlt : id.toNat < rb.readCursors.length := by omega
      have hmem : rb.readCursors.getD id.toNat 0 ∈ rb.readCursors := by
        rw [List.getD_eq_getElem?_getD, List.getElem?_eq_getElem hlt]
        exact List.getElem_mem hlt
      have hge := hI.cur_ge _ hmem
      have hcast : rb.readCursors.getD id.toNat 0 + 1 + (k : Int) =
          (((rb.readCursors.getD id.toNat 0 + 1).toNat + k : Nat) : Int) := by
        push_cast; omega
      rw [hcast] at hk
      exact probe_ne_fault hI.shape _ hk
  refine ⟨⟨?_, ?_⟩, fun fuel st h => (key fuel st h).2⟩
  · rintro ⟨fuel, st, h⟩
    exact (key fuel st h).1
  · intro h
    refine ⟨0, rb, ?_⟩
    by_cases hid : id < 0 ∨ (n : Int) ≤ id
    · unfold Get
      rw [if_pos (by rw [hI.ncur]; exact hid)]
    · exact Get_make_panics 0 rb b id (by rw [hI.ncur]; omega)
        (Or.inr (by omega))

/-- Witness of the amended C10 at the fresh buffer of capacity 1 with one
consumer, batch size 1 and the consumer id 5. -/
theorem get_panics_iff_bad_id_or_batch_witness :
    Run (α := Nat) ((1 : Nat) : Int) ((1 : Nat) : Int) [] ⟨1, [none], 0, [-1], [0], 0, 0⟩ ∧
    (((∃ fuel st, Get (α := Nat) fuel ⟨1, [none], 0, [-1], [0], 0, 0⟩ 1 5 = .panic st) ↔
        ((5 : Int) < 0 ∨ ((1 : Nat) : Int) ≤ 5 ∨ (maxAlloc : Int) < 16 * 1)) ∧
      (∀ fuel st, Get (α := Nat) fuel ⟨1, [none], 0, [-1], [0], 0, 0⟩ 1 5 = .panic st →
        st = ⟨1, [none], 0, [-1], [0], 0, 0⟩)) :=
  ⟨⟨_, rfl, RunFrom.nil _⟩,
    get_panics_iff_bad_id_or_batch 1 1 (by decide) (by decide) [] _ ⟨_, rfl, RunFrom.nil _⟩ 1 5
      (by decide)⟩

/-- C7. Strict advancement: in every state of a history of a buffer with
`C ≥ 1`, for a valid consumer id and `batchSize ≥ 0`, when `Get(batchSize, id)`
returns `k` values then `k ≤ batchSize`, the caller's cursor is its old value
`r` plus `k`, the values are the contents of the slots `(r+1) mod C`, ...,
`(r+k) mod C` in that order and the other cursors are unchanged; hence the
next `Get` of the same consumer covers the adjacent range starting at
`r + k + 1`. -/
theorem get_strict_advancement (C n : Nat) (hC : 1 ≤ C) (hn : 1 ≤ n)
    (tr : List (Event α)) (rb : RingBuffer α) (hrun : Run (C : Int) (n : Int) tr rb)
    (fuel : Nat) (b id : Int) (res : List (Option α)) (rb1 : RingBuffer α)
    (hid : 0 ≤ id ∧ id < n) (hb : 0 ≤ b) (hget : Get fuel rb b id = .done res rb1) :
    ∃ r : Int, rb.readCursors[id.toNat]? = some r ∧ (res.length : Int) ≤ b ∧
      rb1.readCursors[id.toNat]? = some (r + res.length) ∧
      (∀ (j : Nat) (hj : j < res.length),
        rb.buffer[((r + 1 + j) % (C : Int)).toNat]? = some (res.get ⟨j, hj⟩)) ∧
      (∀ k : Nat, k ≠ id.toNat → rb1.readCursors[k]? = rb.readCursors[k]?) ∧
      (∀ (fuel2 : Nat) (b2 : Int) (res2 : List (Option α)) (rb2 : RingBuffer α),
        Get fuel2 rb1 b2 id = .done res2 rb2 →
        rb2.readCursors[id.toNat]? = some (r + res.length + res2.length) ∧
        ∀ (j : Nat) (hj : j < res2.length),
          rb.buffer[((r + res.length + 1 + j) % (C : Int)).toNat]? =
            some (res2.get ⟨j, hj⟩)) := by
  have hI := Run_inv (by omega) hrun
  obtain ⟨r, h1, h2, h3, h4, h5, h6, _, _⟩ := Get_slots hI hget
  refine ⟨r, h1, h2, h3, h4, h5, ?_⟩
  intro fuel2 b2 res2 rb2 hget2
  obtain ⟨r2, g1, _, g3, g4, _⟩ := Get_slots (Get_inv hI hget) hget2
  rw [h3] at g1
  simp only [Option.some.injEq] at g1
  subst g1
  refine ⟨g3, ?_⟩
  intro j hj
  rw [← h6]
  exact g4 j hj

/-- Witness of C7: capacity 2, one consumer, after `Put(1, 2)` the call
`Get(1, 0)` returns. -/
theorem get_strict_advancement_witness :
    ∃ r : Int, (⟨2, [some 1, some 2], 2, [-1], [1, 1], 0, 0⟩ :
        RingBuffer Nat).readCursors[(0 : Int).toNat]? = some r ∧
      (([some 1] : List (Option Nat)).length : Int) ≤ 1 ∧
      (⟨2, [some 1, some 2], 2, [0], [1, 1], 0, 0⟩ :
        RingBuffer Nat).readCursors[(0 : Int).toNat]? =
          some (r + ([some 1] : List (Option Nat)).length) ∧
      (∀ (j : Nat) (hj : j < ([some 1] : List (Option Nat)).length),
        (⟨2, [some 1, some 2], 2, [-1], [1, 1], 0, 0⟩ :
          RingBuffer Nat).buffer[((r + 1 + j) % ((2 : Nat) : Int)).toNat]? =
            some (([some 1] : List (Option Nat)).get ⟨j, hj⟩)) ∧
      (∀ k : Nat, k ≠ (0 : Int).toNat →
        (⟨2, [some 1, some 2], 2, [0], [1, 1], 0, 0⟩ : RingBuffer Nat).readCursors[k]? =
          (⟨2, [some 1, some 2], 2, [-1], [1, 1], 0, 0⟩ : RingBuffer Nat).readCursors[k]?) ∧
      (∀ (fuel2 : Nat) (b2 : Int) (res2 : List (Option Nat)) (rb2 : RingBuffer Nat),
        Get fuel2 ⟨2, [some 1, some 2], 2, [0], [1, 1], 0, 0⟩ b2 0 = .done res2 rb2 →
        rb2.readCursors[(0 : Int).toNat]? =
          some (r + ([some 1] : List (Option Nat)).length + res2.length) ∧
        ∀ (j : Nat) (hj : j < res2.length),
          (⟨2, [some 1, some 2], 2, [-1], [1, 1], 0, 0⟩ : RingBuffer Nat).buffer[
            ((r + ([some 1] : List (Option Nat)).length + 1 + j) % ((2 : Nat) : Int)).toNat]? =
            some (res2.get ⟨j, hj⟩)) :=
  get_strict_advancement 2 1 (by decide) (by decide) [.put [some 1, some 2]]
    ⟨2, [some 1, some 2], 2, [-1], [1, 1], 0, 0⟩
    ⟨_, rfl, RunFrom.put [] _ _ [some 1, some 2] (RunFrom.nil _) (by decide)⟩
    2 1 0 [some 1] ⟨2, [some 1, some 2], 2, [0], [1, 1], 0, 0⟩
    ⟨by decide, by decide⟩ (by decide) (by decide)

/-- C6. Scenario A, generalised: for every capacity `C ≥ 1`, every list `vs` of
exactly `C` values and every `k` with `1 ≤ k ≤ C`, on a fresh single-consumer
buffer made by `NewRingBuffer(C, 1)` (there is one whenever `make` accepts the
capacity), after one `Put(vs...)`, `Get(k, 0)` returns `vs[0..k)` and the
following `Get(C - k, 0)` returns `vs[k..C)`; both calls return as soon as the
fuel exceeds the batch size. -/
theorem scenario_A (C : Nat) (hC : 1 ≤ C) (vs : List (Option α)) (hvs : vs.length = C)
    (k : Nat) (hk : 1 ≤ k ∧ k ≤ C) :
    (¬ makePanics 16 (C : Int) →
      ∃ rb0 : RingBuffer α, NewRingBuffer (C : Int) 1 = some rb0) ∧
    ∀ rb0 : RingBuffer α, NewRingBuffer (C : Int) 1 = some rb0 →
      ∃ rb1 rb2 rb3 : RingBuffer α,
        Put rb0 vs = .done () rb1 ∧
        (∀ fuel : Nat, k < fuel → Get fuel rb1 (k : Int) 0 = .done (vs.take k) rb2) ∧
        (∀ fuel : Nat, C - k < fuel →
          Get fuel rb2 ((C : Int) - (k : Int)) 0 = .done (vs.drop k) rb3) := by
  refine ⟨?_, ?_⟩
  · intro hcap
    have h8 : ¬ makePanics 8 ((1 : Nat) : Int) := by
      unfold makePanics at hcap ⊢
      omega
    exact ⟨_, by simpa using New_some (α := α) C 1 hcap h8⟩
  intro rb0 h0
  have h0' : NewRingBuffer (C : Int) ((1 : Nat) : Int) = some rb0 := by simpa using h0
  obtain ⟨hI0, hb0, hc0⟩ := New_inv C 1 (by omega) rb0 h0'
  have hcap := (New_eq C 1 rb0 h0').2.1
  obtain ⟨rb1, h1, hI1, hc1, hb1, _⟩ := Put_inv C 1 [] vs rb0 hI0
  simp only [List.nil_append] at hI1
  have hr1 : rb1.readCursors[0]? = some (((0 : Nat) : Int) - 1) := by
    rw [hc1, hc0]; simp
  have hg1 : ∀ fuel : Nat, k < fuel → Get fuel rb1 (k : Int) 0 =
      .done (vs.take k) (finish (advance rb1 0 (((0 : Nat) : Int) - 1 + k)) 0) := by
    intro fuel hf
    have := Get_values hI1 0 0 k hr1 (by omega) (by omega)
      (by rw [hb1, hb0]; push_cast; omega) fuel hf
      (makePanics_mono (by omega) (by omega) hcap)
    simpa using this
  have hI2 := Get_inv hI1 (hg1 (k + 1) (by omega))
  generalize hrb2 : finish (advance rb1 0 (((0 : Nat) : Int) - 1 + k)) 0 = rb2 at hg1 hI2
  have hcs : rb2.readCursors = [(k : Int) - 1] := by
    rw [← hrb2]; simp [finish, advance, hc1, hc0]; omega
  have hbar : rb2.readBarrier = (k : Int) - 1 := by
    rw [← hrb2]; simp [finish, advance, hc1, hc0, minCursor]; omega
  refine ⟨rb1, rb2, finish (advance rb2 0 ((k : Int) - 1 + ((C - k : Nat) : Int))) 0,
    h1, hg1, ?_⟩
  intro fuel hf
  have := Get_values hI2 0 k (C - k) (by rw [hcs]; simp) (by omega) (by omega)
    (by rw [hbar]; omega) fuel hf (makePanics_mono (by omega) (by omega) hcap)
  have e : ((C - k : Nat) : Int) = (C : Int) - (k : Int) := by omega
  rw [show ((0 : Nat) : Int) = 0 from rfl] at this
  rw [← e, this]
  congr 1
  rw [List.take_of_length_le (by simp; omega)]

/-- Witness of C6: `C = 10`, `vs = 0..9`, `k = 5` gives `[0,1,2,3,4]` and then
`[5,6,7,8,9]`. -/
theorem scenario_A_witness :
    ∃ rb0 rb1 rb2 rb3 : RingBuffer Nat,
      NewRingBuffer ((10 : Nat) : Int) 1 = some rb0 ∧
      Put rb0 ((List.range 10).map some) = .done () rb1 ∧
      (∀ fuel : Nat, 5 < fuel →
        Get fuel rb1 ((5 : Nat) : Int) 0 = .done (((List.range 10).map some).take 5) rb2) ∧
      (∀ fuel : Nat, 10 - 5 < fuel →
        Get fuel rb2 (((10 : Nat) : Int) - ((5 : Nat) : Int)) 0 =
          .done (((List.range 10).map some).drop 5) rb3) := by
  obtain ⟨h1, h2⟩ :=
    scenario_A 10 (by decide) ((List.range 10).map some) (by decide) 5 ⟨by decide, by decide⟩
  obtain ⟨rb0, e0⟩ := h1 (by decide)
  obtain ⟨rb1, rb2, rb3, e1, e2, e3⟩ := h2 rb0 e0
  exact ⟨rb0, rb1, rb2, rb3, e0, e1, e2, e3⟩

/-- C8, counterexample.  Two states of histories of `NewRingBuffer(1, 1)` that
agree on every field but `readBarrier` (0 after `Put(7)`; -1 after `Get(0, 0)`
and `Put(7)`): `Get(1, 0)` returns `[7]` in the first and `[]` in the second,
and leaves different read cursors. -/
theorem get_depends_on_barrier :
    Run (α := Nat) 1 1 [.put [some 7]] ⟨1, [some 7], 1, [-1], [1], 0, 0⟩ ∧
    Run (α := Nat) 1 1 [.get 0 0 [], .put [some 7]] ⟨1, [some 7], 1, [-1], [1], 0, -1⟩ ∧
    Get (α := Nat) 2 ⟨1, [some 7], 1, [-1], [1], 0, 0⟩ 1 0 =
      .done [some 7] ⟨1, [some 7], 1, [0], [1], 0, 0⟩ ∧
    Get (α := Nat) 2 ⟨1, [some 7], 1, [-1], [1], 0, -1⟩ 1 0 =
      .done [] ⟨1, [some 7], 1, [-1], [1], 0, -1⟩ := by
  refine ⟨⟨_, rfl, RunFrom.put [] _ _ _ (RunFrom.nil _) (by decide)⟩,
    ⟨_, rfl, RunFrom.put [.get 0 0 []] ⟨1, [none], 0, [-1], [0], 0, -1⟩ _ _
      (RunFrom.get [] _ _ 1 0 0 [] (RunFrom.nil _) (by decide)) (by decide)⟩,
    by decide, by decide⟩

/-- C8, amended.  `Get` reads `readBarrier` only in the gate
`nextRead - readBarrier < size`: for two states that differ only in
`readBarrier`, if the gate admits the whole batch under both barriers
(`readCursors[id] + batchSize - readBarrier < size`), then `Get(batchSize, id)`
returns in the one exactly when it returns in the other, with the same list of
values and the same final state, the recomputed barrier included. -/
theorem get_same_inside_gate (rb : RingBuffer α) (x : Int) (b id : Int)
    (h1 : rb.readCursors.getD id.toNat 0 + b - rb.readBarrier < rb.size)
    (h2 : rb.readCursors.getD id.toNat 0 + b - x < rb.size)
    (fuel : Nat) (res : List (Option α)) (st : RingBuffer α) :
    Get fuel rb b id = .done res st ↔ Get fuel (withBarrier rb x) b id = .done res st := by
  constructor
  · exact Get_withBarrier rb x b id h1 h2 fuel res st
  · intro h
    have := Get_withBarrier (withBarrier rb x) rb.readBarrier b id h2 h1 fuel res st h
    exact this

/-- Witness of the amended C8: capacity 4, one value put, barriers 0 and -1,
batch size 1. -/
theorem get_same_inside_gate_witness :
    Get (α := Nat) 2 ⟨4, [some 7, none, none, none], 1, [-1], [1, 0, 0, 0], 0, 0⟩ 1 0 =
        .done [some 7] ⟨4, [some 7, none, none, none], 1, [0], [1, 0, 0, 0], 0, 0⟩ ↔
      Get (α := Nat) 2
        (withBarrier ⟨4, [some 7, none, none, none], 1, [-1], [1, 0, 0, 0], 0, 0⟩ (-1)) 1 0 =
        .done [some 7] ⟨4, [some 7, none, none, none], 1, [0], [1, 0, 0, 0], 0, 0⟩ :=
  get_same_inside_gate ⟨4, [some 7, none, none, none], 1, [-1], [1, 0, 0, 0], 0, 0⟩ (-1) 1 0
    (by decide) (by decide) 2 [some 7] ⟨4, [some 7, none, none, none], 1, [0], [1, 0, 0, 0], 0, 0⟩


/-- C9, the code at the failing inputs.  (1) Capacity 2, one consumer:
after `Put(1, 2)` and `Get(2, 0) = [1, 2]` the consumer is drained
(`readCursors[0] = 1 = writeCursor - 1`), yet `Get(1, 0)` returns the stale
`[1]` and moves the cursor to 2.  (2) On the fresh buffer, drained as well
(`readCursors[0] = -1 = writeCursor - 1`), `Get(1, 0)` never returns: it polls
slot 0 whatever the fuel. -/
theorem drained_get_not_empty :
    Run (α := Nat) 2 1 [.put [some 1, some 2], .get 2 0 [some 1, some 2]]
      ⟨2, [some 1, some 2], 2, [1], [1, 1], 0, 1⟩ ∧
    Get (α := Nat) 2 ⟨2, [some 1, some 2], 2, [1], [1, 1], 0, 1⟩ 1 0 =
      .done [some 1] ⟨2, [some 1, some 2], 2, [2], [1, 1], 0, 2⟩ ∧
    Run (α := Nat) 2 1 [] ⟨2, [none, none], 0, [-1], [0, 0], 0, 0⟩ ∧
    ∀ fuel : Nat, Get (α := Nat) fuel ⟨2, [none, none], 0, [-1], [0, 0], 0, 0⟩ 1 0 =
      .timeout ⟨2, [none, none], 0, [-1], [0, 0], 0, 0⟩ := by
  refine ⟨⟨_, rfl, RunFrom.get [.put [some 1, some 2]]
      ⟨2, [some 1, some 2], 2, [-1], [1, 1], 0, 0⟩ _ 3 2 0 _
      (RunFrom.put [] _ _ _ (RunFrom.nil _) (by decide)) (by decide)⟩,
    by decide, ⟨_, rfl, RunFrom.nil _⟩, ?_⟩
  exact Get_wait_now (α := Nat) ⟨2, [none, none], 0, [-1], [0, 0], 0, 0⟩ 1 0 (-1)
    (by decide) (by decide) (by decide) (by decide)

/-- C3, the code at the failing inputs.  (1) `C = 2`, `N = 2`: after `Put(1)`,
`Put(2)` the calls `Get(1, 0)`, `Get(1, 0)`, `Get(1, 0)` return `[1]`, `[2]`,
`[1]`: the third result repeats the first value, so the results `1, 2, 1` are
not a prefix of the values put.  (2) `C = 2`, `N = 1`: after `Put(1)` and
`Get(1, 0) = [1]` the next `Get(1, 0)` never returns. -/
theorem spsc_repeats_or_hangs :
    Run (α := Nat) 2 1
      [.put [some 1], .put [some 2], .get 1 0 [some 1], .get 1 0 [some 2], .get 1 0 [some 1]]
      ⟨2, [some 1, some 2], 2, [2], [1, 1], 0, 2⟩ ∧
    received (α := Nat) 0
      [.put [some 1], .put [some 2], .get 1 0 [some 1], .get 1 0 [some 2], .get 1 0 [some 1]]
      = [some 1, some 2, some 1] ∧
    Run (α := Nat) 2 1 [.put [some 1], .get 1 0 [some 1]]
      ⟨2, [some 1, none], 1, [0], [1, 0], 0, 0⟩ ∧
    ∀ fuel : Nat, Get (α := Nat) fuel ⟨2, [some 1, none], 1, [0], [1, 0], 0, 0⟩ 1 0 =
      .timeout ⟨2, [some 1, none], 1, [0], [1, 0], 0, 0⟩ := by
  refine ⟨⟨_, rfl, ?_⟩, by decide, ⟨_, rfl, ?_⟩, ?_⟩
  · exact RunFrom.get [.put [some 1], .put [some 2], .get 1 0 [some 1], .get 1 0 [some 2]]
      ⟨2, [some 1, some 2], 2, [1], [1, 1], 0, 1⟩ _ 2 1 0 _
      (RunFrom.get [.put [some 1], .put [some 2], .get 1 0 [some 1]]
        ⟨2, [some 1, some 2], 2, [0], [1, 1], 0, 0⟩ _ 2 1 0 _
        (RunFrom.get [.put [some 1], .put [some 2]]
          ⟨2, [some 1, some 2], 2, [-1], [1, 1], 0, 0⟩ _ 2 1 0 _
          (RunFrom.put [.put [some 1]] ⟨2, [some 1, none], 1, [-1], [1, 0], 0, 0⟩ _ _
            (RunFrom.put [] _ _ _ (RunFrom.nil _) (by decide)) (by decide))
          (by decide)) (by decide)) (by decide)
  · exact RunFrom.get [.put [some 1]] ⟨2, [some 1, none], 1, [-1], [1, 0], 0, 0⟩ _ 2 1 0 _
      (RunFrom.put [] _ _ _ (RunFrom.nil _) (by decide)) (by decide)
  · exact Get_wait_now (α := Nat) ⟨2, [some 1, none], 1, [0], [1, 0], 0, 0⟩ 1 0 0
      (by decide) (by decide) (by decide) (by decide)

/-- C1, counterexample.  `NewRingBuffer(1, 1)`, `Put(1)`, `Put(2)`,
`Get(1, 0)`: the consumer is handed `[2]`, which is not a prefix of the values
put, `[1, 2]`: the first value was overwritten before it was read. -/
theorem delivery_not_prefix :
    Run (α := Nat) 1 1 [.put [some 1], .put [some 2], .get 1 0 [some 2]]
      ⟨1, [some 2], 2, [0], [1], 0, 0⟩ ∧
    ¬ (received (α := Nat) 0 [.put [some 1], .put [some 2], .get 1 0 [some 2]] <+:
        putValues [.put [some 1], .put [some 2], .get 1 0 [some 2]]) := by
  refine ⟨⟨_, rfl, RunFrom.get [.put [some 1], .put [some 2]]
      ⟨1, [some 2], 2, [-1], [1], 0, 0⟩ _ 2 1 0 _
      (RunFrom.put [.put [some 1]] ⟨1, [some 1], 1, [-1], [1], 0, 0⟩ _ _
        (RunFrom.put [] _ _ _ (RunFrom.nil _) (by decide)) (by decide)) (by decide)⟩, ?_⟩
  simp [received, putValues]

/-- C1, amended.  For every buffer made by `NewRingBuffer(C, n)` with `C ≥ 1`
and `n ≥ 1` and every history of completed calls in which every `Put` passes
at most the free capacity (`Put` itself does not wait for it) and every `Get`
asks for at most the values its consumer has still to read
(`readCursors[id] + batchSize < writeCursor`), the concatenation, in call
order, of the results returned to any one consumer id is a prefix of the
concatenation of all values passed to `Put` so far. -/
theorem delivery_prefix_when_disciplined (C n : Nat) (hC : 1 ≤ C) (hn : 1 ≤ n)
    (rb0 rb : RingBuffer α) (tr : List (Event α))
    (h0 : NewRingBuffer (C : Int) (n : Int) = some rb0)
    (hrun : FitRunFrom GetWithin rb0 tr rb) (id : Int) :
    received id tr <+: putValues tr := by
  have hd := FitRunFrom_delivered (by omega : 0 < C) (by omega : 0 < n) h0 hrun
  by_cases hid : 0 ≤ id ∧ id < n
  · obtain ⟨r, _, _, h3⟩ := hd.valid id.toNat (by omega)
    rw [Int.toNat_of_nonneg hid.1] at h3
    rw [h3]
    exact List.take_prefix _ _
  · rw [hd.invalid id (by omega)]
    exact List.nil_prefix

/-- Witness of the amended C1: capacity 2, one consumer, `Put(1)`, `Get(1, 0)`,
`Put(2)`. -/
theorem delivery_prefix_when_disciplined_witness :
    received (α := Nat) 0 [.put [some 1], .get 1 0 [some 1], .put [some 2]] <+:
      putValues [.put [some 1], .get 1 0 [some 1], .put [some 2]] :=
  delivery_prefix_when_disciplined 2 1 (by decide) (by decide)
    ⟨2, [none, none], 0, [-1], [0, 0], 0, 0⟩ ⟨2, [some 1, some 2], 2, [0], [1, 1], 0, 0⟩
    [.put [some 1], .get 1 0 [some 1], .put [some 2]] rfl
    (FitRunFrom.put [.put [some 1], .get 1 0 [some 1]]
      ⟨2, [some 1, none], 1, [0], [1, 0], 0, 0⟩ _ _
      (FitRunFrom.get [.put [some 1]] ⟨2, [some 1, none], 1, [-1], [1, 0], 0, 0⟩ _ 2 1 0 _
        (FitRunFrom.put [] _ _ _ (FitRunFrom.nil _) (by decide) (by decide))
        (by decide) (by decide))
      (by decide) (by decide)) 0


/-- C4, counterexample.  `NewRingBuffer(1, 2)`, `Put(7)`, `Get(1, 0) = [7]`:
the barrier is now -1, the cursor of consumer 1, and `Get(1, 1)` returns the
empty list, not one value, for any fuel and leaves the state as it is, so
consumer 1 is never handed the value. -/
theorem fan_out_starved :
    Run (α := Nat) 1 2 [.put [some 7], .get 1 0 [some 7]]
      ⟨1, [some 7], 1, [0, -1], [1], 0, -1⟩ ∧
    ∀ fuel : Nat, Get (α := Nat) (fuel + 1) ⟨1, [some 7], 1, [0, -1], [1], 0, -1⟩ 1 1 =
      .done [] ⟨1, [some 7], 1, [0, -1], [1], 0, -1⟩ := by
  refine ⟨⟨_, rfl, RunFrom.get [.put [some 7]] ⟨1, [some 7], 1, [-1, -1], [1], 0, 0⟩ _ 2 1 0 _
      (RunFrom.put [] _ _ _ (RunFrom.nil _) (by decide)) (by decide)⟩, ?_⟩
  intro fuel
  exact Get_done (α := Nat) ⟨1, [some 7], 1, [0, -1], [1], 0, -1⟩ 1 1 (-1) []
    (by decide) (by intro j hj; simp at hj) (by decide) (Or.inr (by decide)) (fuel + 1)
    (by simp) (by decide)

/-- C4, amended.  For every `C ≥ 1`, `n ≥ 1` and list `vs` with
`len(vs) ≤ C` put into a fresh `NewRingBuffer(C, n)`, and every interleaving
of `Get` calls with batch sizes `≥ 1` in which each consumer asks in total for
at most `len(vs)` values and, when there is more than one consumer, at most
`C - 1` values: every call `Get(b, i)` returns exactly `b` values, the
concatenation of consumer `i`'s results is the first `k_i` values of `vs`, and
a further call inside the bound returns, with the next `b` values of `vs`. -/
theorem fan_out_inside_gate (C n : Nat) (hC : 1 ≤ C) (hn : 1 ≤ n) (vs : List (Option α))
    (hvs : vs.length ≤ C) (rb0 rbP rb : RingBuffer α) (puts gets : List (Event α))
    (h0 : NewRingBuffer (C : Int) (n : Int) = some rb0)
    (hputs : RunFrom rb0 puts rbP) (hpo : onlyPuts puts = true) (hpv : putValues puts = vs)
    (hgets : RunFrom rbP gets rb) (hgo : onlyGets gets = true)
    (hsum : ∀ i : Nat, i < n → requested (i : Int) gets ≤ fanOutBound C n vs.length) :
    (∀ (b id : Int) (res : List (Option α)), Event.get b id res ∈ gets →
      (res.length : Int) = b) ∧
    (∀ i : Nat, i < n → received (i : Int) gets = vs.take (requested (i : Int) gets).toNat) ∧
    (∀ b id : Int, 1 ≤ b → 0 ≤ id ∧ id < n →
      requested id gets + b ≤ fanOutBound C n vs.length →
      ∀ fuel : Nat, b.toNat < fuel →
        ∃ rb1, Get fuel rb b id =
          .done ((vs.drop (requested id gets).toNat).take b.toNat) rb1) := by
  obtain ⟨hI0, hb0, hc0⟩ := New_inv C n (by omega) rb0 h0
  have hcap := (New_eq C n rb0 h0).2.1
  have hIP := RunFrom_inv hputs [] hI0
  rw [List.nil_append, hpv] at hIP
  obtain ⟨hcP, hbP⟩ := RunFrom_onlyPuts hputs [] hI0 hpo
  have hF0 : FanOut C n vs [] rbP := by
    refine ⟨hIP, ?_, ?_, ?_⟩
    · intro i hi
      refine ⟨by simp [requested], ?_, by simp [requested, received]⟩
      rw [hcP, hc0]
      simp [requested, hi]
    · intro b id res hmem; simp at hmem
    · intro _; rw [hbP, hb0]
  have hF := RunFrom_fanOut hvs hcap hgets hF0 hgo hsum
  refine ⟨hF.full, fun i hi => (hF.cur i hi).2.2, ?_⟩
  intro b id hb hid hreq fuel hf
  obtain ⟨rb1, h1, _⟩ := FanOut_step hF hvs hcap b id hb hid hreq fuel hf
  exact ⟨rb1, h1⟩

/-- Witness of the amended C4, the run of `TestBasicFunctionality`: capacity
10, two consumers, ten single-value `Put` calls, `Get(5, 0)` and `Get(5, 1)`;
each returns 5 values. -/
theorem fan_out_inside_gate_witness :
    (∀ (b id : Int) (res : List (Option Nat)), Event.get b id res ∈ basicGets →
      (res.length : Int) = b) ∧
    (∀ i : Nat, i < 2 → received (i : Int) basicGets =
      ((List.range 10).map some).take (requested (i : Int) basicGets).toNat) ∧
    (∀ b id : Int, 1 ≤ b → 0 ≤ id ∧ id < (2 : Nat) →
      requested id basicGets + b ≤ fanOutBound 10 2 ((List.range 10).map some).length →
      ∀ fuel : Nat, b.toNat < fuel →
        ∃ rb1, Get fuel basicAfterGets b id =
          .done ((((List.range 10).map some).drop (requested id basicGets).toNat).take
            b.toNat) rb1) :=
  fan_out_inside_gate 10 2 (by decide) (by decide) ((List.range 10).map some) (by decide)
    ⟨10, List.replicate 10 none, 0, [-1, -1], List.replicate 10 0, 0, 0⟩
    basicAfterPuts basicAfterGets basicPuts basicGets rfl
    (runCalls_sound 1 _ basicPutCalls [] _ _ _ (RunFrom.nil _) (by decide))
    (by decide) (by decide)
    (runCalls_sound 6 _ [.get 5 0, .get 5 1] [] _ _ _ (RunFrom.nil _) (by decide))
    (by decide)
    (by
      intro i hi
      interval_cases i <;> decide)

/-- C5, counterexample.  Scenario B with consumer 0 reading after both `Put`
calls: `NewRingBuffer(4, 2)`, `Put(10, 20, 30)`, `Put(40, 50, 60)`, then
`Get(4, 0)` returns `[50, 60, 30, 40]`: 10 and 20 have been replaced, the
results are not a prefix of `10, 20, 30, 40, 50, 60`. -/
theorem scenario_B_values_replaced :
    Run (α := Nat) 4 2
      [.put [some 10, some 20, some 30], .put [some 40, some 50, some 60],
        .get 4 0 [some 50, some 60, some 30, some 40]]
      ⟨4, [some 50, some 60, some 30, some 40], 6, [3, -1], [1, 1, 1, 1], 0, -1⟩ ∧
    ¬ (received (α := Nat) 0
        [.put [some 10, some 20, some 30], .put [some 40, some 50, some 60],
          .get 4 0 [some 50, some 60, some 30, some 40]] <+:
      [some 10, some 20, some 30, some 40, some 50, some 60]) := by
  refine ⟨⟨_, rfl, runCalls_sound 5 _
      [.put [some 10, some 20, some 30], .put [some 40, some 50, some 60], .get 4 0]
      [] _ _ _ (RunFrom.nil _) (by decide)⟩, ?_⟩
  simp [received]

/-- C5, amended.  Scenario B on the code, consumer 1 never calling `Get`: on a
fresh `NewRingBuffer(4, 2)`, `Put(10, 20, 30)` returns; `Get(3, 0)` then
returns `[10, 20, 30]`; `Put(40, 50, 60)` returns without waiting for consumer
1 and stores 50 and 60 over the slots of 10 and 20; from then on every
`Get(b, 0)` returns the empty list and changes nothing (or, for a batch size
that `make` rejects, panics and changes nothing), so consumer 0 has received
exactly 10, 20, 30 and is never handed 40, 50, 60. -/
theorem scenario_B_stops_at_three :
    NewRingBuffer (α := Nat) 4 2 = some ⟨4, [none, none, none, none], 0, [-1, -1], [0, 0, 0, 0], 0, 0⟩ ∧
    Put (α := Nat) ⟨4, [none, none, none, none], 0, [-1, -1], [0, 0, 0, 0], 0, 0⟩
        [some 10, some 20, some 30] =
      .done () ⟨4, [some 10, some 20, some 30, none], 3, [-1, -1], [1, 1, 1, 0], 0, 0⟩ ∧
    (∀ fuel : Nat,
      Get (α := Nat) (fuel + 4)
          ⟨4, [some 10, some 20, some 30, none], 3, [-1, -1], [1, 1, 1, 0], 0, 0⟩ 3 0 =
        .done [some 10, some 20, some 30]
          ⟨4, [some 10, some 20, some 30, none], 3, [2, -1], [1, 1, 1, 0], 0, -1⟩) ∧
    Put (α := Nat) ⟨4, [some 10, some 20, some 30, none], 3, [2, -1], [1, 1, 1, 0], 0, -1⟩
        [some 40, some 50, some 60] =
      .done () ⟨4, [some 50, some 60, some 30, some 40], 6, [2, -1], [1, 1, 1, 1], 0, -1⟩ ∧
    (∀ (b fuel : Nat),
      Get (α := Nat) (fuel + 1)
          ⟨4, [some 50, some 60, some 30, some 40], 6, [2, -1], [1, 1, 1, 1], 0, -1⟩ b 0 =
        if makePanics 16 (b : Int) then
          .panic ⟨4, [some 50, some 60, some 30, some 40], 6, [2, -1], [1, 1, 1, 1], 0, -1⟩
        else
          .done [] ⟨4, [some 50, some 60, some 30, some 40], 6, [2, -1], [1, 1, 1, 1], 0, -1⟩) := by
  refine ⟨rfl, by decide, ?_, by decide, ?_⟩
  · intro fuel
    exact Get_mono 4 (fuel + 4) (by omega) (by decide)
  · intro b fuel
    by_cases hmk : makePanics 16 (b : Int)
    · rw [if_pos hmk]
      exact Get_make_panics (fuel + 1) _ _ _ ⟨by decide, by decide⟩ hmk
    · rw [if_neg hmk]
      exact Get_done (α := Nat)
        ⟨4, [some 50, some 60, some 30, some 40], 6, [2, -1], [1, 1, 1, 1], 0, -1⟩ b 0 2 []
        (by decide) (by intro j hj; simp at hj) (by simp) (Or.inr (by decide)) (fuel + 1)
        (by simp) hmk


theorem minCursor_mem (cs : List Int) : ∀ start : Int,
    minCursor start cs = start ∨ minCursor start cs ∈ cs := by
  induction cs with
  | nil => intro start; left; rfl
  | cons c cs ih =>
    intro start
    have hstep : minCursor start (c :: cs) = minCursor (if c < start then c else start) cs := by
      simp [minCursor]
    rw [hstep]
    rcases ih (if c < start then c else start) with h | h
    · rw [h]
      by_cases hc : c < start
      · rw [if_pos hc]; right; simp
      · rw [if_neg hc]; left; rfl
    · right; exact List.mem_cons_of_mem _ h

/-- The scan of `Get` started at a cursor of the list yields the least cursor
of the list. -/
theorem minCursor_eq_lowest (cs : List Int) (start : Int) (hs : start ∈ cs) :
    minCursor start cs = minCursor (cs.headD 0) cs := by
  have hne : cs ≠ [] := List.ne_nil_of_mem hs
  have m1 : minCursor start cs ∈ cs := by
    rcases minCursor_mem cs start with h | h
    · rw [h]; exact hs
    · exact h
  have m2 : minCursor (cs.headD 0) cs ∈ cs := by
    rcases minCursor_mem cs (cs.headD 0) with h | h
    · rw [h]; exact headD_mem cs hne
    · exact h
  exact le_antisymm (minCursor_le_mem cs _ _ m2) (minCursor_le_mem cs _ _ m1)

/-- After a returning `Get` the barrier is the least read cursor. -/
theorem Get_barrier {rb rb1 : RingBuffer α} {fuel : Nat} {b id : Int}
    {res : List (Option α)} (h : Get fuel rb b id = .done res rb1) :
    rb1.readBarrier = lowestCursor rb1 ∧ rb1.readBarrier ∈ rb1.readCursors ∧
      ∀ c ∈ rb1.readCursors, rb1.readBarrier ≤ c := by
  obtain ⟨h0, h1, h2, r, hr, hp, hl, hend, hf, hrb⟩ := Get_done_inv fuel rb b id res rb1 h
  have hlt := cursor_lt_length hr
  have hcur : (advance rb id.toNat (r + res.length)).readCursors[id.toNat]? =
      some (r + res.length) := advance_cursor rb id.toNat r _ hr
  have hs : (advance rb id.toNat (r + res.length)).readCursors.getD id.toNat 0 ∈
      (advance rb id.toNat (r + res.length)).readCursors := by
    rw [List.getD_eq_getElem?_getD, hcur]
    exact List.getElem?_mem hcur
  have e1 : rb1.readBarrier = lowestCursor rb1 := by
    rw [hrb]
    exact minCursor_eq_lowest _ _ hs
  refine ⟨e1, ?_, ?_⟩
  · rw [e1]
    unfold lowestCursor
    have hne : rb1.readCursors ≠ [] := by
      rw [hrb]; exact List.ne_nil_of_mem hs
    rcases minCursor_mem rb1.readCursors (rb1.readCursors.headD 0) with h | h
    · rw [h]; exact headD_mem _ hne
    · exact h
  · intro c hc
    rw [e1]
    exact lowestCursor_le rb1 c hc

/-- From the first completed `Get` on, the barrier of a history is the least
read cursor. -/
theorem RunFrom_barrier {C n : Nat} {rb0 rb : RingBuffer α} {tr : List (Event α)}
    (h : RunFrom rb0 tr rb) :
    ∀ P0 : List (Option α), Inv C n P0 rb0 → hasGet tr = true →
      rb.readBarrier = lowestCursor rb := by
  induction h with
  | nil => intro _ _ hg; simp [hasGet] at hg
  | put tr rb rb1 data hrun hput ih =>
    intro P0 hI hg
    have hg1 : hasGet tr = true := by
      simpa [hasGet] using hg
    obtain ⟨rb2, h1, _, h3, h4, _⟩ := Put_inv C n _ data rb (RunFrom_inv hrun P0 hI)
    rw [h1] at hput
    simp only [Outcome.done.injEq, true_and] at hput
    subst hput
    unfold lowestCursor
    rw [h4, h3]
    exact ih P0 hI hg1
  | get tr rb rb1 fuel b id res hrun hget ih =>
    intro _ _ _
    exact (Get_barrier hget).1

/-- C11, counterexample.  `NewRingBuffer(0, 1)` and `NewRingBuffer(1, 0)` do
not fail: they return a buffer without slots, and a buffer without
consumers. -/
theorem newRingBuffer_accepts_zero :
    NewRingBuffer (α := Nat) 0 1 = some ⟨0, [], 0, [-1], [], 0, 0⟩ ∧
    NewRingBuffer (α := Nat) 1 0 = some ⟨1, [none], 0, [], [0], 0, 0⟩ := by
  exact ⟨rfl, rfl⟩

/-- C11, amended.  `NewRingBuffer(size, numConsumers)` validates nothing
itself: it fails, by the panic of `make`, if and only if a length is one that
`make` rejects, that is `size < 0`, `numConsumers < 0`, `16 * size > maxAlloc`
or `8 * numConsumers > maxAlloc`.  A capacity of 0 (with a consumer count that
`make` accepts) gives a buffer on which every `Put` of at least one value
panics (zero modulus); a consumer count of 0 (with a capacity that `make`
accepts) gives a buffer on which every `Get` panics (no valid id). -/
theorem newRingBuffer_fails_iff_length_rejected (size numConsumers : Int) :
    ((NewRingBuffer size numConsumers : Option (RingBuffer α)) = none ↔
      (size < 0 ∨ numConsumers < 0 ∨ (maxAlloc : Int) < 16 * size ∨
        (maxAlloc : Int) < 8 * numConsumers)) ∧
    (∀ (n : Nat) (d : Option α) (ds : List (Option α)), 8 * (n : Int) ≤ (maxAlloc : Int) →
      ∃ rb st : RingBuffer α, NewRingBuffer 0 (n : Int) = some rb ∧
        Put rb (d :: ds) = .panic st) ∧
    (∀ (C fuel : Nat) (b id : Int), 16 * (C : Int) ≤ (maxAlloc : Int) →
      ∃ rb : RingBuffer α, NewRingBuffer (C : Int) 0 = some rb ∧
        Get fuel rb b id = .panic rb) := by
  refine ⟨?_, ?_, ?_⟩
  · unfold NewRingBuffer
    by_cases h1 : makePanics 16 size
    · rw [if_pos h1]
      unfold makePanics at h1
      simp only [true_iff]
      omega
    · by_cases h2 : makePanics 8 numConsumers
      · rw [if_neg h1, if_pos h2]
        unfold makePanics at h2
        simp only [true_iff]
        omega
      · have h3 : ¬ makePanics 4 size := by
          unfold makePanics at h1 ⊢
          omega
        rw [if_neg h1, if_neg h2, if_neg h3]
        unfold makePanics at h1 h2
        simp only [reduceCtorEq, false_iff]
        omega
  · intro n d ds hn
    refine ⟨⟨0, [], 0, List.replicate n (-1), [], 0, 0⟩,
      ⟨0, [], 0 + ((d :: ds).length : Int), List.replicate n (-1), [], 0, 0⟩, ?_, ?_⟩
    · have h := New_some (α := α) 0 n (by decide) (by unfold makePanics; omega)
      simpa using h
    · simp [Put, putLoop, slotIndex]
  · intro C fuel b id hC
    refine ⟨⟨C, List.replicate C none, 0, [], List.replicate C 0, 0, 0⟩, ?_, ?_⟩
    · have h := New_some (α := α) C 0 (by unfold makePanics; omega) (by decide)
      simpa using h
    · unfold Get
      rw [if_pos (by simp; omega)]

/-- Witness of the amended C11: `NewRingBuffer(1 << 62, 1)` returns no buffer;
`NewRingBuffer(0, 1)` returns a buffer on which `Put(7)` panics;
`NewRingBuffer(1, 0)` returns a buffer on which `Get(1, 0)` panics. -/
theorem newRingBuffer_fails_iff_length_rejected_witness :
    (8 * ((1 : Nat) : Int) ≤ (maxAlloc : Int) ∧ 16 * ((1 : Nat) : Int) ≤ (maxAlloc : Int)) ∧
    (NewRingBuffer 4611686018427387904 1 : Option (RingBuffer Nat)) = none ∧
    (∃ rb st : RingBuffer Nat, NewRingBuffer 0 ((1 : Nat) : Int) = some rb ∧
      Put rb [some 7] = .panic st) ∧
    (∃ rb : RingBuffer Nat, NewRingBuffer ((1 : Nat) : Int) 0 = some rb ∧
      Get 5 rb 1 0 = .panic rb) :=
  ⟨⟨by decide, by decide⟩,
    (newRingBuffer_fails_iff_length_rejected (α := Nat) 4611686018427387904 1).1.2
      (Or.inr (Or.inr (Or.inl (by decide)))),
    (newRingBuffer_fails_iff_length_rejected (α := Nat) 0 0).2.1 1 (some 7) [] (by decide),
    (newRingBuffer_fails_iff_length_rejected (α := Nat) 0 0).2.2 1 5 1 0 (by decide)⟩

/-- C12.  Zero batch: in every buffer state and for every valid consumer id,
`Get(0, id)` returns the empty list after a single evaluation of the loop
condition, so the wait branch is never entered, and it leaves the read
cursors, the slots, the flags and the write cursor unchanged. -/
theorem get_zero_batch (rb : RingBuffer α) (id : Int)
    (hid : 0 ≤ id ∧ id < rb.readCursors.length) (fuel : Nat) :
    Get (fuel + 1) rb 0 id = .done [] (finish rb id.toNat) ∧
    getLoop 1 rb id.toNat 0 (rb.readCursors.getD id.toNat 0 + 1) 0 0 [] = .done (0, []) rb ∧
    (finish rb id.toNat).readCursors = rb.readCursors ∧
    (finish rb id.toNat).buffer = rb.buffer ∧
    (finish rb id.toNat).available = rb.available ∧
    (finish rb id.toNat).writeCursor = rb.writeCursor := by
  refine ⟨?_, ?_, rfl, rfl, rfl, rfl⟩
  · unfold Get
    rw [if_neg (by omega), if_neg (by decide)]
    simp [getLoop, finish]
  · simp [getLoop]

/-- Witness of C12: `Get(0, 0)` on the fresh buffer of capacity 2 with one
consumer. -/
theorem get_zero_batch_witness :
    Get (α := Nat) (0 + 1) ⟨2, [none, none], 0, [-1], [0, 0], 0, 0⟩ 0 0 =
      .done [] (finish ⟨2, [none, none], 0, [-1], [0, 0], 0, 0⟩ (0 : Int).toNat) ∧
    getLoop (α := Nat) 1 ⟨2, [none, none], 0, [-1], [0, 0], 0, 0⟩ (0 : Int).toNat 0
      ((⟨2, [none, none], 0, [-1], [0, 0], 0, 0⟩ : RingBuffer Nat).readCursors.getD
        (0 : Int).toNat 0 + 1) 0 0 [] =
      .done (0, []) ⟨2, [none, none], 0, [-1], [0, 0], 0, 0⟩ ∧
    (finish (α := Nat) ⟨2, [none, none], 0, [-1], [0, 0], 0, 0⟩ (0 : Int).toNat).readCursors =
      (⟨2, [none, none], 0, [-1], [0, 0], 0, 0⟩ : RingBuffer Nat).readCursors ∧
    (finish (α := Nat) ⟨2, [none, none], 0, [-1], [0, 0], 0, 0⟩ (0 : Int).toNat).buffer =
      (⟨2, [none, none], 0, [-1], [0, 0], 0, 0⟩ : RingBuffer Nat).buffer ∧
    (finish (α := Nat) ⟨2, [none, none], 0, [-1], [0, 0], 0, 0⟩ (0 : Int).toNat).available =
      (⟨2, [none, none], 0, [-1], [0, 0], 0, 0⟩ : RingBuffer Nat).available ∧
    (finish (α := Nat) ⟨2, [none, none], 0, [-1], [0, 0], 0, 0⟩ (0 : Int).toNat).writeCursor =
      (⟨2, [none, none], 0, [-1], [0, 0], 0, 0⟩ : RingBuffer Nat).writeCursor :=
  get_zero_batch ⟨2, [none, none], 0, [-1], [0, 0], 0, 0⟩ 0 ⟨by decide, by decide⟩ 0

/-- C13.  Cursor ordering invariant: in every state of a history of
`NewRingBuffer(C, n)` with `C ≥ 1` and `n ≥ 1` there are `n` read cursors,
each satisfies `-1 ≤ readCursors[i] ≤ writeCursor`, and `writeCursor ≥ 0`. -/
theorem cursor_ordering (C n : Nat) (hC : 1 ≤ C) (hn : 1 ≤ n)
    (tr : List (Event α)) (rb : RingBuffer α) (hrun : Run (C : Int) (n : Int) tr rb) :
    rb.readCursors.length = n ∧
    (∀ i : Nat, i < n → ∃ c : Int, rb.readCursors[i]? = some c ∧ -1 ≤ c ∧
      c ≤ rb.writeCursor) ∧
    0 ≤ rb.writeCursor := by
  have hI := Run_inv (by omega : 0 < C) hrun
  refine ⟨hI.ncur, ?_, by rw [hI.wc]; omega⟩
  intro i hi
  have hlt : i < rb.readCursors.length := by rw [hI.ncur]; exact hi
  have hmem := List.getElem_mem hlt
  exact ⟨rb.readCursors[i], List.getElem?_eq_getElem hlt, hI.cur_ge _ hmem, hI.cur_le _ hmem⟩

/-- Witness of C13: capacity 2, one consumer, after `Put(1, 2)`, `Get(2, 0)`
and the stale `Get(1, 0)` the cursor equals the write cursor. -/
theorem cursor_ordering_witness :
    (⟨2, [some 1, some 2], 2, [2], [1, 1], 0, 2⟩ : RingBuffer Nat).readCursors.length = 1 ∧
    (∀ i : Nat, i < 1 → ∃ c : Int,
      (⟨2, [some 1, some 2], 2, [2], [1, 1], 0, 2⟩ : RingBuffer Nat).readCursors[i]? = some c ∧
      -1 ≤ c ∧ c ≤ (⟨2, [some 1, some 2], 2, [2], [1, 1], 0, 2⟩ : RingBuffer Nat).writeCursor) ∧
    0 ≤ (⟨2, [some 1, some 2], 2, [2], [1, 1], 0, 2⟩ : RingBuffer Nat).writeCursor :=
  cursor_ordering 2 1 (by decide) (by decide)
    [.put [some 1, some 2], .get 2 0 [some 1, some 2], .get 1 0 [some 1]]
    ⟨2, [some 1, some 2], 2, [2], [1, 1], 0, 2⟩
    ⟨_, rfl, runCalls_sound 3 _ [.put [some 1, some 2], .get 2 0, .get 1 0] [] _ _ _
      (RunFrom.nil _) (by decide)⟩

/-- C16.  Barrier recomputation uses post-advance cursors: whenever
`Get(batchSize, id)` returns on a buffer with at least one consumer, the
resulting `readBarrier` is the minimum over all consumer cursors of the
resulting state: it is one of them, none is below it, and in particular it is
at most the just-advanced `readCursors[id] = r + k`. -/
theorem barrier_is_min_after_get (rb rb1 : RingBuffer α) (fuel : Nat) (b id : Int)
    (res : List (Option α)) (hn : 1 ≤ rb.readCursors.length)
    (hid : 0 ≤ id ∧ id < rb.readCursors.length) (hb : 0 ≤ b)
    (hget : Get fuel rb b id = .done res rb1) :
    rb1.readBarrier = lowestCursor rb1 ∧
    rb1.readBarrier ∈ rb1.readCursors ∧
    (∀ c ∈ rb1.readCursors, rb1.readBarrier ≤ c) ∧
    ∃ r : Int, rb.readCursors[id.toNat]? = some r ∧
      rb1.readCursors[id.toNat]? = some (r + res.length) ∧
      rb1.readBarrier ≤ r + res.length := by
  obtain ⟨e1, e2, e3⟩ := Get_barrier hget
  obtain ⟨h0, h1, h2, r, hr, hp, hl, hend, hf, hrb⟩ := Get_done_inv fuel rb b id res rb1 hget
  have hcur : rb1.readCursors[id.toNat]? = some (r + res.length) := by
    rw [hrb]; exact advance_cursor rb id.toNat r _ hr
  exact ⟨e1, e2, e3, r, hr, hcur, e3 _ (List.getElem?_mem hcur)⟩

/-- Witness of C16: two consumers at cursors -1 and 0, barrier -1; `Get(2, 0)`
moves consumer 0 to cursor 1 and the new barrier is 0, the minimum of the
cursors after the advance. -/
theorem barrier_is_min_after_get_witness :
    (⟨4, [some 1, some 2, some 3, none], 3, [1, 0], [1, 1, 1, 0], 0, 0⟩ :
        RingBuffer Nat).readBarrier =
      lowestCursor (α := Nat) ⟨4, [some 1, some 2, some 3, none], 3, [1, 0], [1, 1, 1, 0], 0, 0⟩ ∧
    (⟨4, [some 1, some 2, some 3, none], 3, [1, 0], [1, 1, 1, 0], 0, 0⟩ :
        RingBuffer Nat).readBarrier ∈
      (⟨4, [some 1, some 2, some 3, none], 3, [1, 0], [1, 1, 1, 0], 0, 0⟩ :
        RingBuffer Nat).readCursors ∧
    (∀ c ∈ (⟨4, [some 1, some 2, some 3, none], 3, [1, 0], [1, 1, 1, 0], 0, 0⟩ :
        RingBuffer Nat).readCursors,
      (⟨4, [some 1, some 2, some 3, none], 3, [1, 0], [1, 1, 1, 0], 0, 0⟩ :
        RingBuffer Nat).readBarrier ≤ c) ∧
    ∃ r : Int,
      (⟨4, [some 1, some 2, some 3, none], 3, [-1, 0], [1, 1, 1, 0], 0, -1⟩ :
        RingBuffer Nat).readCursors[(0 : Int).toNat]? = some r ∧
      (⟨4, [some 1, some 2, some 3, none], 3, [1, 0], [1, 1, 1, 0], 0, 0⟩ :
        RingBuffer Nat).readCursors[(0 : Int).toNat]? =
          some (r + ([some 1, some 2] : List (Option Nat)).length) ∧
      (⟨4, [some 1, some 2, some 3, none], 3, [1, 0], [1, 1, 1, 0], 0, 0⟩ :
        RingBuffer Nat).readBarrier ≤ r + ([some 1, some 2] : List (Option Nat)).length :=
  barrier_is_min_after_get
    ⟨4, [some 1, some 2, some 3, none], 3, [-1, 0], [1, 1, 1, 0], 0, -1⟩
    ⟨4, [some 1, some 2, some 3, none], 3, [1, 0], [1, 1, 1, 0], 0, 0⟩
    3 2 0 [some 1, some 2] (by decide) ⟨by decide, by decide⟩ (by decide) (by decide)

/-- C17, the code at the failing input.  The fresh `NewRingBuffer(1, 1)` has
`readBarrier = 0` while its only read cursor, hence the minimum, is -1: the
barrier exceeds a consumer's cursor.  `Put(7)` changes neither.  (The
constructor sets the cursors to -1 and leaves the barrier at Go's zero
value.) -/
theorem fresh_barrier_above_cursor :
    Run (α := Nat) 1 1 [] ⟨1, [none], 0, [-1], [0], 0, 0⟩ ∧
    (⟨1, [none], 0, [-1], [0], 0, 0⟩ : RingBuffer Nat).readBarrier = 0 ∧
    lowestCursor (α := Nat) ⟨1, [none], 0, [-1], [0], 0, 0⟩ = -1 ∧
    Run (α := Nat) 1 1 [.put [some 7]] ⟨1, [some 7], 1, [-1], [1], 0, 0⟩ ∧
    (⟨1, [some 7], 1, [-1], [1], 0, 0⟩ : RingBuffer Nat).readBarrier = 0 ∧
    lowestCursor (α := Nat) ⟨1, [some 7], 1, [-1], [1], 0, 0⟩ = -1 := by
  refine ⟨⟨_, rfl, RunFrom.nil _⟩, rfl, by decide,
    ⟨_, rfl, RunFrom.put [] _ _ _ (RunFrom.nil _) (by decide)⟩, rfl, by decide⟩


/-- Every slot below the capacity is the slot of one of the last `C`
sequences. -/
theorem exists_seq_of_slot {C W p : Nat} (hp : p < C) (hpW : p < W) :
    ∃ s : Nat, s < W ∧ W ≤ s + C ∧ s % C = p := by
  refine ⟨p + C * ((W - 1 - p) / C), ?_, ?_, ?_⟩
  · have := Nat.div_mul_le_self (W - 1 - p) C
    rw [Nat.mul_comm] at this
    omega
  · have h1 := Nat.div_add_mod (W - 1 - p) C
    have h2 := Nat.mod_lt (W - 1 - p) (by omega : C > 0)
    omega
  · rw [Nat.add_mul_mod_self_left]
    exact Nat.mod_eq_of_lt hp

/-- In a state of a history the flag of slot `p` is 1 exactly when `p` is
below the number of values put. -/
theorem Inv_flags {C n : Nat} {P : List (Option α)} {rb : RingBuffer α} (hI : Inv C n P rb)
    (p : Nat) (hp : p < C) :
    rb.available[p]? = some (if p < P.length then 1 else 0) := by
  by_cases h : p < P.length
  · rw [if_pos h]
    obtain ⟨s, h1, h2, h3⟩ := exists_seq_of_slot hp h
    have := (hI.pub.1 s h1 h2).2
    rw [h3] at this
    exact this
  · rw [if_neg h]
    exact hI.pub.2 p (by omega) hp

/-- Once a full lap has been put, no sequence makes the loop of `Get` wait. -/
theorem probe_ne_wait {C n : Nat} {P : List (Option α)} {rb : RingBuffer α}
    (hI : Inv C n P rb) (hfull : C ≤ P.length) (s : Nat) : probe rb (s : Int) ≠ .wait := by
  have hm : s % C < C := Nat.mod_lt _ hI.shape.pos
  have hav := Inv_flags hI (s % C) hm
  rw [if_pos (by omega)] at hav
  have hbuf : ∃ v, rb.buffer[s % C]? = some v :=
    ⟨_, List.getElem?_eq_getElem (by rw [hI.shape.buf_len]; exact hm)⟩
  obtain ⟨v, hv⟩ := hbuf
  by_cases hc : (s : Int) ≤ rb.writeCursor ∧ (s : Int) - rb.readBarrier < rb.size
  · rw [probe_read_of hI.shape s v hc.1 (by rw [← hI.shape.size_eq]; exact hc.2) hav hv]
    simp
  · rw [probe_stop_of hc]
    simp

/-- A loop that meets neither an unavailable slot nor a failing access
returns within `batchSize - i + 1` iterations. -/
theorem getLoop_total (id b : Nat) :
    ∀ (fuel : Nat) (rb : RingBuffer α) (s : Int) (i idx : Nat) (res : List (Option α)),
    (∀ k : Nat, probe rb (s + k) ≠ .wait ∧ probe rb (s + k) ≠ .fault) →
    idx + (b - i) ≤ res.length → b - i < fuel →
    ∃ p rb1, getLoop fuel rb id b s i idx res = .done p rb1 := by
  intro fuel
  induction fuel with
  | zero => intro rb s i idx res _ _ hf; omega
  | succ f ih =>
    intro rb s i idx res hpr hx hf
    rw [getLoop_succ]
    by_cases hi : i < b
    · rw [if_pos hi]
      have h0 := hpr 0
      simp only [Nat.cast_zero, add_zero] at h0
      cases hp : probe rb s with
      | read v =>
        simp only
        rw [if_pos (by omega)]
        apply ih
        · intro k
          rw [probe_advance, show s + 1 + (k : Int) = s + ((k + 1 : Nat) : Int) by
            push_cast; ring]
          exact hpr (k + 1)
        · simp; omega
        · omega
      | wait => exact absurd hp h0.1
      | stop => exact ⟨_, _, rfl⟩
      | fault => exact absurd hp h0.2
    · rw [if_neg hi]
      exact ⟨_, _, rfl⟩

/-- In a state of a history, `Get` with a valid id and a batch size that
`make` accepts never panics. -/
theorem Get_no_panic {C n : Nat} {P : List (Option α)} {rb : RingBuffer α}
    (hI : Inv C n P rb) (fuel : Nat) (b id : Int) (hb : ¬ makePanics 16 b)
    (hid : 0 ≤ id ∧ id < n) (st : RingBuffer α) : Get fuel rb b id ≠ .panic st := by
  intro h
  rcases Get_panic_inv fuel rb b id st h with ⟨h1, _⟩ | ⟨h1, h2, k, hk⟩
  · rw [hI.ncur] at h1
    rcases h1 with h1 | h1 | h1
    · omega
    · omega
    · exact hb h1
  · have hlt : id.toNat < rb.readCursors.length := by omega
    have hmem : rb.readCursors.getD id.toNat 0 ∈ rb.readCursors := by
      rw [List.getD_eq_getElem?_getD, List.getElem?_eq_getElem hlt]
      exact List.getElem_mem hlt
    have hge := hI.cur_ge _ hmem
    have hcast : rb.readCursors.getD id.toNat 0 + 1 + (k : Int) =
        (((rb.readCursors.getD id.toNat 0 + 1).toNat + k : Nat) : Int) := by
      push_cast; omega
    rw [hcast] at hk
    exact probe_ne_fault hI.shape _ hk

/-- Once a full lap has been put, `Get` returns within `batchSize + 1`
iterations of its loop, for a batch size that `make` accepts. -/
theorem Get_total {C n : Nat} {P : List (Option α)} {rb : RingBuffer α}
    (hI : Inv C n P rb) (hfull : C ≤ P.length) (b id : Int) (hb : ¬ makePanics 16 b)
    (hid : 0 ≤ id ∧ id < n) (fuel : Nat) (hf : b.toNat < fuel) :
    ∃ res rb1, Get fuel rb b id = .done res rb1 := by
  have hlt : id.toNat < rb.readCursors.length := by rw [hI.ncur]; omega
  have hmem : rb.readCursors.getD id.toNat 0 ∈ rb.readCursors := by
    rw [List.getD_eq_getElem?_getD, List.getElem?_eq_getElem hlt]
    exact List.getElem_mem hlt
  have hge := hI.cur_ge _ hmem
  obtain ⟨p, rb1, hl⟩ := getLoop_total id.toNat b.toNat fuel rb
    (rb.readCursors.getD id.toNat 0 + 1) 0 0 (List.replicate b.toNat none)
    (by
      intro k
      have hcast : rb.readCursors.getD id.toNat 0 + 1 + (k : Int) =
          (((rb.readCursors.getD id.toNat 0 + 1).toNat + k : Nat) : Int) := by
        push_cast; omega
      rw [hcast]
      exact ⟨probe_ne_wait hI hfull _, probe_ne_fault hI.shape _⟩)
    (by simp) (by omega)
  unfold Get
  rw [if_neg (by rw [hI.ncur]; omega), if_neg hb, hl]
  exact ⟨_, _, rfl⟩

/-- What the store loop of `Put` leaves in each slot. -/
theorem putLoop_post (C : Nat) (data : List (Option α)) :
    ∀ (w : Nat) (rb : RingBuffer α), Shape C rb →
    ∃ rb1, putLoop rb (w : Int) data = .done () rb1 ∧ Shape C rb1 ∧
      rb1.writeCursor = rb.writeCursor ∧ rb1.readCursors = rb.readCursors ∧
      rb1.readBarrier = rb.readBarrier ∧ rb1.writeBarrier = rb.writeBarrier ∧
      ∀ p : Nat, p < C →
        (∀ j : Nat, j < data.length → (w + j) % C = p →
          (∀ j' : Nat, j' < data.length → (w + j') % C = p → j' ≤ j) →
          rb1.buffer[p]? = data[j]? ∧ rb1.available[p]? = some 1) ∧
        ((∀ j : Nat, j < data.length → (w + j) % C ≠ p) →
          rb1.buffer[p]? = rb.buffer[p]? ∧ rb1.available[p]? = rb.available[p]?) := by
  induction data with
  | nil =>
    intro w rb hs
    refine ⟨rb, rfl, hs, rfl, rfl, rfl, rfl, ?_⟩
    intro p _
    exact ⟨fun j hj => by simp at hj, fun _ => ⟨rfl, rfl⟩⟩
  | cons d ds ih =>
    intro w rb hs
    have hC := hs.pos
    have hm : w % C < C := Nat.mod_lt _ hC
    have hs1 : Shape C (store rb (w % C) d) :=
      ⟨hs.size_eq, hs.pos, by simp [store, hs.buf_len], by simp [store, hs.av_len]⟩
    obtain ⟨rb1, h1, h2, h3, h4, h5, h6, h7⟩ := ih (w + 1) (store rb (w % C) d) hs1
    have hsl : slotIndex rb.size (w : Int) = some (w % C) := by
      rw [hs.size_eq]; exact slotIndex_natCast _ _ hC
    refine ⟨rb1, ?_, h2, h3, h4, h5, h6, ?_⟩
    · unfold putLoop
      rw [hsl]
      simp only
      rw [if_pos (by rw [hs.buf_len]; exact hm), if_pos (by rw [hs.av_len]; exact hm)]
      rw [← h1]
      simp [store]
    · intro p hp
      obtain ⟨g1, g2⟩ := h7 p hp
      refine ⟨?_, ?_⟩
      · intro j hj hjp hmax
        cases j with
        | zero =>
          have hnone : ∀ j : Nat, j < ds.length → (w + 1 + j) % C ≠ p := by
            intro j' hj' he
            have := hmax (j' + 1) (by simp; omega) (by rw [← he]; congr 1; omega)
            omega
          obtain ⟨e1, e2⟩ := g2 hnone
          rw [e1, e2]
          simp only [Nat.add_zero] at hjp
          simp [store, hjp, List.getElem?_set, hs.buf_len, hs.av_len, hp]
        | succ j0 =>
          simp only [List.length_cons] at hj
          have := g1 j0 (by omega) (by rw [← hjp]; congr 1; omega)
            (by
              intro j' hj' he
              have := hmax (j' + 1) (by simp; omega) (by rw [← he]; congr 1; omega)
              omega)
          simpa using this
      · intro hnone
        have hnone' : ∀ j : Nat, j < ds.length → (w + 1 + j) % C ≠ p := by
          intro j' hj' he
          exact hnone (j' + 1) (by simp; omega) (by rw [← he]; congr 1; omega)
        obtain ⟨e1, e2⟩ := g2 hnone'
        have h0 : w % C ≠ p := by
          have := hnone 0 (by simp)
          simpa using this
        rw [e1, e2]
        simp [store, List.getElem?_set, h0]


/-- C15.  Put postcondition: on a buffer with capacity `C ≥ 1` in a state
with `writeCursor = w ≥ 0`, `Put(d_0, ..., d_{m-1})` returns with
`writeCursor = w + m`; for every slot `p < C`, if some `j < m` has
`(w + j) mod C = p` then `buffer[p] = d_j` for the largest such `j` and
`available[p] = 1`, otherwise `buffer[p]` and `available[p]` are unchanged;
`readCursors` and `readBarrier` are unchanged; and `Put()` with no values
changes nothing. -/
theorem put_postcondition (C : Nat) (hC : 1 ≤ C) (rb : RingBuffer α) (hs : Shape C rb)
    (w : Nat) (hw : rb.writeCursor = (w : Int)) (data : List (Option α)) :
    (∃ rb1, Put rb data = .done () rb1 ∧
      rb1.writeCursor = (w : Int) + data.length ∧
      (∀ p : Nat, p < C →
        (∀ j : Nat, j < data.length → (w + j) % C = p →
          (∀ j' : Nat, j' < data.length → (w + j') % C = p → j' ≤ j) →
          rb1.buffer[p]? = data[j]? ∧ rb1.available[p]? = some 1) ∧
        ((∀ j : Nat, j < data.length → (w + j) % C ≠ p) →
          rb1.buffer[p]? = rb.buffer[p]? ∧ rb1.available[p]? = rb.available[p]?)) ∧
      rb1.readCursors = rb.readCursors ∧ rb1.readBarrier = rb.readBarrier) ∧
    Put rb [] = .done () rb := by
  refine ⟨?_, ?_⟩
  · obtain ⟨rb1, h1, _, h3, h4, h5, _, h7⟩ :=
      putLoop_post C data w (withCursor rb (rb.writeCursor + data.length))
        ⟨hs.size_eq, hs.pos, hs.buf_len, hs.av_len⟩
    refine ⟨rb1, ?_, ?_, h7, h4, h5⟩
    · unfold Put
      rw [← hw] at h1
      exact h1
    · rw [h3, ← hw]
      rfl
  · cases rb
    simp [Put, putLoop]

/-- Witness of C15: capacity 2, write cursor 1, `Put(7, 8, 9)` wraps around:
slot 1 ends with 9 (the largest `j` mapping to it), slot 0 with 8. -/
theorem put_postcondition_witness :
    (∃ rb1, Put (α := Nat) ⟨2, [some 1, none], 1, [0], [1, 0], 0, 0⟩
        [some 7, some 8, some 9] = .done () rb1 ∧
      rb1.writeCursor = ((1 : Nat) : Int) + ([some 7, some 8, some 9] : List (Option Nat)).length ∧
      (∀ p : Nat, p < 2 →
        (∀ j : Nat, j < ([some 7, some 8, some 9] : List (Option Nat)).length →
          (1 + j) % 2 = p →
          (∀ j' : Nat, j' < ([some 7, some 8, some 9] : List (Option Nat)).length →
            (1 + j') % 2 = p → j' ≤ j) →
          rb1.buffer[p]? = ([some 7, some 8, some 9] : List (Option Nat))[j]? ∧
          rb1.available[p]? = some 1) ∧
        ((∀ j : Nat, j < ([some 7, some 8, some 9] : List (Option Nat)).length →
            (1 + j) % 2 ≠ p) →
          rb1.buffer[p]? =
            (⟨2, [some 1, none], 1, [0], [1, 0], 0, 0⟩ : RingBuffer Nat).buffer[p]? ∧
          rb1.available[p]? =
            (⟨2, [some 1, none], 1, [0], [1, 0], 0, 0⟩ : RingBuffer Nat).available[p]?)) ∧
      rb1.readCursors = (⟨2, [some 1, none], 1, [0], [1, 0], 0, 0⟩ : RingBuffer Nat).readCursors ∧
      rb1.readBarrier =
        (⟨2, [some 1, none], 1, [0], [1, 0], 0, 0⟩ : RingBuffer Nat).readBarrier) ∧
    Put (α := Nat) ⟨2, [some 1, none], 1, [0], [1, 0], 0, 0⟩ [] =
      .done () ⟨2, [some 1, none], 1, [0], [1, 0], 0, 0⟩ :=
  put_postcondition 2 (by decide) ⟨2, [some 1, none], 1, [0], [1, 0], 0, 0⟩
    ⟨rfl, by decide, rfl, rfl⟩ 1 rfl [some 7, some 8, some 9]

/-- C18.  In every state of a history of `NewRingBuffer(C, n)` (`C ≥ 1`,
`n ≥ 1`), `available[p] = 1` exactly for the slots `p < min(writeCursor, C)`,
the other flags being 0; consequently, once `writeCursor ≥ C`, no sequence
makes the loop of `Get` take the wait branch and every `Get(batchSize, id)`
with a valid id and `batchSize ≥ 0` terminates within `batchSize + 1` loop
iterations: it returns when `make` accepts the batch size, and otherwise it
stops at `make`, before the loop, with the buffer unchanged. -/
theorem get_waits_only_in_first_lap (C n : Nat) (hC : 1 ≤ C) (hn : 1 ≤ n)
    (tr : List (Event α)) (rb : RingBuffer α) (hrun : Run (C : Int) (n : Int) tr rb) :
    (∀ p : Nat, p < C →
      (rb.available[p]? = some 1 ↔ (p : Int) < rb.writeCursor) ∧
      (rb.available[p]? = some 0 ↔ rb.writeCursor ≤ (p : Int))) ∧
    ((C : Int) ≤ rb.writeCursor →
      (∀ s : Nat, probe rb (s : Int) ≠ .wait) ∧
      ∀ b id : Int, 0 ≤ b → 0 ≤ id ∧ id < n →
        ∀ fuel : Nat, b.toNat < fuel →
          (16 * b ≤ (maxAlloc : Int) → ∃ res rb1, Get fuel rb b id = .done res rb1) ∧
          ((maxAlloc : Int) < 16 * b → Get fuel rb b id = .panic rb)) := by
  have hI := Run_inv (by omega : 0 < C) hrun
  have hwc := hI.wc
  refine ⟨?_, ?_⟩
  · intro p hp
    have := Inv_flags hI p hp
    by_cases h : p < (putValues tr).length
    · rw [if_pos h] at this
      rw [this]
      constructor
      · simp; omega
      · simp; omega
    · rw [if_neg h] at this
      rw [this]
      constructor
      · simp; omega
      · simp; omega
  · intro hfull
    have hf : C ≤ (putValues tr).length := by omega
    refine ⟨fun s => probe_ne_wait hI hf s, ?_⟩
    intro b id hb hid fuel hfuel
    refine ⟨?_, ?_⟩
    · intro hmk
      exact Get_total hI hf b id (by unfold makePanics; omega) hid fuel hfuel
    · intro hmk
      exact Get_make_panics fuel rb b id (by rw [hI.ncur]; exact hid) (Or.inr hmk)

/-- Witness of C18: capacity 2, one consumer, after `Put(1, 2)` a full lap has
been put. -/
theorem get_waits_only_in_first_lap_witness :
    (∀ p : Nat, p < 2 →
      ((⟨2, [some 1, some 2], 2, [-1], [1, 1], 0, 0⟩ : RingBuffer Nat).available[p]? = some 1 ↔
        (p : Int) < (⟨2, [some 1, some 2], 2, [-1], [1, 1], 0, 0⟩ : RingBuffer Nat).writeCursor) ∧
      ((⟨2, [some 1, some 2], 2, [-1], [1, 1], 0, 0⟩ : RingBuffer Nat).available[p]? = some 0 ↔
        (⟨2, [some 1, some 2], 2, [-1], [1, 1], 0, 0⟩ : RingBuffer Nat).writeCursor ≤ (p : Int))) ∧
    (((2 : Nat) : Int) ≤ (⟨2, [some 1, some 2], 2, [-1], [1, 1], 0, 0⟩ : RingBuffer Nat).writeCursor →
      (∀ s : Nat,
        probe (α := Nat) ⟨2, [some 1, some 2], 2, [-1], [1, 1], 0, 0⟩ (s : Int) ≠ .wait) ∧
      ∀ b id : Int, 0 ≤ b → 0 ≤ id ∧ id < (1 : Nat) →
        ∀ fuel : Nat, b.toNat < fuel →
          (16 * b ≤ (maxAlloc : Int) →
            ∃ res rb1, Get (α := Nat) fuel ⟨2, [some 1, some 2], 2, [-1], [1, 1], 0, 0⟩ b id =
              .done res rb1) ∧
          ((maxAlloc : Int) < 16 * b →
            Get (α := Nat) fuel ⟨2, [some 1, some 2], 2, [-1], [1, 1], 0, 0⟩ b id =
              .panic ⟨2, [some 1, some 2], 2, [-1], [1, 1], 0, 0⟩)) :=
  get_waits_only_in_first_lap 2 1 (by decide) (by decide) [.put [some 1, some 2]]
    ⟨2, [some 1, some 2], 2, [-1], [1, 1], 0, 0⟩
    ⟨_, rfl, RunFrom.put [] _ _ _ (RunFrom.nil _) (by decide)⟩

/-- C19, counterexample.  In the state of `NewRingBuffer(2, 1)` after
`Put(1, 2, 3)`, the call `Get(1 << 62, 0)` has a valid consumer id and a
non-negative batch size, yet it fails, whatever the fuel:
`make([]interface{}, batchSize)` rejects the length. -/
theorem get_fails_on_huge_batch :
    Run (α := Nat) 2 1 [.put [some 1, some 2, some 3]]
      ⟨2, [some 3, some 2], 3, [-1], [1, 1], 0, 0⟩ ∧
    (0 : Int) ≤ 4611686018427387904 ∧ ((0 : Int) ≤ 0 ∧ (0 : Int) < 1) ∧
    ∀ fuel : Nat,
      Get (α := Nat) fuel ⟨2, [some 3, some 2], 3, [-1], [1, 1], 0, 0⟩ 4611686018427387904 0 =
        .panic ⟨2, [some 3, some 2], 3, [-1], [1, 1], 0, 0⟩ := by
  refine ⟨⟨_, rfl, RunFrom.put [] _ _ _ (RunFrom.nil _) (by decide)⟩, by decide, by decide, ?_⟩
  intro fuel
  exact Get_make_panics fuel _ _ _ ⟨by decide, by decide⟩ (by decide)

/-- C19, amended.  Index safety: in every state of a history of
`NewRingBuffer(C, n)` (`C ≥ 1`, `n ≥ 1`) the modulus `size` is `C`, not zero;
the write cursor and every `readCursors[i] + 1` are non-negative; the slot
index of every non-negative sequence lies in `[0, C)`, inside both slices;
`Put` returns for every list of values; `Get` with a valid id and a batch size
`0 ≤ batchSize` with `16 * batchSize ≤ maxAlloc` never panics; with a valid id
and a larger batch size it panics at `make`, before any index is computed,
leaving the buffer unchanged; and whenever `Get` returns, it returns at most
`batchSize` values. -/
theorem index_safety_within_make_limit (C n : Nat) (hC : 1 ≤ C) (hn : 1 ≤ n)
    (tr : List (Event α)) (rb : RingBuffer α) (hrun : Run (C : Int) (n : Int) tr rb) :
    rb.size = (C : Int) ∧ rb.size ≠ 0 ∧ 0 ≤ rb.writeCursor ∧
    (∀ c ∈ rb.readCursors, 0 ≤ c + 1) ∧
    (∀ s : Int, 0 ≤ s → ∃ p : Nat, slotIndex rb.size s = some p ∧ p < C ∧
      p < rb.buffer.length ∧ p < rb.available.length) ∧
    (∀ data : List (Option α), ∃ rb1, Put rb data = .done () rb1) ∧
    (∀ (fuel : Nat) (b id : Int), 0 ≤ b → 0 ≤ id ∧ id < n →
      (16 * b ≤ (maxAlloc : Int) → ∀ st, Get fuel rb b id ≠ .panic st) ∧
      ((maxAlloc : Int) < 16 * b → Get fuel rb b id = .panic rb) ∧
      ∀ res rb1, Get fuel rb b id = .done res rb1 → (res.length : Int) ≤ b) := by
  have hI := Run_inv (by omega : 0 < C) hrun
  refine ⟨hI.shape.size_eq, by rw [hI.shape.size_eq]; omega, by rw [hI.wc]; omega, ?_, ?_,
    ?_, ?_⟩
  · intro c hc
    have := hI.cur_ge c hc
    omega
  · intro s hs
    have hm : s.toNat % C < C := Nat.mod_lt _ hI.shape.pos
    refine ⟨s.toNat % C, ?_, hm, by rw [hI.shape.buf_len]; exact hm,
      by rw [hI.shape.av_len]; exact hm⟩
    rw [hI.shape.size_eq]
    have := slotIndex_natCast s.toNat C hI.shape.pos
    rw [Int.toNat_of_nonneg hs] at this
    exact this
  · intro data
    obtain ⟨rb1, h1, _⟩ := Put_inv C n _ data rb hI
    exact ⟨rb1, h1⟩
  · intro fuel b id hb hid
    refine ⟨fun hmk st => Get_no_panic hI fuel b id (by unfold makePanics; omega) hid st,
      fun hmk => Get_make_panics fuel rb b id (by rw [hI.ncur]; exact hid) (Or.inr hmk), ?_⟩
    intro res rb1 hget
    obtain ⟨_, _, _, _, _, _, hl, _⟩ := Get_done_inv fuel rb b id res rb1 hget
    omega

/-- Witness of the amended C19: capacity 2, one consumer, after
`Put(1, 2, 3)`. -/
theorem index_safety_within_make_limit_witness :
    (⟨2, [some 3, some 2], 3, [-1], [1, 1], 0, 0⟩ : RingBuffer Nat).size = ((2 : Nat) : Int) ∧
    (⟨2, [some 3, some 2], 3, [-1], [1, 1], 0, 0⟩ : RingBuffer Nat).size ≠ 0 ∧
    0 ≤ (⟨2, [some 3, some 2], 3, [-1], [1, 1], 0, 0⟩ : RingBuffer Nat).writeCursor ∧
    (∀ c ∈ (⟨2, [some 3, some 2], 3, [-1], [1, 1], 0, 0⟩ : RingBuffer Nat).readCursors,
      0 ≤ c + 1) ∧
    (∀ s : Int, 0 ≤ s → ∃ p : Nat,
      slotIndex (⟨2, [some 3, some 2], 3, [-1], [1, 1], 0, 0⟩ : RingBuffer Nat).size s = some p ∧
      p < 2 ∧
      p < (⟨2, [some 3, some 2], 3, [-1], [1, 1], 0, 0⟩ : RingBuffer Nat).buffer.length ∧
      p < (⟨2, [some 3, some 2], 3, [-1], [1, 1], 0, 0⟩ : RingBuffer Nat).available.length) ∧
    (∀ data : List (Option Nat), ∃ rb1,
      Put ⟨2, [some 3, some 2], 3, [-1], [1, 1], 0, 0⟩ data = .done () rb1) ∧
    (∀ (fuel : Nat) (b id : Int), 0 ≤ b → 0 ≤ id ∧ id < (1 : Nat) →
      (16 * b ≤ (maxAlloc : Int) →
        ∀ st, Get (α := Nat) fuel ⟨2, [some 3, some 2], 3, [-1], [1, 1], 0, 0⟩ b id ≠ .panic st) ∧
      ((maxAlloc : Int) < 16 * b →
        Get (α := Nat) fuel ⟨2, [some 3, some 2], 3, [-1], [1, 1], 0, 0⟩ b id =
          .panic ⟨2, [some 3, some 2], 3, [-1], [1, 1], 0, 0⟩) ∧
      ∀ res rb1,
        Get (α := Nat) fuel ⟨2, [some 3, some 2], 3, [-1], [1, 1], 0, 0⟩ b id = .done res rb1 →
        (res.length : Int) ≤ b) :=
  index_safety_within_make_limit 2 1 (by decide) (by decide) [.put [some 1, some 2, some 3]]
    ⟨2, [some 3, some 2], 3, [-1], [1, 1], 0, 0⟩
    ⟨_, rfl, RunFrom.put [] _ _ _ (RunFrom.nil _) (by decide)⟩

theorem slot_ne {C w m k : Nat} (h : m ≠ k) (hm : m < C) (hk : k < C) :
    (w + m) % C ≠ (w + k) % C := by
  rcases Nat.lt_or_gt_of_ne h with h1 | h1
  · exact mod_ne_of_lt (by omega) (by omega)
  · exact (mod_ne_of_lt (by omega) (by omega)).symm

theorem AgreeOff.refl (rb : RingBuffer α) (q : Nat) : AgreeOff rb rb q :=
  fun _ _ => ⟨rfl, rfl⟩

/-- A store to a slot outside the range of `d` leaves what is filled of that
range in place. -/
theorem Filled_frame {fit : Prop} {C w : Nat} {rb rb1 : RingBuffer α} {d : List (Option α)}
    {o ks kf m : Nat} (h : Filled fit C w rb d o ks kf) (hag : AgreeOff rb rb1 ((w + m) % C))
    (hks : ks ≤ d.length) (hkf : kf ≤ d.length) (hC : fit → o + d.length ≤ C)
    (hm : fit → m < C)
    (hout : ∀ j : Nat, j < d.length → o + j ≠ m) : Filled fit C w rb1 d o ks kf := by
  intro hf
  have h := h hf
  have hC := hC hf
  have hm := hm hf
  refine ⟨?_, ?_⟩
  · intro j hj
    have hne : (w + o + j) % C ≠ (w + m) % C := by
      rw [Nat.add_assoc]
      exact slot_ne (hout j (by omega)) (by omega) hm
    rw [(hag _ hne).1]
    exact h.1 j hj
  · intro j hj
    have hne : (w + o + j) % C ≠ (w + m) % C := by
      rw [Nat.add_assoc]
      exact slot_ne (hout j (by omega)) (by omega) hm
    rw [(hag _ hne).2]
    exact h.2 j hj

/-- A store to a slot outside the range of a producer leaves its claim on the
range intact. -/
theorem Owns_frame {fit : Prop} {C w : Nat} {rb rb1 : RingBuffer α} {d : List (Option α)} {o m : Nat}
    {t : Producer α} (h : Owns fit C w rb d o t) (hag : AgreeOff rb rb1 ((w + m) % C))
    (hC : fit → o + d.length ≤ C) (hm : fit → m < C)
    (hout : ∀ j : Nat, j < d.length → o + j ≠ m) :
    Owns fit C w rb1 d o t := by
  cases t with
  | claim data => exact h
  | payload nw x xs =>
    obtain ⟨k, h1, h2, h3, h4⟩ := h
    exact ⟨k, h1, h2, h3, Filled_frame h4 hag (by omega) (by omega) hC hm hout⟩
  | flag nw xs =>
    obtain ⟨k, h1, h2, h3, h4⟩ := h
    exact ⟨k, h1, h2, h3, Filled_frame h4 hag (by omega) (by omega) hC hm hout⟩
  | returned nw =>
    obtain ⟨h1, h2⟩ := h
    exact ⟨h1, Filled_frame h2 hag (by omega) (by omega) hC hm hout⟩

/-- The fetch-and-add of another producer leaves the claim intact. -/
theorem Owns_withCursor {fit : Prop} {C w : Nat} {rb : RingBuffer α} {d : List (Option α)} {o : Nat}
    {t : Producer α} (x : Int) (h : Owns fit C w rb d o t) : Owns fit C w (withCursor rb x) d o t := by
  cases t with
  | claim data => exact h
  | payload nw y ys => exact h
  | flag nw ys => exact h
  | returned nw => exact h

/-- At the loop head with `k` items fully stored. -/
theorem Owns_enter {fit : Prop} {C w : Nat} {rb : RingBuffer α} {d : List (Option α)} {o k : Nat}
    (hk : k ≤ d.length) (h : Filled fit C w rb d o k k) :
    Owns fit C w rb d o (Producer.enter ((w + o + k : Nat) : Int) (d.drop k)) := by
  cases hd : d.drop k with
  | nil =>
    have hlen : k = d.length := by
      have := congrArg List.length hd
      simp at this
      omega
    subst hlen
    exact ⟨rfl, h⟩
  | cons x xs =>
    have hlt : k < d.length := by
      have := congrArg List.length hd
      simp at this
      omega
    exact ⟨k, hlt, hd, rfl, h⟩

theorem drop_cons_facts {d : List (Option α)} {k : Nat} {x : Option α} {xs : List (Option α)}
    (h : d.drop k = x :: xs) : d[k]? = some x ∧ d.drop (k + 1) = xs ∧
      d.length = k + xs.length + 1 := by
  have h1 : d[k]? = some x := by
    have := List.getElem?_drop (L := d) (i := k) (j := 0)
    rw [h] at this
    simpa using this.symm
  have h2 : d.drop (k + 1) = xs := by
    have := List.drop_drop 1 k d
    rw [h] at this
    simpa [Nat.add_comm] using this.symm
  have h3 := congrArg List.length h
  simp at h3
  exact ⟨h1, h2, by omega⟩

/-- A producer that has its range takes its next step without failing, writes
one slot of its own range and keeps its claim; or it has returned. -/
theorem own_step {fit : Prop} {C w : Nat} {rb : RingBuffer α} {d : List (Option α)} {o : Nat}
    {t : Producer α} (hs : Shape C rb) (h : Owns fit C w rb d o t)
    (hC : fit → o + d.length ≤ C) :
    (producerStep rb t = none ∧ ∃ nw, t = .returned nw) ∨
    ∃ rb1 t1 k, producerStep rb t = some (rb1, t1) ∧ k < d.length ∧
      AgreeOff rb rb1 ((w + (o + k)) % C) ∧ Owns fit C w rb1 d o t1 ∧ Shape C rb1 ∧
      rb1.writeCursor = rb.writeCursor := by
  have hpos := hs.pos
  cases t with
  | claim data => exact absurd h (by simp [Owns])
  | returned nw => exact Or.inl ⟨rfl, nw, rfl⟩
  | payload nw x xs =>
    obtain ⟨k, h1, h2, h3, h4⟩ := h
    obtain ⟨g1, g2, g3⟩ := drop_cons_facts h2
    have hm : (w + o + k) % C < C := Nat.mod_lt _ hpos
    have hsl : slotIndex rb.size nw = some ((w + o + k) % C) := by
      rw [hs.size_eq, h3]; exact slotIndex_natCast _ _ hpos
    right
    refine ⟨{ rb with buffer := rb.buffer.set ((w + o + k) % C) x }, .flag nw xs, k, ?_, h1,
      ?_, ?_, ⟨hs.size_eq, hs.pos, by simp [hs.buf_len], hs.av_len⟩, rfl⟩
    · simp only [producerStep, hsl]
      rw [if_pos (by rw [hs.buf_len]; exact hm)]
    · intro p hp
      rw [← Nat.add_assoc] at hp
      exact ⟨by simp [List.getElem?_set, Ne.symm hp], rfl⟩
    · refine ⟨k, h1, g2, h3, ?_⟩
      intro hf
      have hC := hC hf
      obtain ⟨f1, f2⟩ := h4 hf
      refine ⟨?_, ?_⟩
      · intro j hj
        by_cases he : j = k
        · subst he
          simp [List.getElem?_set, hs.buf_len, hm, g1]
        · have hne : (w + o + k) % C ≠ (w + o + j) % C := by
            rw [Nat.add_assoc, Nat.add_assoc]
            exact slot_ne (by omega) (by omega) (by omega)
          simp only [List.getElem?_set, hne, if_false]
          exact f1 j (by omega)
      · intro j hj
        exact f2 j hj
  | flag nw xs =>
    obtain ⟨k, h1, h2, h3, h4⟩ := h
    have hm : (w + o + k) % C < C := Nat.mod_lt _ hpos
    have hsl : slotIndex rb.size nw = some ((w + o + k) % C) := by
      rw [hs.size_eq, h3]; exact slotIndex_natCast _ _ hpos
    have hfill : Filled fit C w { rb with available := rb.available.set ((w + o + k) % C) 1 }
        d o (k + 1) (k + 1) := by
      intro hf
      have hC := hC hf
      obtain ⟨f1, f2⟩ := h4 hf
      refine ⟨f1, ?_⟩
      intro j hj
      by_cases he : j = k
      · subst he
        simp [List.getElem?_set, hs.av_len, hm]
      · have hne : (w + o + k) % C ≠ (w + o + j) % C := by
          rw [Nat.add_assoc, Nat.add_assoc]
          exact slot_ne (by omega) (by omega) (by omega)
        simp only [List.getElem?_set, hne, if_false]
        exact f2 j (by omega)
    right
    refine ⟨{ rb with available := rb.available.set ((w + o + k) % C) 1 },
      Producer.enter (nw + 1) xs, k, ?_, h1, ?_, ?_,
      ⟨hs.size_eq, hs.pos, hs.buf_len, by simp [hs.av_len]⟩, rfl⟩
    · simp only [producerStep, hsl]
      rw [if_pos (by rw [hs.av_len]; exact hm)]
    · intro p hp
      rw [← Nat.add_assoc] at hp
      exact ⟨rfl, by simp [List.getElem?_set, Ne.symm hp]⟩
    · have := Owns_enter (C := C) (w := w) (o := o) (k := k + 1) (by omega) hfill
      rw [h2] at this
      have e : ((w + o + (k + 1) : Nat) : Int) = nw + 1 := by
        rw [h3]; push_cast; ring
      rw [e] at this
      exact this

/-- The fetch-and-add gives the producer the range at the current write
cursor. -/
theorem claim_step {fit : Prop} {C w : Nat} (rb : RingBuffer α) (d : List (Option α)) (o : Nat)
    (hw : rb.writeCursor = ((w + o : Nat) : Int)) :
    producerStep rb (.claim d) =
      some (withCursor rb (rb.writeCursor + d.length), Producer.enter rb.writeCursor d) ∧
    Owns fit C w (withCursor rb (rb.writeCursor + d.length)) d o
      (Producer.enter rb.writeCursor d) := by
  refine ⟨rfl, ?_⟩
  have h0 : Filled fit C w (withCursor rb (rb.writeCursor + d.length)) d o 0 0 :=
    fun _ => ⟨fun j hj => by omega, fun j hj => by omega⟩
  have := Owns_enter (C := C) (w := w) (o := o) (k := 0) (by omega) h0
  rw [List.drop_zero, Nat.add_zero, ← hw] at this
  exact this

/-- A step of a producer that has its range, next to a producer that has its
own, disjoint range. -/
theorem step_both {fit : Prop} {C w : Nat} {rb : RingBuffer α} {dX dY : List (Option α)} {oX oY : Nat}
    {tX tY : Producer α} (hs : Shape C rb) (hX : Owns fit C w rb dX oX tX)
    (hY : Owns fit C w rb dY oY tY) (hXC : fit → oX + dX.length ≤ C)
    (hYC : fit → oY + dY.length ≤ C)
    (hdis : oX + dX.length ≤ oY ∨ oY + dY.length ≤ oX) :
    (producerStep rb tX = none ∧ ∃ nw, tX = .returned nw) ∨
    ∃ rb1 t1, producerStep rb tX = some (rb1, t1) ∧ Shape C rb1 ∧ Owns fit C w rb1 dX oX t1 ∧
      Owns fit C w rb1 dY oY tY ∧ rb1.writeCursor = rb.writeCursor := by
  rcases own_step hs hX hXC with h | ⟨rb1, t1, k, h1, h2, h3, h4, h5, h6⟩
  · exact Or.inl h
  · right
    refine ⟨rb1, t1, h1, h5, h4, ?_, h6⟩
    exact Owns_frame hY h3 hYC (fun hf => by have := hXC hf; omega) (by intro j hj; omega)

theorem Shape_withCursor {C : Nat} {rb : RingBuffer α} (x : Int) (h : Shape C rb) :
    Shape C (withCursor rb x) :=
  ⟨h.size_eq, h.pos, h.buf_len, h.av_len⟩

/-- Every step of either producer keeps the invariant of the pair; a step
that is not possible belongs to a producer that has returned. -/
theorem DuoInv_step {fit : Prop} {C w : Nat} {a b : List (Option α)} {s : Duo α}
    (hI : DuoInv fit C w a b s) (hlen : fit → a.length + b.length ≤ C) (x : Bool) :
    (duoStep s x = none ∧ ∃ nw, (if x then s.a else s.b) = .returned nw) ∨
    ∃ s1, duoStep s x = some s1 ∧ DuoInv fit C w a b s1 := by
  obtain ⟨rb, ta, tb⟩ := s
  obtain ⟨hs, hl⟩ := hI
  simp only at hs hl
  rcases hl with ⟨ha, hb, hw⟩ | ⟨hA, hb, hw⟩ | ⟨ha, hB, hw⟩ | ⟨hA, hB, hw⟩ | ⟨hA, hB, hw⟩
  · -- neither producer has its range
    subst ha hb
    cases x with
    | true =>
      obtain ⟨e1, e2⟩ := claim_step (C := C) (w := w) rb a 0 (by simpa using hw)
      right
      refine ⟨⟨withCursor rb (rb.writeCursor + a.length), Producer.enter rb.writeCursor a,
        .claim b⟩, by simp only [duoStep, if_true, e1], Shape_withCursor _ hs, ?_⟩
      right; left
      exact ⟨e2, rfl, by simp only [withCursor]; rw [hw]; push_cast; ring⟩
    | false =>
      obtain ⟨e1, e2⟩ := claim_step (C := C) (w := w) rb b 0 (by simpa using hw)
      right
      refine ⟨⟨withCursor rb (rb.writeCursor + b.length), .claim a,
        Producer.enter rb.writeCursor b⟩, by simp [duoStep, e1], Shape_withCursor _ hs, ?_⟩
      right; right; left
      exact ⟨rfl, e2, by simp only [withCursor]; rw [hw]; push_cast; ring⟩
  · -- the first producer has its range
    subst hb
    cases x with
    | true =>
      rcases own_step hs hA (fun hf => by have := hlen hf; omega) with ⟨h1, h2⟩ | ⟨rb1, t1, k, h1, _, _, h4, h5, h6⟩
      · left
        exact ⟨by simp only [duoStep, if_true, h1], by simpa using h2⟩
      · right
        refine ⟨⟨rb1, t1, .claim b⟩, by simp only [duoStep, if_true, h1], h5, ?_⟩
        right; left
        exact ⟨h4, rfl, by simp only; rw [h6, hw]⟩
    | false =>
      obtain ⟨e1, e2⟩ := claim_step (C := C) (w := w) rb b a.length hw
      right
      refine ⟨⟨withCursor rb (rb.writeCursor + b.length), ta,
        Producer.enter rb.writeCursor b⟩, by simp [duoStep, e1], Shape_withCursor _ hs, ?_⟩
      right; right; right; left
      exact ⟨Owns_withCursor _ hA, e2, by simp only [withCursor]; rw [hw]; push_cast; ring⟩
  · -- the second producer has its range
    subst ha
    cases x with
    | true =>
      obtain ⟨e1, e2⟩ := claim_step (C := C) (w := w) rb a b.length hw
      right
      refine ⟨⟨withCursor rb (rb.writeCursor + a.length), Producer.enter rb.writeCursor a,
        tb⟩, by simp only [duoStep, if_true, e1], Shape_withCursor _ hs, ?_⟩
      right; right; right; right
      exact ⟨e2, Owns_withCursor _ hB, by simp only [withCursor]; rw [hw]; push_cast; ring⟩
    | false =>
      rcases own_step hs hB (fun hf => by have := hlen hf; omega) with ⟨h1, h2⟩ | ⟨rb1, t1, k, h1, _, _, h4, h5, h6⟩
      · left
        exact ⟨by simp [duoStep, h1], by simpa using h2⟩
      · right
        refine ⟨⟨rb1, .claim a, t1⟩, by simp [duoStep, h1], h5, ?_⟩
        right; right; left
        exact ⟨rfl, h4, by simp only; rw [h6, hw]⟩
  · -- both have their range, the first producer's range first
    cases x with
    | true =>
      rcases step_both hs hA hB (fun hf => by have := hlen hf; omega)
        (fun hf => by have := hlen hf; omega) (Or.inl (by omega)) with
        ⟨h1, h2⟩ | ⟨rb1, t1, h1, h2, h3, h4, h5⟩
      · left
        exact ⟨by simp only [duoStep, if_true, h1], by simpa using h2⟩
      · right
        refine ⟨⟨rb1, t1, tb⟩, by simp only [duoStep, if_true, h1], h2, ?_⟩
        right; right; right; left
        exact ⟨h3, h4, by simp only; rw [h5, hw]⟩
    | false =>
      rcases step_both hs hB hA (fun hf => by have := hlen hf; omega)
        (fun hf => by have := hlen hf; omega) (Or.inr (by omega)) with
        ⟨h1, h2⟩ | ⟨rb1, t1, h1, h2, h3, h4, h5⟩
      · left
        exact ⟨by simp [duoStep, h1], by simpa using h2⟩
      · right
        refine ⟨⟨rb1, ta, t1⟩, by simp [duoStep, h1], h2, ?_⟩
        right; right; right; left
        exact ⟨h4, h3, by simp only; rw [h5, hw]⟩
  · -- both have their range, the second producer's range first
    cases x with
    | true =>
      rcases step_both hs hA hB (fun hf => by have := hlen hf; omega)
        (fun hf => by have := hlen hf; omega) (Or.inr (by omega)) with
        ⟨h1, h2⟩ | ⟨rb1, t1, h1, h2, h3, h4, h5⟩
      · left
        exact ⟨by simp only [duoStep, if_true, h1], by simpa using h2⟩
      · right
        refine ⟨⟨rb1, t1, tb⟩, by simp only [duoStep, if_true, h1], h2, ?_⟩
        right; right; right; right
        exact ⟨h3, h4, by simp only; rw [h5, hw]⟩
    | false =>
      rcases step_both hs hB hA (fun hf => by have := hlen hf; omega)
        (fun hf => by have := hlen hf; omega) (Or.inl (by omega)) with
        ⟨h1, h2⟩ | ⟨rb1, t1, h1, h2, h3, h4, h5⟩
      · left
        exact ⟨by simp [duoStep, h1], by simpa using h2⟩
      · right
        refine ⟨⟨rb1, ta, t1⟩, by simp [duoStep, h1], h2, ?_⟩
        right; right; right; right
        exact ⟨h4, h3, by simp only; rw [h5, hw]⟩

/-- The invariant of the pair holds after every schedule. -/
theorem duoRun_inv {fit : Prop} {C w : Nat} {a b : List (Option α)}
    (hlen : fit → a.length + b.length ≤ C)
    (sched : List Bool) : ∀ s s1 : Duo α, DuoInv fit C w a b s → duoRun s sched = some s1 →
    DuoInv fit C w a b s1 := by
  induction sched with
  | nil =>
    intro s s1 hI h
    simp only [duoRun, Option.some.injEq] at h
    rw [← h]; exact hI
  | cons x xs ih =>
    intro s s1 hI h
    rcases DuoInv_step hI hlen x with ⟨h1, _⟩ | ⟨s2, h1, h2⟩
    · simp [duoRun, h1] at h
    · simp only [duoRun, h1] at h
      exact ih s2 s1 h2 h

/-- The first sequence of the range a producer holds. -/
theorem Owns_start {fit : Prop} {C w : Nat} {rb : RingBuffer α} {d : List (Option α)} {o : Nat}
    {t : Producer α} (h : Owns fit C w rb d o t) :
    Producer.start d t = some ((w + o : Nat) : Int) := by
  cases t with
  | claim data => exact absurd h (by simp [Owns])
  | payload nw x xs =>
    obtain ⟨k, h1, h2, h3, _⟩ := h
    obtain ⟨_, _, g3⟩ := drop_cons_facts h2
    simp only [Producer.start, Option.some.injEq]
    rw [h3, g3]; push_cast; ring
  | flag nw xs =>
    obtain ⟨k, h1, h2, h3, _⟩ := h
    have g3 : d.length = k + xs.length + 1 := by
      have := congrArg List.length h2
      simp at this
      omega
    simp only [Producer.start, Option.some.injEq]
    rw [h3, g3]; push_cast; ring
  | returned nw =>
    obtain ⟨h1, _⟩ := h
    simp only [Producer.start, Option.some.injEq]
    rw [h1]; push_cast; ring

/-- The slots of the range of a producer that has returned. -/
theorem Owns_returned {fit : Prop} {C w : Nat} {rb : RingBuffer α} {d : List (Option α)} {o : Nat}
    {nw : Int} (h : Owns fit C w rb d o (.returned nw)) (hf : fit) (j : Nat)
    (hj : j < d.length) :
    rb.buffer[((nw - d.length + j) % (C : Int)).toNat]? = d[j]? ∧
    rb.available[((nw - d.length + j) % (C : Int)).toNat]? = some 1 := by
  obtain ⟨h1, h2⟩ := h
  have e : nw - (d.length : Int) + (j : Int) = ((w + o + j : Nat) : Int) := by
    rw [h1]; push_cast; ring
  rw [e, emod_natCast_toNat]
  exact ⟨(h2 hf).1 j hj, (h2 hf).2 j hj⟩

/-- The steps of a producer running alone are the store loop of `Put`. -/
theorem putLoop_solo (data : List (Option α)) :
    ∀ (rb : RingBuffer α) (nw : Int) (rb1 : RingBuffer α),
    putLoop rb nw data = .done () rb1 →
    soloRun (2 * data.length) rb (Producer.enter nw data) =
      some (rb1, .returned (nw + data.length)) := by
  induction data with
  | nil =>
    intro rb nw rb1 h
    simp only [putLoop, Outcome.done.injEq, true_and] at h
    simp [soloRun, Producer.enter, h]
  | cons d ds ih =>
    intro rb nw rb1 h
    unfold putLoop at h
    cases hsl : slotIndex rb.size nw with
    | none => rw [hsl] at h; cases h
    | some p =>
      rw [hsl] at h
      simp only at h
      by_cases h1 : p < rb.buffer.length
      · rw [if_pos h1] at h
        by_cases h2 : p < rb.available.length
        · rw [if_pos h2] at h
          have := ih _ _ _ h
          rw [show 2 * (d :: ds).length = (2 * ds.length + 1) + 1 by simp; omega]
          rw [show Producer.enter nw (d :: ds) = Producer.payload nw d ds from rfl]
          simp only [soloRun, producerStep, hsl, if_pos h1, if_pos h2]
          rw [this]
          simp
          ring
        · rw [if_neg h2] at h; cases h
      · rw [if_neg h1] at h; cases h

/-- A producer running alone through its steps does what `Put` does. -/
theorem Put_solo (rb rb1 : RingBuffer α) (data : List (Option α))
    (h : Put rb data = .done () rb1) :
    soloRun (2 * data.length + 1) rb (.claim data) =
      some (rb1, .returned (rb.writeCursor + data.length)) := by
  unfold Put at h
  have := putLoop_solo data _ _ _ h
  simp only [soloRun, producerStep, withCursor]
  exact this


/-- C14.  Two `Put` calls with the values `a` and `b` run on the same buffer
(capacity `C ≥ 1`, write cursor `w ≥ 0`) with their steps interleaved by an
arbitrary schedule, the steps being the fetch-and-add and, per item, the
payload store and the availability store.  In every state the schedule
reaches: once both have done their fetch-and-add, their ranges start at `w`
and `w + len(a)`, or at `w + len(b)` and `w`, so they are disjoint, contiguous
and cover `[w, w + len(a) + len(b))`, and the write cursor is
`w + len(a) + len(b)`; when `len(a) + len(b) ≤ C` and both have returned,
every slot of each range holds the value its own caller passed for that
sequence and is flagged available; and no step of a producer that has not
returned fails. -/
theorem concurrent_puts_keep_their_ranges (C : Nat) (hC : 1 ≤ C) (rb : RingBuffer α)
    (hs : Shape C rb) (w : Nat) (hw : rb.writeCursor = (w : Int)) (a b : List (Option α))
    (sched : List Bool) (s : Duo α)
    (hrun : duoRun ⟨rb, .claim a, .claim b⟩ sched = some s) :
    (∀ sA sB : Int, Producer.start a s.a = some sA → Producer.start b s.b = some sB →
      ((sA = w ∧ sB = w + a.length) ∨ (sB = w ∧ sA = w + b.length)) ∧
      s.rb.writeCursor = w + a.length + b.length) ∧
    (a.length + b.length ≤ C → ∀ nA nB : Int, s.a = .returned nA → s.b = .returned nB →
      (∀ j : Nat, j < a.length →
        s.rb.buffer[((nA - a.length + j) % (C : Int)).toNat]? = a[j]? ∧
        s.rb.available[((nA - a.length + j) % (C : Int)).toNat]? = some 1) ∧
      (∀ j : Nat, j < b.length →
        s.rb.buffer[((nB - b.length + j) % (C : Int)).toNat]? = b[j]? ∧
        s.rb.available[((nB - b.length + j) % (C : Int)).toNat]? = some 1)) ∧
    (∀ x : Bool, duoStep s x = none → ∃ nw, (if x then s.a else s.b) = .returned nw) := by
  have h0 : DuoInv (a.length + b.length ≤ C) C w a b ⟨rb, .claim a, .claim b⟩ :=
    ⟨hs, Or.inl ⟨rfl, rfl, hw⟩⟩
  have hI := duoRun_inv (fun hf => hf) sched _ s h0 hrun
  refine ⟨?_, ?_, ?_⟩
  · intro sA sB hA hB
    rcases hI.layout with ⟨ha, _, _⟩ | ⟨_, hb, _⟩ | ⟨ha, _, _⟩ | ⟨oA, oB, hw1⟩ | ⟨oA, oB, hw1⟩
    · rw [ha] at hA; simp [Producer.start] at hA
    · rw [hb] at hB; simp [Producer.start] at hB
    · rw [ha] at hA; simp [Producer.start] at hA
    · rw [Owns_start oA] at hA
      rw [Owns_start oB] at hB
      simp only [Option.some.injEq] at hA hB
      refine ⟨Or.inl ⟨by rw [← hA]; simp, by rw [← hB]; simp⟩, by rw [hw1]; push_cast; ring⟩
    · rw [Owns_start oA] at hA
      rw [Owns_start oB] at hB
      simp only [Option.some.injEq] at hA hB
      refine ⟨Or.inr ⟨by rw [← hB]; simp, by rw [← hA]; simp⟩, by rw [hw1]; push_cast; ring⟩
  · intro hlen nA nB hA hB
    rcases hI.layout with ⟨ha, _, _⟩ | ⟨_, hb, _⟩ | ⟨ha, _, _⟩ | ⟨oA, oB, _⟩ | ⟨oA, oB, _⟩
    · rw [ha] at hA; cases hA
    · rw [hb] at hB; cases hB
    · rw [ha] at hA; cases hA
    · rw [hA] at oA
      rw [hB] at oB
      exact ⟨fun j hj => Owns_returned oA hlen j hj, fun j hj => Owns_returned oB hlen j hj⟩
    · rw [hA] at oA
      rw [hB] at oB
      exact ⟨fun j hj => Owns_returned oA hlen j hj, fun j hj => Owns_returned oB hlen j hj⟩
  · intro x hx
    rcases DuoInv_step hI (fun hf => hf) x with ⟨_, h2⟩ | ⟨s1, h1, _⟩
    · exact h2
    · rw [h1] at hx; cases hx

/-- Witness of C14: capacity 4, write cursor 0, `Put(1, 2)` and `Put(3)` under
the schedule first, second, second, first, first, second, first, first: the
ranges are `[0, 2)` and `[2, 3)` and both calls return. -/
theorem concurrent_puts_keep_their_ranges_witness :
    (∀ sA sB : Int,
      Producer.start [some 1, some 2] (Producer.returned (α := Nat) 2) = some sA →
      Producer.start [some 3] (Producer.returned (α := Nat) 3) = some sB →
      ((sA = ((0 : Nat) : Int) ∧
          sB = ((0 : Nat) : Int) + ([some 1, some 2] : List (Option Nat)).length) ∨
        (sB = ((0 : Nat) : Int) ∧
          sA = ((0 : Nat) : Int) + ([some 3] : List (Option Nat)).length)) ∧
      (⟨4, [some 1, some 2, some 3, none], 3, [-1], [1, 1, 1, 0], 0, 0⟩ :
          RingBuffer Nat).writeCursor =
        ((0 : Nat) : Int) + ([some 1, some 2] : List (Option Nat)).length +
          ([some 3] : List (Option Nat)).length) ∧
    (([some 1, some 2] : List (Option Nat)).length + ([some 3] : List (Option Nat)).length ≤ 4 →
      ∀ nA nB : Int, Producer.returned (α := Nat) 2 = .returned nA →
      Producer.returned (α := Nat) 3 = .returned nB →
      (∀ j : Nat, j < ([some 1, some 2] : List (Option Nat)).length →
        (⟨4, [some 1, some 2, some 3, none], 3, [-1], [1, 1, 1, 0], 0, 0⟩ :
            RingBuffer Nat).buffer[
          ((nA - ([some 1, some 2] : List (Option Nat)).length + j) % ((4 : Nat) : Int)).toNat]? =
          ([some 1, some 2] : List (Option Nat))[j]? ∧
        (⟨4, [some 1, some 2, some 3, none], 3, [-1], [1, 1, 1, 0], 0, 0⟩ :
            RingBuffer Nat).available[
          ((nA - ([some 1, some 2] : List (Option Nat)).length + j) % ((4 : Nat) : Int)).toNat]? =
          some 1) ∧
      (∀ j : Nat, j < ([some 3] : List (Option Nat)).length →
        (⟨4, [some 1, some 2, some 3, none], 3, [-1], [1, 1, 1, 0], 0, 0⟩ :
            RingBuffer Nat).buffer[
          ((nB - ([some 3] : List (Option Nat)).length + j) % ((4 : Nat) : Int)).toNat]? =
          ([some 3] : List (Option Nat))[j]? ∧
        (⟨4, [some 1, some 2, some 3, none], 3, [-1], [1, 1, 1, 0], 0, 0⟩ :
            RingBuffer Nat).available[
          ((nB - ([some 3] : List (Option Nat)).length + j) % ((4 : Nat) : Int)).toNat]? =
          some 1)) ∧
    (∀ x : Bool,
      duoStep (α := Nat)
        ⟨⟨4, [some 1, some 2, some 3, none], 3, [-1], [1, 1, 1, 0], 0, 0⟩,
          .returned 2, .returned 3⟩ x = none →
      ∃ nw, (if x then Producer.returned (α := Nat) 2 else Producer.returned (α := Nat) 3) =
        .returned nw) :=
  concurrent_puts_keep_their_ranges 4 (by decide)
    ⟨4, [none, none, none, none], 0, [-1], [0, 0, 0, 0], 0, 0⟩ ⟨rfl, by decide, rfl, rfl⟩
    0 rfl [some 1, some 2] [some 3]
    [true, false, false, true, true, false, true, true]
    ⟨⟨4, [some 1, some 2, some 3, none], 3, [-1], [1, 1, 1, 0], 0, 0⟩, .returned 2, .returned 3⟩
    (by decide)

end Lmax
